import Mathlib

/-!
# Bytecode compaction and relocation (`generic/tclOptimize.c`)

A shallow embedding of `CompactCode` and `TclOptimizeBytecode`.

* Every C `int` is a Lean `Int`; bytes of the code buffer are `Int`s too (an
  `unsigned char` promoted to `int`).  Stores into the buffer reduce modulo 256.
* The code buffer is the memory starting at `envPtr->codeStart`, a function from
  offsets to bytes; the logical length `codeNext - codeStart` is kept separately.
* The position map `NEW` is a function from offsets to `int`s; entries that the
  first pass never writes keep whatever the caller's array held.
* `tclCompile.h` is not among the sources: the opcode numbers and the length
  table `tclInstructionTable` are the fields of `InstrSet`, a parameter of every
  definition.
* Loops are recursions on a fuel argument; the fuel handed in by the callers is
  shown to be enough (`firstPass_fuel`, `secondPass_fuel`, `moveUp_fuel`,
  `CompactCode_spec`).
* The local `offset` of the second `switch` is read at line 164 without having
  been assigned on that path; the value found there is the parameter `junk`,
  arbitrary for every round and every offset.
-/

namespace TclOptimize

/-! ## Instruction set descriptor -/

/-- The opcodes used by the optimizer and the length table
`tclInstructionTable[op].numBytes`. -/
structure InstrSet where
  numBytes : Int → Int
  INST_NOP : Int
  INST_POP : Int
  INST_PUSH4 : Int
  INST_LOAD_SCALAR4 : Int
  INST_LOAD_ARRAY4 : Int
  INST_STORE_SCALAR4 : Int
  INST_STORE_ARRAY4 : Int
  INST_JUMP1 : Int
  INST_JUMP_TRUE1 : Int
  INST_JUMP_FALSE1 : Int
  INST_JUMP4 : Int
  INST_JUMP_TRUE4 : Int
  INST_JUMP_FALSE4 : Int
  INST_START_CMD : Int
  INST_FOREACH_START : Int
  INST_JUMP_TABLE : Int

/-- `InstLength(instruction)`. -/
def InstLength (I : InstrSet) (instruction : Int) : Int := I.numBytes instruction

/-- `INST_AT_PC(pc)`. -/
def INST_AT_PC (code : Int → Int) (pc : Int) : Int := code pc

/-- `NEXT_PC(pc)`. -/
def NEXT_PC (I : InstrSet) (code : Int → Int) (pc : Int) : Int :=
  pc + InstLength I (INST_AT_PC code pc)

/-- The labels `INST_PUSH4 ... INST_STORE_ARRAY4` of the first switch. -/
def isWideOperand (I : InstrSet) (inst : Int) : Prop :=
  inst = I.INST_PUSH4 ∨ inst = I.INST_LOAD_SCALAR4 ∨ inst = I.INST_LOAD_ARRAY4 ∨
    inst = I.INST_STORE_SCALAR4 ∨ inst = I.INST_STORE_ARRAY4

/-- The labels `INST_JUMP4, INST_JUMP_TRUE4, INST_JUMP_FALSE4`. -/
def isWideJump (I : InstrSet) (inst : Int) : Prop :=
  inst = I.INST_JUMP4 ∨ inst = I.INST_JUMP_TRUE4 ∨ inst = I.INST_JUMP_FALSE4

/-- The labels `INST_JUMP1, INST_JUMP_TRUE1, INST_JUMP_FALSE1`. -/
def isNarrowJump (I : InstrSet) (inst : Int) : Prop :=
  inst = I.INST_JUMP1 ∨ inst = I.INST_JUMP_TRUE1 ∨ inst = I.INST_JUMP_FALSE1

instance (I : InstrSet) (inst : Int) : Decidable (isWideOperand I inst) := by
  unfold isWideOperand; infer_instance

instance (I : InstrSet) (inst : Int) : Decidable (isWideJump I inst) := by
  unfold isWideJump; infer_instance

instance (I : InstrSet) (inst : Int) : Decidable (isNarrowJump I inst) := by
  unfold isNarrowJump; infer_instance

/-! ## Memory access -/

/-- Assignment to one cell of a buffer or array. -/
def store {α : Type} (m : Int → α) (k : Int) (v : α) : Int → α :=
  fun x => if x = k then v else m x

/-- Conversion of a 32-bit pattern to `int` (two's complement). -/
def toInt32 (v : Int) : Int :=
  if v % 4294967296 < 2147483648 then v % 4294967296 else v % 4294967296 - 4294967296

/-- Modelled from the spec: `TclGetInt1AtPtr` of `tclCompile.h` (not among the
sources), the "signed 1-byte displacement" read at an offset. -/
def GET_INT1_AT_PC (code : Int → Int) (pc : Int) : Int :=
  if code pc < 128 then code pc else code pc - 256

/-- Modelled from the spec: `TclGetUInt4AtPtr` of `tclCompile.h` (not among the
sources), the "4-byte unsigned operand value", most significant byte first. -/
def GET_UINT4_AT_PC (code : Int → Int) (pc : Int) : Int :=
  code pc * 16777216 + code (pc + 1) * 65536 + code (pc + 2) * 256 + code (pc + 3)

/-- Modelled from the spec: `TclGetInt4AtPtr` of `tclCompile.h` (not among the
sources), the "signed 4-byte displacement", most significant byte first. -/
def GET_INT4_AT_PC (code : Int → Int) (pc : Int) : Int :=
  GET_INT1_AT_PC code pc * 16777216 + code (pc + 1) * 65536 + code (pc + 2) * 256 +
    code (pc + 3)

/-- Modelled from the spec: `TclStoreInt1AtPtr` of `tclCompile.h` (not among the
sources): the low byte of `i` is written at `pc`. -/
def SET_INT1_AT_PC (i : Int) (pc : Int) (code : Int → Int) : Int → Int :=
  store code pc (i % 256)

/-- Modelled from the spec: `TclStoreInt4AtPtr` of `tclCompile.h` (not among the
sources): the four bytes of `i` are written at `pc`, most significant first. -/
def SET_INT4_AT_PC (i : Int) (pc : Int) (code : Int → Int) : Int → Int :=
  store (store (store (store code pc (i / 16777216 % 256)) (pc + 1) (i / 65536 % 256))
    (pc + 2) (i / 256 % 256)) (pc + 3) (i % 256)

/-! ## First pass (lines 85-130) -/

/-- State of the first loop: the no-op counter, the buffer and the position map. -/
structure Pass1 where
  nops : Int
  code : Int → Int
  NEW : Int → Int

/-- The first `switch`: `some arg` when `resize` ends up set, with the operand
`arg` that was read; `none` when `resize` stays 0. -/
def resizeArg (I : InstrSet) (code : Int → Int) (pc : Int) : Option Int :=
  let inst := INST_AT_PC code pc
  if inst = I.INST_NOP then none
  else if isWideOperand I inst then
    let arg := toInt32 (GET_UINT4_AT_PC code (pc + 1))
    if arg < 256 then some arg else none
  else if isWideJump I inst then
    let arg := GET_INT4_AT_PC code (pc + 1)
    if arg < 127 ∧ arg > -128 then some arg else none
  else none

/-- The body of `if (resize)` (lines 123-127, and again lines 201-205): the
opcode is decremented, the operand stored in one byte, three bytes become
`INST_NOP`. -/
def shrinkInst (I : InstrSet) (arg : Int) (pc : Int) (code : Int → Int) : Int → Int :=
  let c1 := store code pc ((INST_AT_PC code pc - 1) % 256)
  let c2 := SET_INT1_AT_PC arg (pc + 1) c1
  store (store (store c2 (pc + 2) I.INST_NOP) (pc + 3) I.INST_NOP) (pc + 4) I.INST_NOP

/-- The body of the first loop (lines 91-129) at `pc`: the value of `nextpc`
at the end of the body and the new state. -/
def firstPassStep (I : InstrSet) (pc : Int) (s : Pass1) : Int × Pass1 :=
  let NEW := store s.NEW pc (pc - s.nops)
  let nops := if INST_AT_PC s.code pc = I.INST_NOP then s.nops + 1 else s.nops
  match resizeArg I s.code pc with
  | some arg => (pc + 2, ⟨nops, shrinkInst I arg pc s.code, NEW⟩)
  | none => (NEXT_PC I s.code pc, ⟨nops, s.code, NEW⟩)

/-- The loop `for (pc = 0; pc < codeSize; pc = nextpc)` of the first pass,
entered at `pc`. -/
def firstPass (I : InstrSet) (codeSize : Int) : Nat → Int → Pass1 → Pass1
  | 0, _, s => s
  | fuel + 1, pc, s =>
    if pc < codeSize then
      firstPass I codeSize fuel (firstPassStep I pc s).1 (firstPassStep I pc s).2
    else s

/-! ## Auxiliary data, exception ranges, command map -/

/-- The `clientData` of an `AuxData` record, as far as the optimizer looks at
it: the `loopCtTemp` field of a `ForeachInfo`, or the entries of the hash table
of a `JumptableInfo` in the order in which `Tcl_FirstHashEntry` and
`Tcl_NextHashEntry` enumerate them. -/
inductive AuxData where
  | foreachInfo (loopCtTemp : Int)
  | jumptableInfo (hashTable : List (String × Int))
  | other
  deriving DecidableEq, Repr

/-- The `type` field of an `ExceptionRange`. -/
inductive ExceptionRangeType where
  | LOOP_EXCEPTION_RANGE
  | CATCH_EXCEPTION_RANGE
  deriving DecidableEq, Repr

/-- The fields of `ExceptionRange` that hold code offsets, and its type. -/
structure ExceptionRange where
  type : ExceptionRangeType
  codeOffset : Int
  numCodeBytes : Int
  breakOffset : Int
  continueOffset : Int
  catchOffset : Int
  deriving DecidableEq, Repr

/-- One `CmdLocation` entry of the command map. -/
structure CmdLocation where
  codeOffset : Int
  numCodeBytes : Int
  srcOffset : Int
  numSrcBytes : Int
  deriving DecidableEq, Repr

/-! ## Second pass (lines 141-234) -/

/-- State of the second loop: the no-op counter, the buffer, the auxiliary data
array. -/
structure Pass2 where
  nops : Int
  code : Int → Int
  aux : Int → AuxData

/-- The cases `INST_JUMP1, INST_JUMP_TRUE1, INST_JUMP_FALSE1` of the second
`switch` (lines 163-176).  `junk` is the value found in the local `offset` at
line 164, where it is read without ever having been assigned in this case. -/
def relocNarrow (I : InstrSet) (NEW : Int → Int) (junk : Int) (pc : Int) (s : Pass2) :
    Pass2 :=
  let inst := INST_AT_PC s.code pc
  let target := pc + GET_INT1_AT_PC s.code (pc + 1)
  if junk = 2 then
    if inst = I.INST_JUMP1 then
      { s with code := store (store s.code pc I.INST_NOP) (pc + 1) I.INST_NOP,
               nops := s.nops + 1 + 1 }
    else
      { s with code := store (store s.code pc I.INST_POP) (pc + 1) I.INST_NOP,
               nops := s.nops + 1 }
  else
    { s with code := SET_INT1_AT_PC (NEW target - NEW pc) (pc + 1) s.code }

/-- The cases `INST_JUMP4, INST_JUMP_TRUE4, INST_JUMP_FALSE4, INST_START_CMD` of
the second `switch` (lines 183-208).  `offset` is an `int`: the difference of
the two map entries reduced to 32 bits. -/
def relocWide (I : InstrSet) (NEW : Int → Int) (pc : Int) (s : Pass2) : Pass2 :=
  let inst := INST_AT_PC s.code pc
  let target := pc + GET_INT4_AT_PC s.code (pc + 1)
  let offset := toInt32 (NEW target - NEW pc)
  let c := SET_INT4_AT_PC offset (pc + 1) s.code
  if inst ≠ I.INST_START_CMD then
    if offset = 5 then
      let c0 := store c pc (if inst = I.INST_JUMP4 then I.INST_NOP else I.INST_POP)
      { s with code := store (store (store (store c0 (pc + 1) I.INST_NOP) (pc + 2)
                         I.INST_NOP) (pc + 3) I.INST_NOP) (pc + 4) I.INST_NOP,
               nops := (if inst = I.INST_JUMP4 then s.nops + 1 else s.nops) + 4 }
    else if offset < 127 ∧ offset > -128 then
      { s with code := shrinkInst I offset pc c, nops := s.nops + 3 }
    else { s with code := c }
  else { s with code := c }

/-- The case `INST_FOREACH_START` of the second `switch` (lines 212-215). -/
def relocForeach (NEW : Int → Int) (pc : Int) (s : Pass2) : Pass2 :=
  let i := toInt32 (GET_UINT4_AT_PC s.code (pc + 1))
  match s.aux i with
  | .foreachInfo loopCtTemp =>
    let target := pc + 5 - loopCtTemp
    { s with aux := store s.aux i (.foreachInfo (NEW pc + 5 - NEW target)) }
  | _ => s

/-- The case `INST_JUMP_TABLE` of the second `switch` (lines 219-225): every
entry of the hash table gets the value `NEW[target]-NEW[pc]`. -/
def relocJumptable (NEW : Int → Int) (pc : Int) (s : Pass2) : Pass2 :=
  let i := toInt32 (GET_UINT4_AT_PC s.code (pc + 1))
  match s.aux i with
  | .jumptableInfo hashTable =>
    let t := hashTable.map (fun e => (e.1, NEW (pc + e.2) - NEW pc))
    { s with aux := store s.aux i (.jumptableInfo t) }
  | _ => s

/-- The second `switch` (lines 153-227) for the instruction at `pc`. -/
def relocateInst (I : InstrSet) (NEW : Int → Int) (junk : Int) (pc : Int) (s : Pass2) :
    Pass2 :=
  let inst := INST_AT_PC s.code pc
  if isNarrowJump I inst then relocNarrow I NEW junk pc s
  else if isWideJump I inst ∨ inst = I.INST_START_CMD then relocWide I NEW pc s
  else if inst = I.INST_FOREACH_START then relocForeach NEW pc s
  else if inst = I.INST_JUMP_TABLE then relocJumptable NEW pc s
  else s

/-- The loop `for (i=0; pc+i < nextpc; i++) INST_AT_PC(NEW[pc]+i) = INST_AT_PC(pc+i)`
(lines 230-232), entered at `i`; `dst` is `NEW[pc]`. -/
def moveUp (dst pc nextpc : Int) : Nat → Int → (Int → Int) → (Int → Int)
  | 0, _, code => code
  | fuel + 1, i, code =>
    if pc + i < nextpc then
      moveUp dst pc nextpc fuel (i + 1) (store code (dst + i) (INST_AT_PC code (pc + i)))
    else code

/-- The loop `for (pc = 0; pc < codeSize; pc = nextpc)` of the second pass,
entered at `pc`.  `junk pc` is the indeterminate value of `offset` met by a
narrow jump at `pc`. -/
def secondPass (I : InstrSet) (codeSize : Int) (NEW : Int → Int) (junk : Int → Int) :
    Nat → Int → Pass2 → Pass2
  | 0, _, s => s
  | fuel + 1, pc, s =>
    if pc < codeSize then
      let nextpc := NEXT_PC I s.code pc
      let inst := INST_AT_PC s.code pc
      if inst = I.INST_NOP then secondPass I codeSize NEW junk fuel nextpc s
      else
        let s1 := relocateInst I NEW (junk pc) pc s
        let c := moveUp (NEW pc) pc nextpc (nextpc - pc).toNat 0 s1.code
        secondPass I codeSize NEW junk fuel nextpc { s1 with code := c }
    else s

/-! ## Range and command-map updates (lines 240-284) -/

/-- The body of the loop over `envPtr->exceptArrayPtr` (lines 241-259). -/
def updateRange (NEW : Int → Int) (r : ExceptionRange) : ExceptionRange :=
  let target := r.codeOffset
  let after := r.codeOffset + r.numCodeBytes
  let r1 := { r with codeOffset := NEW target, numCodeBytes := NEW after - NEW target }
  if r1.type = .CATCH_EXCEPTION_RANGE then
    { r1 with catchOffset := NEW r1.catchOffset }
  else
    let r2 := { r1 with breakOffset := NEW r1.breakOffset }
    if r2.continueOffset ≥ 0 then { r2 with continueOffset := NEW r2.continueOffset }
    else r2

/-- The body of the loop over `envPtr->cmdMapPtr` (lines 275-282). -/
def updateCmd (NEW : Int → Int) (codeSize : Int) (m : CmdLocation) : CmdLocation :=
  let start := m.codeOffset
  let next := start + m.numCodeBytes
  let next := if next > codeSize then codeSize else next
  { m with codeOffset := NEW start, numCodeBytes := NEW next - NEW start }

/-! ## `CompactCode` and `TclOptimizeBytecode` -/

/-- The fields of `CompileEnv` read or written by the optimizer: the buffer at
`codeStart`, the length `codeNext - codeStart`, the first `exceptArrayNext`
exception ranges, the auxiliary data array and the `numCommands` entries of the
command map. -/
structure CompileEnv where
  code : Int → Int
  codeSize : Int
  exceptArray : List ExceptionRange
  auxData : Int → AuxData
  cmdMap : List CmdLocation

/-- Lines 141-284 of one round: the second pass over the buffer `code` left by
the first pass, and the updates of the ranges and of the command map, all with
the position map `NEW`.  The result is the environment and the no-op count of
the second pass. -/
def relocate (I : InstrSet) (junk : Int → Int) (codeSize : Int) (NEW : Int → Int)
    (code : Int → Int) (env : CompileEnv) : CompileEnv × Int :=
  let sp := secondPass I codeSize NEW junk codeSize.toNat 0 ⟨0, code, env.auxData⟩
  ({ code := sp.code
     codeSize := NEW codeSize
     exceptArray := env.exceptArray.map (updateRange NEW)
     auxData := sp.aux
     cmdMap := env.cmdMap.map (updateCmd NEW codeSize) }, sp.nops)

/-- The position map after line 135: the map filled by the first pass `fp`,
with the sentinel entry `NEW[codeSize] = codeSize - nops`. -/
def positionMap (codeSize : Int) (fp : Pass1) : Int → Int :=
  store fp.NEW codeSize (codeSize - fp.nops)

/-- `CompactCode`, entered at the label `restart` for the `round`-th time with
the local `codeSize`.  The result is the environment on return, the position
map, and the number of times `restart` was reached.  `junk round pc` is the
indeterminate value of `offset` at line 164 in that round. -/
def CompactCode (I : InstrSet) (junk : Nat → Int → Int) :
    Nat → Nat → CompileEnv → (Int → Int) → Int → Option (CompileEnv × (Int → Int) × Nat)
  | 0, _, _, _, _ => none
  | fuel + 1, round, env, NEW, codeSize =>
    let fp := firstPass I codeSize codeSize.toNat 0 ⟨0, env.code, NEW⟩
    if fp.nops = 0 then
      some ({ env with code := fp.code }, fp.NEW, round + 1)
    else
      let NEW2 := positionMap codeSize fp
      let r := relocate I (junk round) codeSize NEW2 fp.code env
      if r.2 ≠ 0 then CompactCode I junk fuel (round + 1) r.1 NEW2 (NEW2 codeSize)
      else some (r.1, NEW2, round + 1)

/-- `TclOptimizeBytecode`.  `NEW` is the initial content of the local array
`int NEW[codeSize + 1]`. -/
def TclOptimizeBytecode (I : InstrSet) (junk : Nat → Int → Int) (NEW : Int → Int)
    (envPtr : CompileEnv) : Option CompileEnv :=
  (CompactCode I junk (envPtr.codeSize.toNat + 1) 0 envPtr NEW envPtr.codeSize).map
    (fun r => r.1)

/-! ## Well-formed descriptors and decodable buffers -/

/-- What the optimizer relies on in the instruction table: every length is at
least 1; `INST_NOP` and `INST_POP` are two different opcodes, each one byte
long; the four-byte operand
forms are 5 bytes long and the opcode one below each of them is a one-byte
operand form of length 2 (`INST_XXX1` is always one less than `INST_XXX4`);
`INST_START_CMD`, `INST_FOREACH_START` and `INST_JUMP_TABLE` carry at least a
four-byte operand; the case labels of each `switch` are different opcodes,
and `INST_START_CMD` is not among the instructions the first pass shrinks. -/
structure InstrSet.WF (I : InstrSet) : Prop where
  len_pos : ∀ op, 1 ≤ I.numBytes op
  len_nop : I.numBytes I.INST_NOP = 1
  len_pop : I.numBytes I.INST_POP = 1
  pop_ne_nop : I.INST_POP ≠ I.INST_NOP
  nop_byte : 0 ≤ I.INST_NOP ∧ I.INST_NOP < 256
  len_wide : ∀ op, isWideOperand I op ∨ isWideJump I op → I.numBytes op = 5
  len_narrow : ∀ op, isWideOperand I op ∨ isWideJump I op → I.numBytes (op - 1) = 2
  byte_wide : ∀ op, isWideOperand I op ∨ isWideJump I op → 1 ≤ op ∧ op < 256
  jump1 : I.INST_JUMP1 = I.INST_JUMP4 - 1
  jump_true1 : I.INST_JUMP_TRUE1 = I.INST_JUMP_TRUE4 - 1
  jump_false1 : I.INST_JUMP_FALSE1 = I.INST_JUMP_FALSE4 - 1
  wide_disjoint : ∀ op, isWideOperand I op → ¬ isWideJump I op
  distinct_jump : I.INST_JUMP4 ≠ I.INST_JUMP_TRUE4 ∧ I.INST_JUMP4 ≠ I.INST_JUMP_FALSE4 ∧
    I.INST_JUMP_TRUE4 ≠ I.INST_JUMP_FALSE4
  len_start_cmd : 5 ≤ I.numBytes I.INST_START_CMD
  start_cmd : ¬ isWideOperand I I.INST_START_CMD ∧ ¬ isWideJump I I.INST_START_CMD ∧
    ¬ isNarrowJump I I.INST_START_CMD
  len_foreach_start : 5 ≤ I.numBytes I.INST_FOREACH_START
  len_jump_table : 5 ≤ I.numBytes I.INST_JUMP_TABLE
  foreach_start : ¬ isNarrowJump I I.INST_FOREACH_START ∧
    ¬ isWideJump I I.INST_FOREACH_START ∧ I.INST_FOREACH_START ≠ I.INST_START_CMD
  jump_table : ¬ isNarrowJump I I.INST_JUMP_TABLE ∧ ¬ isWideJump I I.INST_JUMP_TABLE ∧
    I.INST_JUMP_TABLE ≠ I.INST_START_CMD ∧ I.INST_JUMP_TABLE ≠ I.INST_FOREACH_START

/-- 1 when the instruction at `a` is `INST_NOP`, else 0. -/
def nopAt (I : InstrSet) (code : Int → Int) (a : Int) : Int :=
  if INST_AT_PC code a = I.INST_NOP then 1 else 0

/-- `Walk I code a b k`: decoding `code` instruction by instruction from offset
`a` arrives exactly at offset `b`, and `k` of the instructions met on the way
(at offsets from `a` up to, not including, `b`) are `INST_NOP`.  With `a = 0`:
`b` is an instruction boundary and `k` no-ops lie below it. -/
inductive Walk (I : InstrSet) (code : Int → Int) : Int → Int → Int → Prop
  | done (a b k : Int) : a = b → k = 0 → Walk I code a b k
  | next (a b k k' : Int) : Walk I code (NEXT_PC I code a) b k →
      k' = k + nopAt I code a → Walk I code a b k'

/-- `b` is an instruction boundary of the buffer. -/
def Boundary (I : InstrSet) (code : Int → Int) (b : Int) : Prop :=
  ∃ k, Walk I code 0 b k

/-- The buffer decodes from offset 0 into complete instructions ending exactly
at `codeSize`. -/
def Decodes (I : InstrSet) (code : Int → Int) (codeSize : Int) : Prop :=
  Boundary I code codeSize

/-- Executable check of `Walk`, with a bound on the number of instructions. -/
def walkB (I : InstrSet) (code : Int → Int) : Nat → Int → Int → Int → Bool
  | 0, a, b, k => decide (a = b ∧ k = 0)
  | n + 1, a, b, k =>
    decide (a = b ∧ k = 0) || walkB I code n (NEXT_PC I code a) b (k - nopAt I code a)

/-- The kinds of instruction whose first operand is a displacement. -/
inductive JumpKind where
  | jump
  | jumpTrue
  | jumpFalse
  | startCmd
  deriving DecidableEq, Repr

/-- The kind of jump an opcode stands for, in its narrow or its wide form. -/
def jumpKind (I : InstrSet) (inst : Int) : Option JumpKind :=
  if inst = I.INST_JUMP1 ∨ inst = I.INST_JUMP4 then some .jump
  else if inst = I.INST_JUMP_TRUE1 ∨ inst = I.INST_JUMP_TRUE4 then some .jumpTrue
  else if inst = I.INST_JUMP_FALSE1 ∨ inst = I.INST_JUMP_FALSE4 then some .jumpFalse
  else if inst = I.INST_START_CMD then some .startCmd
  else none

/-- The jump or command-start marker encoded at `pc`, if there is one: its kind
and its displacement, read as the second `switch` reads it (one signed byte
for the narrow jumps, four bytes for the wide jumps and `INST_START_CMD`). -/
def decodeJump (I : InstrSet) (code : Int → Int) (pc : Int) : Option (JumpKind × Int) :=
  let inst := INST_AT_PC code pc
  if isNarrowJump I inst then
    (jumpKind I inst).map (fun k => (k, GET_INT1_AT_PC code (pc + 1)))
  else if isWideJump I inst ∨ inst = I.INST_START_CMD then
    (jumpKind I inst).map (fun k => (k, GET_INT4_AT_PC code (pc + 1)))
  else none

/-- The conditions of lines 164 and 187 under which the second pass removes the
jump at `pc` of the buffer it reads: a narrow jump for which the unassigned
`offset` happens to hold 2, or a wide jump whose new displacement is 5. -/
def elides (I : InstrSet) (NEW junk : Int → Int) (code : Int → Int) (pc : Int) : Prop :=
  (isNarrowJump I (INST_AT_PC code pc) ∧ junk pc = 2) ∨
  (isWideJump I (INST_AT_PC code pc) ∧
    toInt32 (NEW (pc + GET_INT4_AT_PC code (pc + 1)) - NEW pc) = 5)

/-! ## A concrete instruction set and buffers given as lists -/

/-- A concrete descriptor used to evaluate the definitions: opcode numbers and
lengths in the layout of the Tcl 8.6 instruction table (narrow forms one below
the wide forms; one-byte operand forms of length 2, four-byte operand forms of
length 5, `INST_START_CMD` of length 9, everything else of length 1). -/
def sampleInstrSet : InstrSet where
  numBytes := fun op =>
    if op = 1 ∨ op = 10 ∨ op = 13 ∨ op = 17 ∨ op = 20 ∨ op = 34 ∨ op = 36 ∨ op = 38 then 2
    else if op = 2 ∨ op = 11 ∨ op = 14 ∨ op = 18 ∨ op = 21 ∨ op = 35 ∨ op = 37 ∨ op = 39
      ∨ op = 68 ∨ op = 121 then 5
    else if op = 105 then 9
    else 1
  INST_NOP := 132
  INST_POP := 3
  INST_PUSH4 := 2
  INST_LOAD_SCALAR4 := 11
  INST_LOAD_ARRAY4 := 14
  INST_STORE_SCALAR4 := 18
  INST_STORE_ARRAY4 := 21
  INST_JUMP1 := 34
  INST_JUMP_TRUE1 := 36
  INST_JUMP_FALSE1 := 38
  INST_JUMP4 := 35
  INST_JUMP_TRUE4 := 37
  INST_JUMP_FALSE4 := 39
  INST_START_CMD := 105
  INST_FOREACH_START := 68
  INST_JUMP_TABLE := 121

/-- The buffer holding the bytes `l` from offset 0 on (0 elsewhere). -/
def codeOf (l : List Int) : Int → Int :=
  fun x => if x < 0 then 0 else l.getD x.toNat 0

/-- The first `n` bytes of a buffer. -/
def bytes (code : Int → Int) (n : Nat) : List Int :=
  (List.range n).map (fun i => code i)

/-- Facts about one iteration of the first loop at `pc`, from a state `s` whose
buffer decodes from `pc` to `S`; `n` is the next `pc` and `t` the next state. -/
structure FirstStepOK (I : InstrSet) (S pc : Int) (s : Pass1) (n : Int) (t : Pass1) : Prop where
  next_gt : pc < n
  decodes : ∃ k, Walk I t.code n S k
  code_below : ∀ x, x < pc → t.code x = s.code x
  code_above : ∀ x, S ≤ x → t.code x = s.code x
  new_eq : t.NEW = store s.NEW pc (pc - s.nops)
  head : NEXT_PC I t.code pc = n ∧ nopAt I t.code pc = t.nops - s.nops
  nops_eq : t.nops = s.nops + nopAt I s.code pc
  keeps : ∀ q k, Walk I s.code pc q k → pc < q → ∃ k', Walk I t.code n q k'
  no_resize : ∀ c : Int → Int, (∀ x, pc ≤ x → x < n → c x = t.code x) →
    resizeArg I c pc = none
  changed : t.code = s.code ∨ (n < S ∧ nopAt I t.code n = 1)
  plain : resizeArg I s.code pc = none → t.code = s.code ∧ n = NEXT_PC I s.code pc
  jump_head : ∀ c : Int → Int, (∀ x, pc ≤ x → x < n → c x = t.code x) →
    decodeJump I c pc = decodeJump I s.code pc
  tail_same : ∀ q k, Walk I s.code pc q k → pc < q → ∀ x, q ≤ x → t.code x = s.code x
  bytes : (∀ x, 0 ≤ s.code x ∧ s.code x < 256) → ∀ x, 0 ≤ t.code x ∧ t.code x < 256

/-- What the first loop, entered at `pc` in state `s` on a buffer that decodes
from `pc` to `S`, has established when it ends in state `r`. -/
structure FirstPassOK (I : InstrSet) (S pc : Int) (s r : Pass1) : Prop where
  code_below : ∀ x, x < pc → r.code x = s.code x
  code_above : ∀ x, S ≤ x → r.code x = s.code x
  new_below : ∀ x, x < pc → r.NEW x = s.NEW x
  walk : Walk I r.code pc S (r.nops - s.nops)
  new_eq : ∀ q k, Walk I r.code pc q k → q < S → r.NEW q = q - (s.nops + k)
  keeps : ∀ q k, Walk I s.code pc q k → q ≤ S → ∃ k', Walk I r.code pc q k'
  no_resize : ∀ q k, Walk I r.code pc q k → q < S → resizeArg I r.code q = none
  nops_ge : s.nops + (if pc < S then nopAt I s.code pc else 0) ≤ r.nops
  unchanged : r.nops = s.nops → r.code = s.code
  clean : (∀ q k, Walk I s.code pc q k → q < S →
    resizeArg I s.code q = none ∧ nopAt I s.code q = 0) → r.nops = s.nops
  jumps : ∀ q k, Walk I s.code pc q k → q < S →
    decodeJump I r.code q = decodeJump I s.code q
  bytes : (∀ x, 0 ≤ s.code x ∧ s.code x < 256) → ∀ x, 0 ≤ r.code x ∧ r.code x < 256

/-- Facts about the second `switch` applied at `pc` to an instruction of length
`L` that is not a no-op: `s` is the state before, `t` the state after. -/
structure RelocOK (I : InstrSet) (pc L : Int) (s t : Pass2) : Prop where
  frame : ∀ x, x < pc ∨ pc + L ≤ x → t.code x = s.code x
  walk : Walk I t.code pc (pc + L) (t.nops - s.nops)
  same : t.nops = s.nops → t.code pc = s.code pc ∧
    (resizeArg I s.code pc = none → resizeArg I t.code pc = none)

/-- The index of the auxiliary data item that the instruction at `pc` refers to,
when it is an `INST_FOREACH_START` or an `INST_JUMP_TABLE`. -/
def auxRef (I : InstrSet) (code : Int → Int) (pc : Int) : Option Int :=
  if INST_AT_PC code pc = I.INST_FOREACH_START ∨ INST_AT_PC code pc = I.INST_JUMP_TABLE then
    some (toInt32 (GET_UINT4_AT_PC code (pc + 1)))
  else none

/-- What the second loop, entered at `pc` in state `s`, has established when it
ends in state `r`: the bytes below `NEW pc` are untouched, the output decodes
from `NEW pc` to `NEW S` and holds as many no-ops as were counted, every
surviving instruction sits at its new position after the `switch` was applied
to it, and nothing that the first pass would shrink has appeared unless a no-op
was counted. -/
structure SecondPassOK (I : InstrSet) (NEW junk : Int → Int) (S pc : Int) (s r : Pass2) :
    Prop where
  frame : ∀ x, x < NEW pc → r.code x = s.code x
  walk : Walk I r.code (NEW pc) (NEW S) (r.nops - s.nops)
  contents : ∀ q m, Walk I s.code pc q m → q < S → s.code q ≠ I.INST_NOP →
    ∀ i, 0 ≤ i → i < I.numBytes (s.code q) →
      r.code (NEW q + i) = (relocateInst I NEW (junk q) q s).code (q + i)
  clean : r.nops = s.nops →
    (∀ q m, Walk I s.code pc q m → q < S → resizeArg I s.code q = none) →
    ∀ q m, Walk I r.code (NEW pc) q m → q < NEW S → resizeArg I r.code q = none
  aux_frame : ∀ j, (∀ q m, Walk I s.code pc q m → q < S → auxRef I s.code q ≠ some j) →
    r.aux j = s.aux j
  aux_at : ∀ j q0 m0, Walk I s.code pc q0 m0 → q0 < S → s.code q0 ≠ I.INST_NOP →
    auxRef I s.code q0 = some j →
    (∀ q m, Walk I s.code pc q m → q < S → q ≠ q0 → auxRef I s.code q ≠ some j) →
    r.aux j = (relocateInst I NEW (junk q0) q0 s).aux j

/-- The position map is consistent with the buffer from `pc` on: between two
boundaries it advances by the number of bytes that are not no-ops. -/
def MapOK (I : InstrSet) (NEW : Int → Int) (code : Int → Int) (S pc : Int) : Prop :=
  NEW pc ≤ pc ∧ ∀ q m, Walk I code pc q m → q ≤ S → NEW q = NEW pc + (q - pc) - m

/-- The buffer decodes to `S` without meeting a no-op or an instruction that the
first pass would shrink. -/
def Clean (I : InstrSet) (code : Int → Int) (S : Int) : Prop :=
  Walk I code 0 S 0 ∧ ∀ q k, Walk I code 0 q k → q < S → resizeArg I code q = none

/-- What holds of the result `res` of `CompactCode` entered for the `round`-th
time with a buffer of length `S`. -/
structure CompactOK (I : InstrSet) (round : Nat) (S : Int)
    (res : CompileEnv × (Int → Int) × Nat) : Prop where
  clean : Clean I res.1.code res.1.codeSize
  size_le : res.1.codeSize ≤ S
  rounds_gt : round < res.2.2
  rounds_le : (res.2.2 : Int) ≤ round + S + 1

/-- The environment with the auxiliary data item `i` replaced by `a`. -/
def setAux (env : CompileEnv) (i : Int) (a : AuxData) : CompileEnv :=
  { env with auxData := store env.auxData i a }

/-- The instruction starts met when decoding from `a` while below `S`, at most
`n` of them. -/
def boundaries (I : InstrSet) (code : Int → Int) (S : Int) : Nat → Int → List Int
  | 0, _ => []
  | n + 1, a => if a < S then a :: boundaries I code S n (NEXT_PC I code a) else []

/-- An environment without ranges, auxiliary data or command map, whose buffer
holds the bytes `l`. -/
def sampleEnv (l : List Int) : CompileEnv :=
  ⟨codeOf l, l.length, [], fun _ => .other, []⟩

/-- The buffer `INST_JUMP1 +4; INST_NOP; INST_POP; INST_POP`: the jump targets
the second `INST_POP`, at offset 4. -/
def jumpOverNop : List Int := [34, 4, 132, 3, 3]

/-- The state after the first pass over `jumpOverNop`. -/
def jumpOverNopPass1 : Pass1 :=
  firstPass sampleInstrSet 5 (5 : Int).toNat 0 ⟨0, (sampleEnv jumpOverNop).code, fun _ => 0⟩

/-- The buffer `INST_NOP; INST_POP; INST_NOP; INST_PUSH4 7; INST_POP`. -/
def nopsAndPush : List Int := [132, 3, 132, 2, 0, 0, 0, 7, 3]

/-- The state after the first pass over `nopsAndPush`. -/
def nopsAndPushPass1 : Pass1 :=
  firstPass sampleInstrSet 9 (9 : Int).toNat 0 ⟨0, (sampleEnv nopsAndPush).code, fun _ => 0⟩

/-- A loop range over offsets 1 to 9 of `nopsAndPush`, with break target 9 and
no continue target. -/
def sampleRange : ExceptionRange :=
  ⟨.LOOP_EXCEPTION_RANGE, 1, 8, 9, -1, 0⟩

/-- The buffer `INST_NOP; INST_JUMP_TABLE 0; INST_POP`. -/
def nopAndJumpTable : List Int := [132, 121, 0, 0, 0, 0, 3]

/-- The state after the first pass over `nopAndJumpTable`. -/
def nopAndJumpTablePass1 : Pass1 :=
  firstPass sampleInstrSet 7 (7 : Int).toNat 0
    ⟨0, (sampleEnv nopAndJumpTable).code, fun _ => 0⟩

/-- The environment of `nopAndJumpTable` with a jump table at index 0 whose
entries target offsets 6 and 7. -/
def jumpTableEnv : CompileEnv :=
  setAux (sampleEnv nopAndJumpTable) 0 (.jumptableInfo [("a", 5), ("b", 6)])

/-- A command starting at offset 1 of `nopsAndPush` whose recorded length, 100,
overruns the buffer. -/
def sampleCmd : CmdLocation := ⟨1, 100, 0, 0⟩

/-- A wide push with operand 255. -/
def push255 : List Int := [2, 0, 0, 0, 255, 3]

/-- A wide push with operand 256. -/
def push256 : List Int := [2, 0, 0, 1, 0, 3]

/-- A wide jump with displacement 5. -/
def wideJump5 : List Int := [35, 0, 0, 0, 5, 3]

/-- A wide jump with displacement 200. -/
def wideJump200 : List Int := [35, 0, 0, 0, 200, 3]

/-- A wide jump with displacement 127 to the last of 123 one-byte instructions. -/
def wideJump127 : List Int := [35, 0, 0, 0, 127] ++ List.replicate 123 3

/-- 128 one-byte instructions followed by a wide jump with displacement -128. -/
def wideJumpBack128 : List Int := List.replicate 128 3 ++ [35, 255, 255, 255, 128]

/-- A wide jump with displacement 126. -/
def wideJump126 : List Int := [35, 0, 0, 0, 126, 3]

/-- A narrow jump over the next instruction, alone with that instruction. -/
def jumpNext : List Int := [34, 2, 3]

/-- A conditional narrow jump over the next instruction. -/
def jumpTrueNext : List Int := [36, 2, 3]

/-- A wide push whose 4-byte operand is `2^32 - 1`. -/
def pushHuge : List Int := [2, 255, 255, 255, 255, 3]

/-- The buffer `INST_NOP; INST_FOREACH_START 0; INST_NOP; INST_POP; INST_POP`. -/
def nopAndForeach : List Int := [132, 68, 0, 0, 0, 0, 132, 3, 3]

/-- The environment of `nopAndForeach` with a foreach descriptor at index 0 whose
continuation offset -2 targets offset 8. -/
def foreachEnv : CompileEnv :=
  setAux (sampleEnv nopAndForeach) 0 (.foreachInfo (-2))

/-- A buffer with two `INST_FOREACH_START` instructions, at offsets 0 and 6, that
both refer to the descriptor 0. -/
def sharedForeach : List Int := [68, 0, 0, 0, 0, 132, 68, 0, 0, 0, 0, 3, 3]

/-- The environment of `sharedForeach` with a foreach descriptor at index 0 whose
continuation offset -1 targets offset 6 from the first instruction and offset
12 from the second. -/
def sharedForeachEnv : CompileEnv :=
  setAux (sampleEnv sharedForeach) 0 (.foreachInfo (-1))

/-- The `n` bytes of a buffer from offset `a` on. -/
def segment (code : Int → Int) (a : Int) (n : Nat) : List Int :=
  (List.range n).map (fun (i : Nat) => code (a + (i : Int)))

/-- The bytes that an out-of-place compaction emits for the instruction at `pc` of
the buffer `code`, following the wording of the specification: a jump or a
command-start marker is emitted with the bytes the second `switch` gives it
(operand relocated, jump elided or narrowed), every other instruction is copied
verbatim. -/
def emittedInst (I : InstrSet) (NEW : Int → Int) (junk : Int) (code : Int → Int) (pc : Int) :
    List Int :=
  let inst := INST_AT_PC code pc
  let c := if isNarrowJump I inst ∨ isWideJump I inst ∨ inst = I.INST_START_CMD then
      (relocateInst I NEW junk pc ⟨0, code, fun _ => .other⟩).code
    else code
  segment c pc (InstLength I inst).toNat

/-- Out-of-place compaction, following the wording of the specification: the
concatenation, in their original order, of the emitted bytes of the instructions
of `code` from `pc` to `S` that are not no-ops, as when the surviving
instructions are copied into a fresh buffer.  The input `code` is only read. -/
def outOfPlaceCompaction (I : InstrSet) (NEW junk : Int → Int) (code : Int → Int) (S : Int) :
    Nat → Int → List Int
  | 0, _ => []
  | fuel + 1, pc =>
    if pc < S then
      (if INST_AT_PC code pc = I.INST_NOP then [] else emittedInst I NEW (junk pc) code pc)
        ++ outOfPlaceCompaction I NEW junk code S fuel (NEXT_PC I code pc)
    else []

/-! ## Decoding lemmas -/

theorem Walk_of_walkB (I : InstrSet) (code : Int → Int) :
    ∀ (n : Nat) (a b k : Int), walkB I code n a b k = true → Walk I code a b k := by
  intro n
  induction n with
  | zero =>
    intro a b k h
    simp [walkB] at h
    exact Walk.done a b k h.1 h.2
  | succ n ih =>
    intro a b k h
    simp only [walkB, Bool.or_eq_true, decide_eq_true_eq] at h
    rcases h with h | h
    · exact Walk.done a b k h.1 h.2
    · exact Walk.next a b _ k (ih _ _ _ h) (by omega)

theorem nopAt_nonneg (I : InstrSet) (code : Int → Int) (a : Int) :
    0 ≤ nopAt I code a ∧ nopAt I code a ≤ 1 := by
  unfold nopAt; split <;> omega

theorem next_pc_gt {I : InstrSet} (hI : I.WF) (code : Int → Int) (a : Int) :
    a + 1 ≤ NEXT_PC I code a := by
  have := hI.len_pos (INST_AT_PC code a)
  unfold NEXT_PC InstLength; omega

theorem Walk.bounds {I : InstrSet} (hI : I.WF) {code : Int → Int} {a b k : Int}
    (h : Walk I code a b k) : a ≤ b ∧ 0 ≤ k ∧ k ≤ b - a := by
  induction h with
  | done a b k hab hk => omega
  | next a b k k' _ hk ih =>
    have := next_pc_gt hI code a
    have := nopAt_nonneg I code a
    omega

theorem Walk.self_count {I : InstrSet} (hI : I.WF) {code : Int → Int} {a k : Int}
    (h : Walk I code a a k) : k = 0 := by
  have := h.bounds hI; omega

theorem Walk.inv_lt {I : InstrSet} {code : Int → Int} {a b k : Int}
    (h : Walk I code a b k) (hab : a < b) :
    Walk I code (NEXT_PC I code a) b (k - nopAt I code a) := by
  cases h with
  | done _ _ _ h1 _ => omega
  | next _ _ k0 _ h1 hk =>
    have : k - nopAt I code a = k0 := by omega
    rw [this]; exact h1

theorem Walk.trans {I : InstrSet} {code : Int → Int} {a b c k m : Int}
    (h1 : Walk I code a b k) (h2 : Walk I code b c m) : Walk I code a c (k + m) := by
  induction h1 with
  | done a b k hab hk => subst hab; subst hk; simpa using h2
  | next a b k k' _ hk ih => exact Walk.next a c (k + m) _ (ih h2) (by omega)

theorem Walk.congr {I : InstrSet} (hI : I.WF) {code code' : Int → Int} {a b k : Int}
    (h : Walk I code a b k) (hc : ∀ x, a ≤ x → x < b → code' x = code x) :
    Walk I code' a b k := by
  induction h with
  | done a b k hab hk => exact Walk.done a b k hab hk
  | next a b k k' h1 hk ih =>
    have hb := h1.bounds hI
    have hgt := next_pc_gt hI code a
    have hca : code' a = code a := hc a (le_refl a) (by omega)
    have hn : NEXT_PC I code' a = NEXT_PC I code a := by
      simp [NEXT_PC, INST_AT_PC, hca]
    have hna : nopAt I code' a = nopAt I code a := by simp [nopAt, INST_AT_PC, hca]
    refine Walk.next a b k k' ?_ (by omega)
    rw [hn]
    exact ih (fun x hx hxb => hc x (by omega) hxb)

theorem Walk.split {I : InstrSet} (hI : I.WF) {code : Int → Int} {a b c k m : Int}
    (h1 : Walk I code a c k) (h2 : Walk I code a b m) (hbc : b ≤ c) :
    Walk I code b c (k - m) := by
  induction h2 generalizing k with
  | done a b m hab hm => subst hab; subst hm; simpa using h1
  | next a b m m' h2 hm ih =>
    have hb := h2.bounds hI
    have hgt := next_pc_gt hI code a
    have := ih (h1.inv_lt (by omega)) hbc
    have e : k - nopAt I code a - m = k - m' := by omega
    rw [e] at this; exact this

theorem Walk.unique {I : InstrSet} (hI : I.WF) {code : Int → Int} {a b k m : Int}
    (h1 : Walk I code a b k) (h2 : Walk I code a b m) : k = m := by
  have := (h1.split hI h2 (le_refl b)).self_count hI
  omega

theorem Walk.one {I : InstrSet} (code : Int → Int) (a : Int) :
    Walk I code a (NEXT_PC I code a) (nopAt I code a) :=
  Walk.next a _ 0 _ (Walk.done _ _ 0 rfl rfl) (by omega)

@[simp] theorem store_same {α : Type} (m : Int → α) (k : Int) (v : α) : store m k v k = v := by
  simp [store]

theorem store_ne {α : Type} (m : Int → α) {k x : Int} (v : α) (h : x ≠ k) :
    store m k v x = m x := by
  simp [store, h]

theorem wide_facts {I : InstrSet} (hI : I.WF) {op : Int}
    (h : isWideOperand I op ∨ isWideJump I op) :
    I.numBytes op = 5 ∧ I.numBytes (op - 1) = 2 ∧ (op - 1) % 256 = op - 1 ∧
      op ≠ I.INST_NOP ∧ op - 1 ≠ I.INST_NOP ∧
      ¬ (isWideOperand I (op - 1) ∨ isWideJump I (op - 1)) := by
  have h5 := hI.len_wide op h
  have h2 := hI.len_narrow op h
  have hb := hI.byte_wide op h
  refine ⟨h5, h2, by omega, ?_, ?_, ?_⟩
  · intro e; rw [e, hI.len_nop] at h5; omega
  · intro e; rw [e, hI.len_nop] at h2; omega
  · intro e; have := hI.len_wide _ e; omega

theorem resizeArg_some {I : InstrSet} {code : Int → Int} {pc arg : Int}
    (h : resizeArg I code pc = some arg) :
    isWideOperand I (code pc) ∨ isWideJump I (code pc) := by
  unfold resizeArg INST_AT_PC at h
  by_cases h1 : code pc = I.INST_NOP
  · simp [h1] at h
  · by_cases h2 : isWideOperand I (code pc)
    · exact Or.inl h2
    · by_cases h3 : isWideJump I (code pc)
      · exact Or.inr h3
      · simp [h1, h2, h3] at h

theorem resizeArg_not_wide {I : InstrSet} {code : Int → Int} {pc : Int}
    (h : ¬ (isWideOperand I (code pc) ∨ isWideJump I (code pc))) :
    resizeArg I code pc = none := by
  rw [not_or] at h
  simp [resizeArg, INST_AT_PC, h.1, h.2]

theorem resizeArg_congr {I : InstrSet} {c c' : Int → Int} {pc : Int}
    (h : ∀ x, pc ≤ x → x < pc + 5 → c' x = c x) :
    resizeArg I c' pc = resizeArg I c pc := by
  have h0 := h pc (by omega) (by omega)
  have h1 := h (pc + 1) (by omega) (by omega)
  have h2 := h (pc + 1 + 1) (by omega) (by omega)
  have h3 := h (pc + 1 + 2) (by omega) (by omega)
  have h4 := h (pc + 1 + 3) (by omega) (by omega)
  simp [resizeArg, INST_AT_PC, GET_UINT4_AT_PC, GET_INT4_AT_PC, GET_INT1_AT_PC, h0, h1, h2, h3, h4]

theorem shrinkInst_apply (I : InstrSet) (arg pc : Int) (code : Int → Int) (x : Int) :
    shrinkInst I arg pc code x =
      if x = pc + 4 then I.INST_NOP else if x = pc + 3 then I.INST_NOP
      else if x = pc + 2 then I.INST_NOP else if x = pc + 1 then arg % 256
      else if x = pc then (code pc - 1) % 256 else code x := by
  simp [shrinkInst, SET_INT1_AT_PC, store, INST_AT_PC]

theorem shrinkInst_outside (I : InstrSet) (arg pc : Int) (code : Int → Int) (x : Int)
    (h : x < pc ∨ pc + 5 ≤ x) : shrinkInst I arg pc code x = code x := by
  rw [shrinkInst_apply]
  repeat' split
  all_goals omega

/-- The instruction shrunk at `pc` is followed by three no-ops. -/
theorem shrinkInst_walk {I : InstrSet} (hI : I.WF) (arg pc : Int) (code : Int → Int) :
    Walk I (shrinkInst I arg pc code) (pc + 2) (pc + 5) 3 := by
  have e : ∀ x, (x = pc + 2 ∨ x = pc + 3 ∨ x = pc + 4) →
      NEXT_PC I (shrinkInst I arg pc code) x = x + 1 ∧
      nopAt I (shrinkInst I arg pc code) x = 1 := by
    intro x hx
    have : shrinkInst I arg pc code x = I.INST_NOP := by
      rw [shrinkInst_apply]
      repeat' split
      all_goals omega
    simp [NEXT_PC, InstLength, INST_AT_PC, nopAt, this, hI.len_nop]
  have w2 := Walk.one (I := I) (shrinkInst I arg pc code) (pc + 2)
  have w3 := Walk.one (I := I) (shrinkInst I arg pc code) (pc + 3)
  have w4 := Walk.one (I := I) (shrinkInst I arg pc code) (pc + 4)
  rw [(e _ (Or.inl rfl)).1, (e _ (Or.inl rfl)).2] at w2
  rw [(e _ (Or.inr (Or.inl rfl))).1, (e _ (Or.inr (Or.inl rfl))).2] at w3
  rw [(e _ (Or.inr (Or.inr rfl))).1, (e _ (Or.inr (Or.inr rfl))).2] at w4
  have e1 : pc + 2 + 1 = pc + 3 := by omega
  have e2 : pc + 3 + 1 = pc + 4 := by omega
  have e3 : pc + 4 + 1 = pc + 5 := by omega
  rw [e1] at w2; rw [e2] at w3; rw [e3] at w4
  exact (w2.trans w3).trans w4

theorem store_apply {α : Type} (m : Int → α) (k : Int) (v : α) (x : Int) :
    store m k v x = if x = k then v else m x := rfl

theorem Walk.shift {I : InstrSet} (hI : I.WF) {c e : Int → Int} {a b k : Int} (d : Int)
    (h : Walk I c a b k) (hc : ∀ x, a ≤ x → x < b → e (x + d) = c x) :
    Walk I e (a + d) (b + d) k := by
  induction h with
  | done a b k hab hk => exact Walk.done _ _ k (by omega) hk
  | next a b k k' h1 hk ih =>
    have hb := h1.bounds hI
    have hgt := next_pc_gt hI c a
    have hca : e (a + d) = c a := hc a (le_refl a) (by omega)
    have hn : NEXT_PC I e (a + d) = NEXT_PC I c a + d := by
      simp only [NEXT_PC, InstLength, INST_AT_PC, hca]; omega
    have hna : nopAt I e (a + d) = nopAt I c a := by simp [nopAt, INST_AT_PC, hca]
    refine Walk.next (a + d) (b + d) k k' ?_ (by omega)
    rw [hn]
    exact ih (fun x hx hxb => hc x (by omega) hxb)

/-- The move loop copies the bytes at `pc + i ..` down to `dst + i ..` and
touches nothing else, when `dst ≤ pc`. -/
theorem moveUp_spec (dst pc nextpc : Int) (hd : dst ≤ pc) :
    ∀ (fuel : Nat) (i : Int) (code : Int → Int), nextpc - (pc + i) ≤ fuel →
      (∀ j, i ≤ j → pc + j < nextpc →
        moveUp dst pc nextpc fuel i code (dst + j) = code (pc + j)) ∧
      (∀ x, (x < dst + i ∨ dst + (nextpc - pc) ≤ x) →
        moveUp dst pc nextpc fuel i code x = code x) := by
  intro fuel
  induction fuel with
  | zero =>
    intro i code hf
    simp only [moveUp]
    exact ⟨fun j h1 h2 => by push_cast at hf; omega, by simp⟩
  | succ fuel ih =>
    intro i code hf
    simp only [moveUp]
    by_cases hlt : pc + i < nextpc
    · rw [if_pos hlt]
      obtain ⟨h1, h2⟩ := ih (i + 1) (store code (dst + i) (INST_AT_PC code (pc + i)))
        (by push_cast at hf ⊢; omega)
      constructor
      · intro j hj hjn
        by_cases hji : j = i
        · subst hji
          rw [h2 _ (Or.inl (by omega)), store_same]; rfl
        · rw [h1 j (by omega) hjn, store_ne _ _ (by omega)]
      · intro x hx
        rw [h2 x (by omega), store_ne _ _ (by omega)]
    · rw [if_neg hlt]
      exact ⟨fun j h1 h2 => by omega, fun _ _ => rfl⟩

theorem get_set_int1 (v a : Int) (code : Int → Int) (h1 : -128 ≤ v) (h2 : v ≤ 127) :
    GET_INT1_AT_PC (SET_INT1_AT_PC v a code) a = v := by
  simp only [GET_INT1_AT_PC, SET_INT1_AT_PC, store_same]
  split <;> omega

theorem get_set_int4 (v a : Int) (code : Int → Int) (h1 : -2147483648 ≤ v)
    (h2 : v < 2147483648) : GET_INT4_AT_PC (SET_INT4_AT_PC v a code) a = v := by
  have e0 : SET_INT4_AT_PC v a code a = v / 16777216 % 256 := by
    simp [SET_INT4_AT_PC, store_apply]
  have e1 : SET_INT4_AT_PC v a code (a + 1) = v / 65536 % 256 := by
    simp [SET_INT4_AT_PC, store_apply]
  have e2 : SET_INT4_AT_PC v a code (a + 2) = v / 256 % 256 := by
    simp [SET_INT4_AT_PC, store_apply]
  have e3 : SET_INT4_AT_PC v a code (a + 3) = v % 256 := by
    simp [SET_INT4_AT_PC, store_apply]
  simp only [GET_INT4_AT_PC, GET_INT1_AT_PC, e0, e1, e2, e3]
  split <;> omega

theorem set_int4_outside (v a : Int) (code : Int → Int) (x : Int) (h : x < a ∨ a + 4 ≤ x) :
    SET_INT4_AT_PC v a code x = code x := by
  simp only [SET_INT4_AT_PC, store_apply]
  repeat' split
  all_goals omega

theorem toInt32_range (v : Int) : -2147483648 ≤ toInt32 v ∧ toInt32 v < 2147483648 := by
  unfold toInt32; split <;> omega

theorem toInt32_id (v : Int) (h1 : -2147483648 ≤ v) (h2 : v < 2147483648) : toInt32 v = v := by
  unfold toInt32; split <;> omega

theorem walk_nop {I : InstrSet} (hI : I.WF) {c : Int → Int} {a b k : Int}
    (h : c a = I.INST_NOP) (hw : Walk I c (a + 1) b k) : Walk I c a b (k + 1) := by
  refine Walk.next a b k _ ?_ ?_
  · simpa [NEXT_PC, InstLength, INST_AT_PC, h, hI.len_nop] using hw
  · simp [nopAt, INST_AT_PC, h]

theorem walk_op {I : InstrSet} {c : Int → Int} {a b k : Int} (l : Int)
    (hn : c a ≠ I.INST_NOP) (hl : I.numBytes (c a) = l)
    (hw : Walk I c (a + l) b k) : Walk I c a b k := by
  refine Walk.next a b k _ ?_ ?_
  · simpa [NEXT_PC, InstLength, INST_AT_PC, hl] using hw
  · simp [nopAt, INST_AT_PC, hn]

theorem narrow_facts {I : InstrSet} (hI : I.WF) {op : Int} (h : isNarrowJump I op) :
    I.numBytes op = 2 ∧ op ≠ I.INST_NOP ∧ ¬ (isWideOperand I op ∨ isWideJump I op) := by
  have h2 : I.numBytes op = 2 := by
    rcases h with h | h | h
    · rw [h, hI.jump1]; exact hI.len_narrow _ (Or.inr (Or.inl rfl))
    · rw [h, hI.jump_true1]; exact hI.len_narrow _ (Or.inr (Or.inr (Or.inl rfl)))
    · rw [h, hI.jump_false1]; exact hI.len_narrow _ (Or.inr (Or.inr (Or.inr rfl)))
  refine ⟨h2, ?_, ?_⟩
  · intro e; rw [e, hI.len_nop] at h2; omega
  · intro e; have := hI.len_wide _ e; omega

theorem relocNarrow_ok {I : InstrSet} (hI : I.WF) (NEW : Int → Int) (junk pc : Int) (s : Pass2)
    (hn : isNarrowJump I (s.code pc)) :
    RelocOK I pc 2 s (relocNarrow I NEW junk pc s) := by
  obtain ⟨h2, hnop, hnw⟩ := narrow_facts hI hn
  have hd : ∀ c : Int → Int, Walk I c (pc + 1 + 1) (pc + 2) 0 :=
    fun c => Walk.done _ _ _ (by omega) rfl
  unfold relocNarrow
  by_cases hj : junk = 2
  · by_cases h1 : INST_AT_PC s.code pc = I.INST_JUMP1
    · simp only [hj, h1, if_true]
      refine ⟨?_, ?_, ?_⟩
      · intro x hx
        simp only [store_apply]
        repeat' split
        all_goals omega
      · have := walk_nop hI (a := pc) (c := store (store s.code pc I.INST_NOP) (pc + 1) I.INST_NOP)
          (by simp [store_apply]) (walk_nop hI (by simp [store_apply]) (hd _))
        have e : s.nops + 1 + 1 - s.nops = 0 + 1 + 1 := by omega
        dsimp only
        rw [e]; exact this
      · intro h; dsimp only at h; omega
    · simp only [hj, h1, if_true, if_false]
      refine ⟨?_, ?_, ?_⟩
      · intro x hx
        simp only [store_apply]
        repeat' split
        all_goals omega
      · have := walk_op (I := I) (a := pc)
          (c := store (store s.code pc I.INST_POP) (pc + 1) I.INST_NOP) 1
          (by simpa [store_apply] using hI.pop_ne_nop) (by simpa [store_apply] using hI.len_pop)
          (walk_nop hI (by simp [store_apply]) (hd _))
        have e : s.nops + 1 - s.nops = 0 + 1 := by omega
        dsimp only
        rw [e]; exact this
      · intro h; dsimp only at h; omega
  · simp only [hj, if_false]
    have hpc : SET_INT1_AT_PC (NEW (pc + GET_INT1_AT_PC s.code (pc + 1)) - NEW pc) (pc + 1)
        s.code pc = s.code pc := by
      simp [SET_INT1_AT_PC, store_apply]
    refine ⟨?_, ?_, ?_⟩
    · intro x hx
      simp only [SET_INT1_AT_PC, store_apply]
      repeat' split
      all_goals omega
    · dsimp only
      have e : s.nops - s.nops = 0 := by omega
      rw [e]
      exact walk_op 2 (by rw [hpc]; exact hnop) (by rw [hpc]; exact h2)
        (Walk.done _ _ _ rfl rfl)
    · intro _
      dsimp only
      refine ⟨hpc, fun _ => resizeArg_not_wide ?_⟩
      rw [hpc]; exact hnw

theorem resizeArg_wideJump {I : InstrSet} (hI : I.WF) {code : Int → Int} {pc : Int}
    (h : isWideJump I (code pc)) :
    resizeArg I code pc =
      if GET_INT4_AT_PC code (pc + 1) < 127 ∧ GET_INT4_AT_PC code (pc + 1) > -128
      then some (GET_INT4_AT_PC code (pc + 1)) else none := by
  have h1 := (wide_facts hI (Or.inr h)).2.2.2.1
  have h2 : ¬ isWideOperand I (code pc) := fun e => hI.wide_disjoint _ e h
  simp [resizeArg, INST_AT_PC, h1, h2, h]

theorem relocWide_ok {I : InstrSet} (hI : I.WF) (NEW : Int → Int) (pc : Int) (s : Pass2)
    (hn : isWideJump I (s.code pc) ∨ s.code pc = I.INST_START_CMD) :
    RelocOK I pc (I.numBytes (s.code pc)) s (relocWide I NEW pc s) := by
  have hL : 5 ≤ I.numBytes (s.code pc) := by
    rcases hn with h | h
    · rw [(wide_facts hI (Or.inr h)).1]
    · rw [h]; exact hI.len_start_cmd
  have hnop : s.code pc ≠ I.INST_NOP := by
    intro e; rw [e, hI.len_nop] at hL; omega
  have hd : ∀ c : Int → Int, Walk I c (pc + 1 + 1 + 1 + 1 + 1) (pc + 5) 0 :=
    fun c => Walk.done _ _ _ (by omega) rfl
  unfold relocWide
  dsimp only
  generalize hoff : toInt32 (NEW (pc + GET_INT4_AT_PC s.code (pc + 1)) - NEW pc) = offset
  have hrange := toInt32_range (NEW (pc + GET_INT4_AT_PC s.code (pc + 1)) - NEW pc)
  rw [hoff] at hrange
  have hcpc : SET_INT4_AT_PC offset (pc + 1) s.code pc = s.code pc :=
    set_int4_outside _ _ _ _ (Or.inl (by omega))
  have hcout : ∀ x, x < pc ∨ pc + I.numBytes (s.code pc) ≤ x →
      SET_INT4_AT_PC offset (pc + 1) s.code x = s.code x :=
    fun x hx => set_int4_outside _ _ _ _ (by omega)
  have hkeep : (isWideJump I (s.code pc) → ¬ (offset < 127 ∧ offset > -128)) →
      RelocOK I pc (I.numBytes (s.code pc)) s
      { s with code := SET_INT4_AT_PC offset (pc + 1) s.code } := by
    intro hno
    refine ⟨hcout, ?_, ?_⟩
    · dsimp only
      have e : s.nops - s.nops = 0 := by omega
      rw [e]
      exact walk_op _ (by rw [hcpc]; exact hnop) (by rw [hcpc]) (Walk.done _ _ _ rfl rfl)
    · intro _
      dsimp only
      refine ⟨hcpc, fun _ => ?_⟩
      by_cases hw : isWideJump I (s.code pc)
      · rw [resizeArg_wideJump hI (by rw [hcpc]; exact hw),
          get_set_int4 _ _ _ hrange.1 hrange.2, if_neg (hno hw)]
      · apply resizeArg_not_wide
        rw [hcpc]
        rcases hn with h | h
        · exact absurd h hw
        · rw [h]; exact fun e => e.elim hI.start_cmd.1 hI.start_cmd.2.1
  by_cases hs : INST_AT_PC s.code pc = I.INST_START_CMD
  · simp only [hs, ne_eq, not_true_eq_false, if_false]
    exact hkeep (fun hw => by
      rw [show s.code pc = I.INST_START_CMD from hs] at hw
      exact absurd hw hI.start_cmd.2.1)
  · have hw : isWideJump I (s.code pc) := hn.resolve_right hs
    obtain ⟨h5, h2, hmod, _, hnop1, hnw⟩ := wide_facts hI (Or.inr hw)
    simp only [hs, ne_eq, not_false_eq_true, if_true]
    by_cases h5' : offset = 5
    · simp only [h5', if_true]
      rw [h5]
      refine ⟨?_, ?_, ?_⟩
      · intro x hx
        simp only [store_apply]
        repeat' split
        all_goals first | omega | exact set_int4_outside _ _ _ _ (by omega)
      · dsimp only
        by_cases hj : INST_AT_PC s.code pc = I.INST_JUMP4
        · simp only [hj, if_true]
          have e : s.nops + 1 + 4 - s.nops = 0 + 1 + 1 + 1 + 1 + 1 := by omega
          rw [e]
          refine walk_nop hI ?_ (walk_nop hI ?_ (walk_nop hI ?_ (walk_nop hI ?_
            (walk_nop hI ?_ (hd _)))))
          all_goals
            simp only [store_apply]
            repeat' split
            all_goals first | rfl | omega | simp_all
        · simp only [hj, if_false]
          have e : s.nops + 4 - s.nops = 0 + 1 + 1 + 1 + 1 := by omega
          rw [e]
          refine walk_op 1 ?_ ?_ (walk_nop hI ?_ (walk_nop hI ?_ (walk_nop hI ?_
            (walk_nop hI ?_ (hd _)))))
          · simpa [store_apply] using hI.pop_ne_nop
          · simpa [store_apply] using hI.len_pop
          all_goals
            simp only [store_apply]
            repeat' split
            all_goals first | rfl | omega | simp_all
      · intro h; dsimp only at h; split at h <;> omega
    · simp only [h5', if_false]
      by_cases hr : offset < 127 ∧ offset > -128
      · simp only [hr, and_self, if_true]
        rw [h5]
        have hat : shrinkInst I offset pc (SET_INT4_AT_PC offset (pc + 1) s.code) pc
            = s.code pc - 1 := by
          rw [shrinkInst_apply, hcpc]
          repeat' split
          all_goals omega
        refine ⟨?_, ?_, ?_⟩
        · intro x hx
          dsimp only
          rw [shrinkInst_outside _ _ _ _ _ (by omega)]
          exact set_int4_outside _ _ _ _ (by omega)
        · dsimp only
          have e : s.nops + 3 - s.nops = 3 := by omega
          rw [e]
          exact walk_op 2 (by rw [hat]; exact hnop1) (by rw [hat]; exact h2)
            (shrinkInst_walk hI _ _ _)
        · intro h; dsimp only at h; omega
      · simp only [hr, if_false]
        exact hkeep (fun _ => hr)

theorem relocForeach_code (NEW : Int → Int) (pc : Int) (s : Pass2) :
    (relocForeach NEW pc s).code = s.code ∧ (relocForeach NEW pc s).nops = s.nops := by
  unfold relocForeach
  dsimp only
  split <;> exact ⟨rfl, rfl⟩

theorem relocJumptable_code (NEW : Int → Int) (pc : Int) (s : Pass2) :
    (relocJumptable NEW pc s).code = s.code ∧ (relocJumptable NEW pc s).nops = s.nops := by
  unfold relocJumptable
  dsimp only
  split <;> exact ⟨rfl, rfl⟩

theorem relocOK_same {I : InstrSet} {pc : Int} {s t : Pass2} (hn : s.code pc ≠ I.INST_NOP)
    (hc : t.code = s.code) (hk : t.nops = s.nops) :
    RelocOK I pc (I.numBytes (s.code pc)) s t := by
  refine ⟨fun x _ => by rw [hc], ?_, fun _ => ⟨by rw [hc], fun h => by rw [hc]; exact h⟩⟩
  rw [hc, hk]
  have e : s.nops - s.nops = 0 := by omega
  rw [e]
  exact walk_op _ hn rfl (Walk.done _ _ _ rfl rfl)

theorem relocateInst_ok {I : InstrSet} (hI : I.WF) (NEW : Int → Int) (junk pc : Int)
    (s : Pass2) (hn : s.code pc ≠ I.INST_NOP) :
    RelocOK I pc (I.numBytes (s.code pc)) s (relocateInst I NEW junk pc s) := by
  unfold relocateInst
  dsimp only [INST_AT_PC]
  by_cases h1 : isNarrowJump I (s.code pc)
  · rw [if_pos h1, (narrow_facts hI h1).1]
    exact relocNarrow_ok hI NEW junk pc s h1
  · rw [if_neg h1]
    by_cases h2 : isWideJump I (s.code pc) ∨ s.code pc = I.INST_START_CMD
    · rw [if_pos h2]
      exact relocWide_ok hI NEW pc s h2
    · rw [if_neg h2]
      by_cases h3 : s.code pc = I.INST_FOREACH_START
      · rw [if_pos h3]
        exact relocOK_same hn (relocForeach_code NEW pc s).1 (relocForeach_code NEW pc s).2
      · rw [if_neg h3]
        by_cases h4 : s.code pc = I.INST_JUMP_TABLE
        · rw [if_pos h4]
          exact relocOK_same hn (relocJumptable_code NEW pc s).1
            (relocJumptable_code NEW pc s).2
        · rw [if_neg h4]
          exact relocOK_same hn rfl rfl

theorem resizeArg_shift {I : InstrSet} (hI : I.WF) {c c' : Int → Int} {p d : Int}
    (h : ∀ i, 0 ≤ i → i < I.numBytes (c p) → c' (d + i) = c (p + i)) :
    resizeArg I c' d = resizeArg I c p := by
  have h0 : c' d = c p := by
    have := h 0 (le_refl _) (by have := hI.len_pos (c p); omega)
    simpa using this
  by_cases hw : isWideOperand I (c p) ∨ isWideJump I (c p)
  · have h5 := (wide_facts hI hw).1
    rw [h5] at h
    have h1 := h 1 (by omega) (by omega)
    have h2 := h 2 (by omega) (by omega)
    have h3 := h 3 (by omega) (by omega)
    have h4 := h 4 (by omega) (by omega)
    have e2 : d + 1 + 1 = d + 2 := by omega
    have e3 : d + 1 + 2 = d + 3 := by omega
    have e4 : d + 1 + 3 = d + 4 := by omega
    have f2 : p + 1 + 1 = p + 2 := by omega
    have f3 : p + 1 + 2 = p + 3 := by omega
    have f4 : p + 1 + 3 = p + 4 := by omega
    simp only [resizeArg, INST_AT_PC, GET_UINT4_AT_PC, GET_INT4_AT_PC, GET_INT1_AT_PC, h0, h1,
      h2, h3, h4, e2, e3, e4, f2, f3, f4]
  · rw [resizeArg_not_wide hw, resizeArg_not_wide (by rw [h0]; exact hw)]

theorem relocateInst_code_congr (I : InstrSet) (NEW : Int → Int) (junk pc : Int)
    (s s' : Pass2) (h : ∀ x, pc ≤ x → s'.code x = s.code x) :
    ∀ x, pc ≤ x → (relocateInst I NEW junk pc s').code x = (relocateInst I NEW junk pc s).code x := by
  have h0 := h pc (le_refl _)
  have h1 := h (pc + 1) (by omega)
  have h2 := h (pc + 1 + 1) (by omega)
  have h3 := h (pc + 1 + 2) (by omega)
  have h4 := h (pc + 1 + 3) (by omega)
  intro x hx
  have hxx := h x hx
  unfold relocateInst
  dsimp only [INST_AT_PC]
  rw [h0]
  by_cases c1 : isNarrowJump I (s.code pc)
  · rw [if_pos c1, if_pos c1]
    unfold relocNarrow
    dsimp only [INST_AT_PC, GET_INT1_AT_PC, SET_INT1_AT_PC]
    rw [h0, h1]
    split
    · split <;> (simp only [store_apply]; repeat' split) <;> first | rfl | exact hxx
    · simp only [store_apply]; split <;> first | rfl | exact hxx
  · rw [if_neg c1, if_neg c1]
    by_cases c2 : isWideJump I (s.code pc) ∨ s.code pc = I.INST_START_CMD
    · rw [if_pos c2, if_pos c2]
      have hg : GET_INT4_AT_PC s'.code (pc + 1) = GET_INT4_AT_PC s.code (pc + 1) := by
        simp only [GET_INT4_AT_PC, GET_INT1_AT_PC, h1, h2, h3, h4]
      unfold relocWide
      dsimp only [INST_AT_PC]
      rw [h0, hg]
      generalize toInt32 (NEW (pc + GET_INT4_AT_PC s.code (pc + 1)) - NEW pc) = off
      have hset : ∀ y, pc ≤ y → SET_INT4_AT_PC off (pc + 1) s'.code y
          = SET_INT4_AT_PC off (pc + 1) s.code y := by
        intro y hy
        have := h y hy
        simp only [SET_INT4_AT_PC, store_apply]
        repeat' split
        all_goals first | rfl | exact this
      have hshr : ∀ y, pc ≤ y →
          shrinkInst I off pc (SET_INT4_AT_PC off (pc + 1) s'.code) y
          = shrinkInst I off pc (SET_INT4_AT_PC off (pc + 1) s.code) y := by
        intro y hy
        rw [shrinkInst_apply, shrinkInst_apply, hset y hy, hset pc (le_refl _)]
      by_cases d1 : s.code pc ≠ I.INST_START_CMD
      · rw [if_pos d1, if_pos d1]
        by_cases d2 : off = 5
        · rw [if_pos d2, if_pos d2]
          dsimp only
          simp only [store_apply]
          repeat' split
          all_goals first | rfl | exact hset _ hx
        · rw [if_neg d2, if_neg d2]
          by_cases d3 : off < 127 ∧ off > -128
          · rw [if_pos d3, if_pos d3]
            exact hshr _ hx
          · rw [if_neg d3, if_neg d3]
            exact hset _ hx
      · rw [if_neg d1, if_neg d1]
        exact hset _ hx
    · rw [if_neg c2, if_neg c2]
      have e1 := (relocForeach_code NEW pc s).1
      have e2 := (relocForeach_code NEW pc s').1
      have e3 := (relocJumptable_code NEW pc s).1
      have e4 := (relocJumptable_code NEW pc s').1
      split
      · rw [e1, e2]; exact hxx
      · split
        · rw [e3, e4]; exact hxx
        · exact hxx

theorem wideJump_pred {I : InstrSet} (hI : I.WF) {op : Int} (h : isWideJump I op) :
    isNarrowJump I (op - 1) ∧ jumpKind I (op - 1) = jumpKind I op ∧
      ∃ k, jumpKind I op = some k := by
  obtain ⟨d1, d2, d3⟩ := hI.distinct_jump
  have j1 := hI.jump1
  have j2 := hI.jump_true1
  have j3 := hI.jump_false1
  have n1 := (narrow_facts hI (Or.inl rfl : isNarrowJump I I.INST_JUMP1)).2.2
  have n2 := (narrow_facts hI (Or.inr (Or.inl rfl) : isNarrowJump I I.INST_JUMP_TRUE1)).2.2
  have n3 := (narrow_facts hI (Or.inr (Or.inr rfl) : isNarrowJump I I.INST_JUMP_FALSE1)).2.2
  simp only [isWideJump, isWideOperand, not_or] at n1 n2 n3
  obtain ⟨-, n11, n12, n13⟩ := n1
  obtain ⟨-, n21, n22, n23⟩ := n2
  obtain ⟨-, n31, n32, n33⟩ := n3
  have key : ∀ (a b : Int) (k : JumpKind), a = b - 1 →
      (jumpKind I a = some k ∧ jumpKind I b = some k) →
      op = b → (op - 1 = a) ∧ jumpKind I (op - 1) = jumpKind I op ∧
        ∃ k, jumpKind I op = some k := by
    intro a b k hab hk hop
    have e : op - 1 = a := by omega
    rw [e, hop]
    exact ⟨rfl, by rw [hk.1, hk.2], ⟨k, hk.2⟩⟩
  rcases h with h | h | h
  · obtain ⟨e, r1, r2⟩ := key I.INST_JUMP1 I.INST_JUMP4 .jump j1
      ⟨by simp [jumpKind], by simp [jumpKind]⟩ h
    exact ⟨Or.inl e, r1, r2⟩
  · have a1 : I.INST_JUMP_TRUE1 ≠ I.INST_JUMP1 := by omega
    have a2 : I.INST_JUMP_TRUE4 ≠ I.INST_JUMP1 := fun e => n12 e.symm
    obtain ⟨e, r1, r2⟩ := key I.INST_JUMP_TRUE1 I.INST_JUMP_TRUE4 .jumpTrue j2
      ⟨by simp [jumpKind, a1, n21], by simp [jumpKind, a2, Ne.symm d1]⟩ h
    exact ⟨Or.inr (Or.inl e), r1, r2⟩
  · have a1 : I.INST_JUMP_FALSE1 ≠ I.INST_JUMP1 := by omega
    have a2 : I.INST_JUMP_FALSE4 ≠ I.INST_JUMP1 := fun e => n13 e.symm
    have a3 : I.INST_JUMP_FALSE1 ≠ I.INST_JUMP_TRUE1 := by omega
    have a4 : I.INST_JUMP_FALSE4 ≠ I.INST_JUMP_TRUE1 := fun e => n23 e.symm
    obtain ⟨e, r1, r2⟩ := key I.INST_JUMP_FALSE1 I.INST_JUMP_FALSE4 .jumpFalse j3
      ⟨by simp [jumpKind, a1, a3, n31, n32],
       by simp [jumpKind, a2, a4, Ne.symm d2, Ne.symm d3]⟩ h
    exact ⟨Or.inr (Or.inr e), r1, r2⟩

theorem decodeJump_narrow {I : InstrSet} {c : Int → Int} {pc : Int}
    (h : isNarrowJump I (c pc)) :
    decodeJump I c pc = (jumpKind I (c pc)).map (fun k => (k, GET_INT1_AT_PC c (pc + 1))) := by
  simp only [decodeJump, INST_AT_PC, if_pos h]

theorem decodeJump_wide {I : InstrSet} {c : Int → Int} {pc : Int}
    (h1 : ¬ isNarrowJump I (c pc)) (h2 : isWideJump I (c pc) ∨ c pc = I.INST_START_CMD) :
    decodeJump I c pc = (jumpKind I (c pc)).map (fun k => (k, GET_INT4_AT_PC c (pc + 1))) := by
  simp only [decodeJump, INST_AT_PC, if_neg h1, if_pos h2]

theorem decodeJump_none {I : InstrSet} {c : Int → Int} {pc : Int}
    (h1 : ¬ isNarrowJump I (c pc)) (h2 : ¬ (isWideJump I (c pc) ∨ c pc = I.INST_START_CMD)) :
    decodeJump I c pc = none := by
  simp only [decodeJump, INST_AT_PC, if_neg h1, if_neg h2]

/-- The decoding of a jump looks at the bytes of the instruction only. -/
theorem decodeJump_shift {I : InstrSet} (hI : I.WF) {c c' : Int → Int} {p d : Int}
    (h : ∀ i, 0 ≤ i → i < I.numBytes (c p) → c' (d + i) = c (p + i)) :
    decodeJump I c' d = decodeJump I c p := by
  have h0 : c' d = c p := by
    have := h 0 (le_refl _) (by have := hI.len_pos (c p); omega)
    simpa using this
  by_cases hn : isNarrowJump I (c p)
  · rw [decodeJump_narrow hn, decodeJump_narrow (by rw [h0]; exact hn), h0]
    have h1 := h 1 (by omega) (by rw [(narrow_facts hI hn).1]; omega)
    simp only [GET_INT1_AT_PC, h1]
  · by_cases hw : isWideJump I (c p) ∨ c p = I.INST_START_CMD
    · have h5 : 5 ≤ I.numBytes (c p) := by
        rcases hw with hw | hw
        · rw [(wide_facts hI (Or.inr hw)).1]
        · rw [hw]; exact hI.len_start_cmd
      rw [decodeJump_wide hn hw, decodeJump_wide (by rw [h0]; exact hn) (by rw [h0]; exact hw),
        h0]
      have h1 := h 1 (by omega) (by omega)
      have h2 := h 2 (by omega) (by omega)
      have h3 := h 3 (by omega) (by omega)
      have h4 := h 4 (by omega) (by omega)
      have e2 : d + 1 + 1 = d + 2 := by omega
      have e3 : d + 1 + 2 = d + 3 := by omega
      have e4 : d + 1 + 3 = d + 4 := by omega
      have f2 : p + 1 + 1 = p + 2 := by omega
      have f3 : p + 1 + 2 = p + 3 := by omega
      have f4 : p + 1 + 3 = p + 4 := by omega
      simp only [GET_INT4_AT_PC, GET_INT1_AT_PC, h1, h2, h3, h4, e2, e3, e4, f2, f3, f4]
    · rw [decodeJump_none hn hw, decodeJump_none (by rw [h0]; exact hn) (by rw [h0]; exact hw)]

theorem decodeJump_congr {I : InstrSet} (hI : I.WF) {c c' : Int → Int} {pc : Int}
    (h : ∀ x, pc ≤ x → x < pc + I.numBytes (c pc) → c' x = c x) :
    decodeJump I c' pc = decodeJump I c pc :=
  decodeJump_shift hI (fun i h0 h1 => h (pc + i) (by omega) (by omega))

theorem firstPassStep_ok {I : InstrSet} (hI : I.WF) {S pc k : Int} {s : Pass1}
    (hpc : pc < S) (hw : Walk I s.code pc S k) :
    FirstStepOK I S pc s (firstPassStep I pc s).1 (firstPassStep I pc s).2 := by
  have hinv := hw.inv_lt hpc
  cases hr : resizeArg I s.code pc with
  | none =>
    have hnops : (if INST_AT_PC s.code pc = I.INST_NOP then s.nops + 1 else s.nops)
        = s.nops + nopAt I s.code pc := by
      unfold nopAt; split <;> omega
    simp only [firstPassStep, hr, hnops]
    refine ⟨by have := next_pc_gt hI s.code pc; omega, ⟨_, hinv⟩, fun _ _ => rfl,
      fun _ _ => rfl, rfl, ⟨rfl, by simp⟩, rfl, ?_, ?_, Or.inl rfl, fun _ => ⟨rfl, rfl⟩,
      fun c hc => decodeJump_congr hI hc, fun _ _ _ _ _ _ => rfl, fun h => h⟩
    · intro q k' hq hlt
      exact ⟨_, hq.inv_lt hlt⟩
    · intro c hc
      by_cases hwide : isWideOperand I (s.code pc) ∨ isWideJump I (s.code pc)
      · have h5 := (wide_facts hI hwide).1
        rw [← hr]
        apply resizeArg_congr
        intro x h1 h2
        apply hc x h1
        simp only [NEXT_PC, InstLength, INST_AT_PC, h5]; omega
      · apply resizeArg_not_wide
        rw [hc pc (le_refl _) (by have := next_pc_gt hI s.code pc; omega)]
        exact hwide
  | some arg =>
    have hwide := resizeArg_some hr
    obtain ⟨h5, h2, hmod, hnop, hnop1, hnw⟩ := wide_facts hI hwide
    have hnext : NEXT_PC I s.code pc = pc + 5 := by
      simp only [NEXT_PC, InstLength, INST_AT_PC, h5]
    rw [hnext] at hinv
    have hb := hinv.bounds hI
    have h0 : nopAt I s.code pc = 0 := by simp [nopAt, INST_AT_PC, hnop]
    have hnops : (if INST_AT_PC s.code pc = I.INST_NOP then s.nops + 1 else s.nops)
        = s.nops := by simp [INST_AT_PC, hnop]
    simp only [firstPassStep, hr, hnops]
    have hat : shrinkInst I arg pc s.code pc = s.code pc - 1 := by
      rw [shrinkInst_apply]
      repeat' split
      all_goals omega
    have htail : ∀ q k', Walk I s.code (pc + 5) q k' →
        Walk I (shrinkInst I arg pc s.code) (pc + 2) q (3 + k') := by
      intro q k' hq
      exact (shrinkInst_walk hI arg pc s.code).trans
        (hq.congr hI (fun x hx _ => shrinkInst_outside I arg pc s.code x (Or.inr hx)))
    refine ⟨by omega, ⟨_, htail _ _ hinv⟩,
      fun x hx => shrinkInst_outside I arg pc s.code x (Or.inl hx),
      fun x hx => shrinkInst_outside I arg pc s.code x (Or.inr (by omega)), rfl, ⟨?_, ?_⟩,
      by dsimp only; omega, ?_, ?_, Or.inr ⟨by omega, ?_⟩, (fun h => by rw [hr] at h; cases h),
      ?_, ?_, ?_⟩
    · simp only [NEXT_PC, InstLength, INST_AT_PC, hat, h2]
    · simp [nopAt, INST_AT_PC, hat, hnop1]
    · intro q k' hq hlt
      have := hq.inv_lt hlt
      rw [hnext] at this
      exact ⟨_, htail _ _ this⟩
    · intro c hc
      apply resizeArg_not_wide
      have := hc pc (le_refl _) (by omega)
      dsimp only at this
      rw [this, hat]
      exact hnw
    · have : shrinkInst I arg pc s.code (pc + 2) = I.INST_NOP := by
        rw [shrinkInst_apply]
        repeat' split
        all_goals omega
      simp [nopAt, INST_AT_PC, this]
    · intro c hc
      have hc0 : c pc = s.code pc - 1 := by
        rw [← hat]; exact hc pc (le_refl _) (by omega)
      have hc1 : c (pc + 1) = arg % 256 := by
        have := hc (pc + 1) (by omega) (by omega)
        dsimp only at this
        rw [this, shrinkInst_apply]
        repeat' split
        all_goals omega
      have hnn : ¬ isNarrowJump I (s.code pc) := fun e => (narrow_facts hI e).2.2 hwide
      by_cases hwj : isWideJump I (s.code pc)
      · obtain ⟨p1, p2, _⟩ := wideJump_pred hI hwj
        rw [resizeArg_wideJump hI hwj] at hr
        split at hr
        · rename_i hrange
          have harg : GET_INT4_AT_PC s.code (pc + 1) = arg := by simpa using hr
          rw [harg] at hrange
          rw [decodeJump_wide hnn (Or.inl hwj), decodeJump_narrow (by rw [hc0]; exact p1),
            hc0, p2, harg]
          have : GET_INT1_AT_PC c (pc + 1) = arg := by
            simp only [GET_INT1_AT_PC, hc1]
            split <;> omega
          rw [this]
        · cases hr
      · have hwo : isWideOperand I (s.code pc) := hwide.resolve_right hwj
        have hst : s.code pc ≠ I.INST_START_CMD := fun e => hI.start_cmd.1 (e ▸ hwo)
        rw [decodeJump_none hnn (fun e => e.elim hwj hst)]
        apply decodeJump_none
        · rw [hc0]
          intro e
          apply hwj
          have j1 := hI.jump1
          have j2 := hI.jump_true1
          have j3 := hI.jump_false1
          rcases e with e | e | e
          · exact Or.inl (by omega)
          · exact Or.inr (Or.inl (by omega))
          · exact Or.inr (Or.inr (by omega))
        · rw [hc0]
          intro e
          rcases e with e | e
          · exact hnw (Or.inr e)
          · have := hI.len_start_cmd
            rw [← e, h2] at this
            omega
    · intro q k' hq hlt x hx
      have := (hq.inv_lt hlt)
      rw [hnext] at this
      have := this.bounds hI
      exact shrinkInst_outside I arg pc s.code x (Or.inr (by omega))
    · intro hby x
      have := hby x
      have := hI.nop_byte
      dsimp only
      rw [shrinkInst_apply]
      repeat' split
      all_goals omega

theorem firstPassOK_end {I : InstrSet} (hI : I.WF) {S pc : Int} (s : Pass1) (h : pc = S) :
    FirstPassOK I S pc s s := by
  subst h
  refine ⟨fun _ _ => rfl, fun _ _ => rfl, fun _ _ => rfl, Walk.done _ _ _ rfl (by omega),
    ?_, fun q k hq _ => ⟨k, hq⟩, ?_, by simp, fun _ => rfl, fun _ => rfl,
    fun _ _ _ _ => rfl, fun h => h⟩
  · intro q k hq hlt; have := hq.bounds hI; omega
  · intro q k hq hlt; have := hq.bounds hI; omega

theorem firstPass_ok {I : InstrSet} (hI : I.WF) (S : Int) :
    ∀ (fuel : Nat) (pc k : Int) (s : Pass1), Walk I s.code pc S k → S - pc ≤ fuel →
      FirstPassOK I S pc s (firstPass I S fuel pc s) := by
  intro fuel
  induction fuel with
  | zero =>
    intro pc k s hw hf
    have := hw.bounds hI
    simp only [firstPass]
    exact firstPassOK_end hI s (by omega)
  | succ fuel ih =>
    intro pc k s hw hf
    have hb := hw.bounds hI
    simp only [firstPass]
    by_cases hpc : pc < S
    · rw [if_pos hpc]
      have st := firstPassStep_ok hI hpc hw
      generalize (firstPassStep I pc s).1 = n at st ⊢
      generalize (firstPassStep I pc s).2 = t at st ⊢
      obtain ⟨k1, hk1⟩ := st.decodes
      have hb1 := hk1.bounds hI
      have r := ih n k1 t hk1 (by have := st.next_gt; push_cast at hf ⊢; omega)
      generalize firstPass I S fuel n t = res at r ⊢
      have hlt := st.next_gt
      have hcpc : res.code pc = t.code pc := r.code_below pc hlt
      have hnext : NEXT_PC I res.code pc = n := by
        rw [← st.head.1]; simp only [NEXT_PC, InstLength, INST_AT_PC, hcpc]
      have hnop : nopAt I res.code pc = t.nops - s.nops := by
        rw [← st.head.2]; simp only [nopAt, INST_AT_PC, hcpc]
      have hnn := nopAt_nonneg I s.code pc
      have hge := r.nops_ge
      have hsplit : (0:Int) ≤ (if n < S then nopAt I t.code n else 0) := by
        have := nopAt_nonneg I t.code n
        split <;> omega
      refine ⟨?_, ?_, ?_, ?_, ?_, ?_, ?_, ?_, ?_, ?_, ?_, fun h => r.bytes (st.bytes h)⟩
      · intro x hx
        rw [r.code_below x (by omega), st.code_below x hx]
      · intro x hx
        rw [r.code_above x hx, st.code_above x hx]
      · intro x hx
        rw [r.new_below x (by omega), st.new_eq, store_ne _ _ (by omega)]
      · refine Walk.next pc S _ _ (hnext ▸ r.walk) ?_
        rw [hnop]; omega
      · intro q k' hq hlt'
        have hbq := hq.bounds hI
        by_cases hqp : q = pc
        · subst hqp
          have := hq.self_count hI
          rw [r.new_below q hlt, st.new_eq, store_same]; omega
        · have h1 := hq.inv_lt (by omega)
          rw [hnext, hnop] at h1
          rw [r.new_eq q _ h1 hlt']; omega
      · intro q k' hq hle
        have hbq := hq.bounds hI
        by_cases hqp : q = pc
        · subst hqp; exact ⟨0, Walk.done _ _ _ rfl rfl⟩
        · obtain ⟨k2, hk2⟩ := st.keeps q k' hq (by omega)
          obtain ⟨k3, hk3⟩ := r.keeps q k2 hk2 hle
          exact ⟨_, Walk.next pc q k3 _ (hnext ▸ hk3) rfl⟩
      · intro q k' hq hlt'
        have hbq := hq.bounds hI
        by_cases hqp : q = pc
        · subst hqp
          exact st.no_resize res.code (fun x hx1 hx2 => r.code_below x hx2)
        · have h1 := hq.inv_lt (by omega)
          rw [hnext] at h1
          exact r.no_resize q _ h1 hlt'
      · rw [if_pos hpc, ← st.nops_eq]; omega
      · intro he
        rcases st.changed with hc | ⟨hc1, hc2⟩
        · rw [← hc]
          apply r.unchanged
          have := st.nops_eq
          omega
        · rw [if_pos hc1, hc2] at hge
          have := st.nops_eq
          omega
      · intro hcl
        obtain ⟨h1, h2⟩ := hcl pc 0 (Walk.done _ _ _ rfl rfl) hpc
        obtain ⟨hc, hn⟩ := st.plain h1
        have hne := st.nops_eq
        rw [h2] at hne
        have : res.nops = t.nops := by
          apply r.clean
          intro q k' hq hlt'
          rw [hc]
          rw [hc, hn] at hq
          have := hcl q _ (Walk.next pc q k' _ hq rfl) hlt'
          exact this
        omega
      · intro q k' hq hlt'
        have hbq := hq.bounds hI
        by_cases hqp : q = pc
        · rw [hqp]
          exact st.jump_head res.code (fun x _ hx2 => r.code_below x hx2)
        · obtain ⟨k2, hk2⟩ := st.keeps q k' hq (by omega)
          rw [r.jumps q k2 hk2 hlt']
          exact decodeJump_congr hI (fun x hx _ => st.tail_same q k' hq (by omega) x hx)
    · rw [if_neg hpc]
      exact firstPassOK_end hI s (by omega)

theorem auxRef_congr {I : InstrSet} {c c' : Int → Int} {pc : Int}
    (h : ∀ x, pc ≤ x → c' x = c x) : auxRef I c' pc = auxRef I c pc := by
  have h0 := h pc (le_refl _)
  have h1 := h (pc + 1) (by omega)
  have h2 := h (pc + 1 + 1) (by omega)
  have h3 := h (pc + 1 + 2) (by omega)
  have h4 := h (pc + 1 + 3) (by omega)
  simp only [auxRef, INST_AT_PC, GET_UINT4_AT_PC, h0, h1, h2, h3, h4]

theorem relocNarrow_aux (I : InstrSet) (NEW : Int → Int) (junk pc : Int) (s : Pass2) :
    (relocNarrow I NEW junk pc s).aux = s.aux := by
  unfold relocNarrow
  dsimp only
  split
  · split <;> rfl
  · rfl

theorem relocWide_aux (I : InstrSet) (NEW : Int → Int) (pc : Int) (s : Pass2) :
    (relocWide I NEW pc s).aux = s.aux := by
  unfold relocWide
  dsimp only
  split
  · split
    · rfl
    · split <;> rfl
  · rfl

/-- The second `switch` changes the auxiliary data item `j` only at an
instruction that refers to it. -/
theorem relocateInst_aux_frame (I : InstrSet) (NEW : Int → Int) (junk pc : Int) (s : Pass2)
    (j : Int) (h : auxRef I s.code pc ≠ some j) :
    (relocateInst I NEW junk pc s).aux j = s.aux j := by
  unfold relocateInst
  dsimp only [INST_AT_PC]
  by_cases c1 : isNarrowJump I (s.code pc)
  · rw [if_pos c1, relocNarrow_aux]
  · rw [if_neg c1]
    by_cases c2 : isWideJump I (s.code pc) ∨ s.code pc = I.INST_START_CMD
    · rw [if_pos c2, relocWide_aux]
    · rw [if_neg c2]
      by_cases c3 : s.code pc = I.INST_FOREACH_START
      · rw [if_pos c3]
        have hj : toInt32 (GET_UINT4_AT_PC s.code (pc + 1)) ≠ j := by
          intro e
          apply h
          simp only [auxRef, INST_AT_PC, c3, true_or, if_true, e]
        unfold relocForeach
        dsimp only
        split
        · exact store_ne _ _ (Ne.symm hj)
        · rfl
      · rw [if_neg c3]
        by_cases c4 : s.code pc = I.INST_JUMP_TABLE
        · rw [if_pos c4]
          have hj : toInt32 (GET_UINT4_AT_PC s.code (pc + 1)) ≠ j := by
            intro e
            apply h
            simp only [auxRef, INST_AT_PC, c4, or_true, if_true, e]
          unfold relocJumptable
          dsimp only
          split
          · exact store_ne _ _ (Ne.symm hj)
          · rfl
        · rw [if_neg c4]

/-- The auxiliary data item that the second `switch` leaves at index `j`
depends on the bytes of the instruction and on the item at `j` only. -/
theorem relocateInst_aux_congr (I : InstrSet) (NEW : Int → Int) (junk pc : Int)
    (s s' : Pass2) (j : Int) (h : ∀ x, pc ≤ x → s'.code x = s.code x)
    (ha : s'.aux j = s.aux j) (hr : auxRef I s.code pc = some j) :
    (relocateInst I NEW junk pc s').aux j = (relocateInst I NEW junk pc s).aux j := by
  have h0 := h pc (le_refl _)
  have hg : GET_UINT4_AT_PC s'.code (pc + 1) = GET_UINT4_AT_PC s.code (pc + 1) := by
    have h1 := h (pc + 1) (by omega)
    have h2 := h (pc + 1 + 1) (by omega)
    have h3 := h (pc + 1 + 2) (by omega)
    have h4 := h (pc + 1 + 3) (by omega)
    simp only [GET_UINT4_AT_PC, h1, h2, h3, h4]
  have hidx : toInt32 (GET_UINT4_AT_PC s.code (pc + 1)) = j := by
    unfold auxRef at hr
    split at hr
    · simpa using hr
    · cases hr
  unfold relocateInst
  dsimp only [INST_AT_PC]
  rw [h0]
  by_cases c1 : isNarrowJump I (s.code pc)
  · rw [if_pos c1, if_pos c1, relocNarrow_aux, relocNarrow_aux, ha]
  · rw [if_neg c1, if_neg c1]
    by_cases c2 : isWideJump I (s.code pc) ∨ s.code pc = I.INST_START_CMD
    · rw [if_pos c2, if_pos c2, relocWide_aux, relocWide_aux, ha]
    · rw [if_neg c2, if_neg c2]
      by_cases c3 : s.code pc = I.INST_FOREACH_START
      · rw [if_pos c3, if_pos c3]
        unfold relocForeach
        dsimp only
        rw [hg, hidx, ha]
        cases s.aux j <;> simp [store_same, ha]
      · rw [if_neg c3, if_neg c3]
        by_cases c4 : s.code pc = I.INST_JUMP_TABLE
        · rw [if_pos c4, if_pos c4]
          unfold relocJumptable
          dsimp only
          rw [hg, hidx, ha]
          cases s.aux j <;> simp [store_same, ha]
        · rw [if_neg c4, if_neg c4, ha]

theorem secondPassOK_end {I : InstrSet} (hI : I.WF) (NEW junk : Int → Int) {S pc : Int}
    (s : Pass2) (h : pc = S) : SecondPassOK I NEW junk S pc s s := by
  subst h
  refine ⟨fun _ _ => rfl, Walk.done _ _ _ rfl (by omega), ?_, ?_, fun _ _ => rfl, ?_⟩
  · intro q m hq hlt; have := hq.bounds hI; omega
  · intro _ _ q m hq hlt; have := hq.bounds hI; omega
  · intro j q0 m0 hq hlt; have := hq.bounds hI; omega

theorem secondPass_ok {I : InstrSet} (hI : I.WF) (NEW junk : Int → Int) (S : Int) :
    ∀ (fuel : Nat) (pc k : Int) (s : Pass2), Walk I s.code pc S k →
      MapOK I NEW s.code S pc → S - pc ≤ fuel →
      SecondPassOK I NEW junk S pc s (secondPass I S NEW junk fuel pc s) := by
  intro fuel
  induction fuel with
  | zero =>
    intro pc k s hw _ hf
    have := hw.bounds hI
    simp only [secondPass]
    exact secondPassOK_end hI NEW junk s (by omega)
  | succ fuel ih =>
    intro pc k s hw hmap hf
    have hb := hw.bounds hI
    simp only [secondPass]
    by_cases hpc : pc < S
    swap
    · rw [if_neg hpc]
      exact secondPassOK_end hI NEW junk s (by omega)
    rw [if_pos hpc]
    have hgt := next_pc_gt hI s.code pc
    have hinv := hw.inv_lt hpc
    have hbn := hinv.bounds hI
    have hone := Walk.one (I := I) s.code pc
    have hNn := hmap.2 _ _ hone (by omega)
    have hle := hmap.1
    by_cases hnop : INST_AT_PC s.code pc = I.INST_NOP
    · rw [if_pos hnop]
      have hn1 : nopAt I s.code pc = 1 := by simp [nopAt, hnop]
      have hnx : NEXT_PC I s.code pc = pc + 1 := by
        simp [NEXT_PC, InstLength, hnop, hI.len_nop]
      rw [hn1] at hNn hinv hone
      have hmap' : MapOK I NEW s.code S (NEXT_PC I s.code pc) := by
        refine ⟨by omega, ?_⟩
        intro q m hq hle
        have := hmap.2 q _ (hone.trans hq) hle
        omega
      have r := ih _ _ s hinv hmap' (by push_cast at hf ⊢; omega)
      generalize secondPass I S NEW junk fuel (NEXT_PC I s.code pc) s = res at r ⊢
      have hNeq : NEW (NEXT_PC I s.code pc) = NEW pc := by omega
      refine ⟨?_, ?_, ?_, ?_, ?_, ?_⟩
      · intro x hx; exact r.frame x (by omega)
      · have := r.walk; rw [hNeq] at this; exact this
      · intro q m hq hlt hqn i hi0 hi
        have hbq := hq.bounds hI
        have hqp : q ≠ pc := fun e => hqn (by rw [e]; exact hnop)
        have h1 := hq.inv_lt (by omega)
        exact r.contents q _ h1 hlt hqn i hi0 hi
      · intro he hcl q m hq hlt
        rw [← hNeq] at hq
        exact r.clean he (fun q' m' hq' hlt' => hcl q' _ (hone.trans hq') hlt') q m hq hlt
      · intro j hj
        exact r.aux_frame j (fun q m hq hlt => hj q _ (hone.trans hq) hlt)
      · intro j q0 m0 hq0 hlt0 hn0 hr0 hoth
        have hbq := hq0.bounds hI
        have hqp : q0 ≠ pc := fun e => hn0 (by rw [e]; exact hnop)
        exact r.aux_at j q0 _ (hq0.inv_lt (by omega)) hlt0 hn0 hr0
          (fun q m hq hlt hne => hoth q _ (hone.trans hq) hlt hne)
    · rw [if_neg hnop]
      have hn0 : nopAt I s.code pc = 0 := by simp [nopAt, hnop]
      rw [hn0] at hNn hinv hone
      have ro := relocateInst_ok hI NEW (junk pc) pc s hnop
      generalize hs1def : relocateInst I NEW (junk pc) pc s = s1 at ro ⊢
      have hL : NEXT_PC I s.code pc = pc + I.numBytes (s.code pc) := rfl
      have mv := moveUp_spec (NEW pc) pc (NEXT_PC I s.code pc) hmap.1
        (NEXT_PC I s.code pc - pc).toNat 0 s1.code (by omega)
      generalize moveUp (NEW pc) pc (NEXT_PC I s.code pc) (NEXT_PC I s.code pc - pc).toNat 0
        s1.code = c at mv ⊢
      obtain ⟨mv1, mv2⟩ := mv
      have hcn : ∀ x, NEXT_PC I s.code pc ≤ x → c x = s.code x := by
        intro x hx
        rw [mv2 x (Or.inr (by omega)), ro.frame x (Or.inr (by omega))]
      have hwt : ∀ q m, Walk I s.code (NEXT_PC I s.code pc) q m →
          Walk I c (NEXT_PC I s.code pc) q m :=
        fun q m hq => hq.congr hI (fun x hx _ => hcn x hx)
      have hwt' : ∀ q m, Walk I c (NEXT_PC I s.code pc) q m →
          Walk I s.code (NEXT_PC I s.code pc) q m :=
        fun q m hq => hq.congr hI (fun x hx _ => (hcn x hx).symm)
      have hmap' : MapOK I NEW c S (NEXT_PC I s.code pc) := by
        refine ⟨by omega, ?_⟩
        intro q m hq hle
        have := hmap.2 q _ (hone.trans (hwt' q m hq)) hle
        omega
      have r := ih _ _ { s1 with code := c } (hwt _ _ hinv) hmap'
        (by push_cast at hf ⊢; omega)
      generalize secondPass I S NEW junk fuel (NEXT_PC I s.code pc) { s1 with code := c }
        = res at r ⊢
      have hfr := r.frame
      have hwk := r.walk
      have hct := r.contents
      have hcl := r.clean
      have haf := r.aux_frame
      have haa := r.aux_at
      dsimp only at hfr hwk hct hcl haf haa
      have hb1 := ro.walk.bounds hI
      have hb2 := hwk.bounds hI
      have hres : ∀ i, 0 ≤ i → i < I.numBytes (s.code pc) →
          res.code (NEW pc + i) = s1.code (pc + i) := by
        intro i hi0 hi
        rw [hfr _ (by omega), mv1 i hi0 (by omega)]
      refine ⟨?_, ?_, ?_, ?_, ?_, ?_⟩
      · intro x hx
        rw [hfr x (by omega), mv2 x (Or.inl (by omega)), ro.frame x (Or.inl (by omega))]
      · have h1 := ro.walk.shift hI (e := res.code) (NEW pc - pc) (by
          intro x hx1 hx2
          have := hres (x - pc) (by omega) (by omega)
          have e1 : NEW pc + (x - pc) = x + (NEW pc - pc) := by omega
          have e2 : pc + (x - pc) = x := by omega
          rw [e1, e2] at this; exact this)
        have e1 : pc + (NEW pc - pc) = NEW pc := by omega
        have e2 : pc + I.numBytes (s.code pc) + (NEW pc - pc)
            = NEW (NEXT_PC I s.code pc) := by omega
        rw [e1, e2] at h1
        have := h1.trans hwk
        have e3 : s1.nops - s.nops + (res.nops - s1.nops) = res.nops - s.nops := by omega
        rw [e3] at this; exact this
      · intro q m hq hlt hqn i hi0 hi
        have hbq := hq.bounds hI
        by_cases hqp : q = pc
        · rw [hqp, hs1def]
          exact hres i hi0 (by rw [← hqp]; exact hi)
        · have h1 := hq.inv_lt (by omega)
          have hbq1 := h1.bounds hI
          have hcq : c q = s.code q := hcn q (by omega)
          rw [hct q _ (hwt _ _ h1) hlt (by rw [hcq]; exact hqn) i hi0 (by rw [hcq]; exact hi)]
          exact relocateInst_code_congr I NEW (junk q) q s { s1 with code := c }
            (fun x hx => hcn x (by omega)) (q + i) (by omega)
      · intro he hcs q m hq hlt
        have hs1 : s1.nops = s.nops := by omega
        obtain ⟨hop, hrs⟩ := ro.same hs1
        have hbq := hq.bounds hI
        have hresd : res.code (NEW pc) = s.code pc := by
          have := hres 0 (le_refl _) (by omega)
          simpa [hop] using this
        by_cases hqp : q = NEW pc
        · subst hqp
          rw [resizeArg_shift hI (c := s1.code) (p := pc) (fun i hi0 hi => hres i hi0
            (by rw [← hop]; exact hi))]
          exact hrs (hcs pc 0 (Walk.done _ _ _ rfl rfl) hpc)
        · have h1 := hq.inv_lt (by omega)
          have hnx : NEXT_PC I res.code (NEW pc) = NEW (NEXT_PC I s.code pc) := by
            simp only [NEXT_PC, InstLength, INST_AT_PC, hresd] at hNn ⊢; omega
          rw [hnx] at h1
          refine hcl (by omega) ?_ q _ h1 hlt
          intro q' m' hq' hlt'
          have hbq' := hq'.bounds hI
          rw [resizeArg_congr (c := s.code) (fun x hx _ => hcn x (by omega))]
          exact hcs q' _ (hone.trans (hwt' _ _ hq')) hlt'
      · intro j hj
        rw [haf j (fun q m hq hlt => by
          have hbq := hq.bounds hI
          rw [auxRef_congr (c := s.code) (fun x hx => hcn x (by omega))]
          exact hj q _ (hone.trans (hwt' _ _ hq)) hlt), ← hs1def]
        exact relocateInst_aux_frame I NEW (junk pc) pc s j
          (hj pc 0 (Walk.done _ _ _ rfl rfl) hpc)
      · intro j q0 m0 hq0 hlt0 hn0 hr0 hoth
        have hbq := hq0.bounds hI
        have htr : ∀ q m, Walk I c (NEXT_PC I s.code pc) q m → q < S → q ≠ q0 →
            auxRef I c q ≠ some j := by
          intro q m hq hlt hne
          have hbq' := hq.bounds hI
          rw [auxRef_congr (c := s.code) (fun x hx => hcn x (by omega))]
          exact hoth q _ (hone.trans (hwt' _ _ hq)) hlt hne
        by_cases hqp : q0 = pc
        · rw [haf j (fun q m hq hlt => htr q m hq hlt (by
            have := hq.bounds hI; omega)), hqp, hs1def]
        · have h1 := hq0.inv_lt (by omega)
          have hbq1 := h1.bounds hI
          have hcq : ∀ x, q0 ≤ x → c x = s.code x := fun x hx => hcn x (by omega)
          have hs1j : s1.aux j = s.aux j := by
            rw [← hs1def]
            exact relocateInst_aux_frame I NEW (junk pc) pc s j
              (hoth pc 0 (Walk.done _ _ _ rfl rfl) hpc (Ne.symm hqp))
          rw [haa j q0 _ (hwt _ _ h1) hlt0 (by rw [hcq q0 (le_refl _)]; exact hn0)
            (by rw [auxRef_congr hcq]; exact hr0) htr]
          exact relocateInst_aux_congr I NEW (junk q0) q0 s { s1 with code := c } j hcq hs1j hr0

/-- The first pass over a buffer that decodes to `S`. -/
theorem firstPass_round {I : InstrSet} (hI : I.WF) {code : Int → Int} {S k : Int}
    (NEW0 : Int → Int) (hw : Walk I code 0 S k) :
    FirstPassOK I S 0 ⟨0, code, NEW0⟩ (firstPass I S S.toNat 0 ⟨0, code, NEW0⟩) :=
  firstPass_ok hI S S.toNat 0 k ⟨0, code, NEW0⟩ hw (by have := hw.bounds hI; omega)

/-- The position map after the first pass: at every boundary, the offset minus
the number of no-ops below it. -/
theorem positionMap_eq {I : InstrSet} (hI : I.WF) {code : Int → Int} {S k : Int}
    (NEW0 : Int → Int) (hw : Walk I code 0 S k) :
    ∀ q m, Walk I (firstPass I S S.toNat 0 ⟨0, code, NEW0⟩).code 0 q m → q ≤ S →
      positionMap S (firstPass I S S.toNat 0 ⟨0, code, NEW0⟩) q = q - m := by
  have fp := firstPass_round hI NEW0 hw
  generalize firstPass I S S.toNat 0 ⟨0, code, NEW0⟩ = r at fp ⊢
  intro q m hq hle
  unfold positionMap
  by_cases h : q = S
  · subst h
    have := hq.unique hI fp.walk
    dsimp only at this
    rw [store_same]; omega
  · rw [store_ne _ _ h, fp.new_eq q m hq (by omega)]
    dsimp only; omega

theorem positionMap_ok {I : InstrSet} (hI : I.WF) {code : Int → Int} {S k : Int}
    (NEW0 : Int → Int) (hw : Walk I code 0 S k) :
    MapOK I (positionMap S (firstPass I S S.toNat 0 ⟨0, code, NEW0⟩))
      (firstPass I S S.toNat 0 ⟨0, code, NEW0⟩).code S 0 := by
  have hb := hw.bounds hI
  have h0 := positionMap_eq hI NEW0 hw 0 0 (Walk.done _ _ _ rfl rfl) hb.1
  refine ⟨by omega, ?_⟩
  intro q m hq hle
  rw [positionMap_eq hI NEW0 hw q m hq hle, h0]; omega

/-- The second pass of a round, run on the output of the first pass. -/
theorem secondPass_round {I : InstrSet} (hI : I.WF) {code : Int → Int} {S k : Int}
    (NEW0 junk : Int → Int) (aux : Int → AuxData) (hw : Walk I code 0 S k) :
    SecondPassOK I (positionMap S (firstPass I S S.toNat 0 ⟨0, code, NEW0⟩)) junk S 0
      ⟨0, (firstPass I S S.toNat 0 ⟨0, code, NEW0⟩).code, aux⟩
      (secondPass I S (positionMap S (firstPass I S S.toNat 0 ⟨0, code, NEW0⟩)) junk S.toNat 0
        ⟨0, (firstPass I S S.toNat 0 ⟨0, code, NEW0⟩).code, aux⟩) := by
  have fp := firstPass_round hI NEW0 hw
  have hm := positionMap_ok hI NEW0 hw
  have hb := hw.bounds hI
  exact secondPass_ok hI _ junk S S.toNat 0 _ ⟨0, _, aux⟩ fp.walk hm (by omega)

/-- One round keeps the buffer decodable; if the second pass counts no no-op the
result is clean. -/
theorem relocate_ok {I : InstrSet} (hI : I.WF) {S k : Int} (NEW0 junk : Int → Int)
    (env : CompileEnv) (hw : Walk I env.code 0 S k) :
    Walk I (relocate I junk S (positionMap S (firstPass I S S.toNat 0 ⟨0, env.code, NEW0⟩))
        (firstPass I S S.toNat 0 ⟨0, env.code, NEW0⟩).code env).1.code 0
      (S - (firstPass I S S.toNat 0 ⟨0, env.code, NEW0⟩).nops)
      (relocate I junk S (positionMap S (firstPass I S S.toNat 0 ⟨0, env.code, NEW0⟩))
        (firstPass I S S.toNat 0 ⟨0, env.code, NEW0⟩).code env).2 ∧
    ((relocate I junk S (positionMap S (firstPass I S S.toNat 0 ⟨0, env.code, NEW0⟩))
        (firstPass I S S.toNat 0 ⟨0, env.code, NEW0⟩).code env).2 = 0 →
      Clean I (relocate I junk S (positionMap S (firstPass I S S.toNat 0 ⟨0, env.code, NEW0⟩))
        (firstPass I S S.toNat 0 ⟨0, env.code, NEW0⟩).code env).1.code
        (S - (firstPass I S S.toNat 0 ⟨0, env.code, NEW0⟩).nops)) := by
  have fp := firstPass_round hI NEW0 hw
  have sp := secondPass_round hI NEW0 junk env.auxData hw
  have hm := positionMap_ok hI NEW0 hw
  have hb := hw.bounds hI
  have hS : positionMap S (firstPass I S S.toNat 0 ⟨0, env.code, NEW0⟩) S
      = S - (firstPass I S S.toNat 0 ⟨0, env.code, NEW0⟩).nops := by
    simp [positionMap]
  have h0 : positionMap S (firstPass I S S.toNat 0 ⟨0, env.code, NEW0⟩) 0 = 0 := by
    have := positionMap_eq hI NEW0 hw 0 0 (Walk.done _ _ _ rfl rfl) hb.1
    omega
  simp only [relocate]
  generalize firstPass I S S.toNat 0 ⟨0, env.code, NEW0⟩ = f at fp sp hm hS h0 ⊢
  generalize positionMap S f = NEW at sp hm hS h0 ⊢
  generalize secondPass I S NEW junk S.toNat 0 ⟨0, f.code, env.auxData⟩ = r at sp ⊢
  have hwk := sp.walk
  rw [h0, hS] at hwk
  dsimp only at hwk
  have e : r.nops - 0 = r.nops := by omega
  rw [e] at hwk
  refine ⟨hwk, fun hz => ⟨hz ▸ hwk, ?_⟩⟩
  intro q m hq hlt
  have := sp.clean (by dsimp only; omega) (fun q' m' hq' hlt' => fp.no_resize q' m' hq' hlt')
  rw [h0, hS] at this
  exact this q m hq hlt

theorem CompactCode_spec {I : InstrSet} (hI : I.WF) (junk : Nat → Int → Int) :
    ∀ (b round : Nat) (env : CompileEnv) (NEW : Int → Int) (S k : Int),
      S ≤ b → env.codeSize = S → Walk I env.code 0 S k →
      ∃ res, (∀ fuel : Nat, S + 1 ≤ fuel →
          CompactCode I junk fuel round env NEW S = some res) ∧ CompactOK I round S res := by
  intro b
  induction b using Nat.strong_induction_on with
  | _ b ih =>
    intro round env NEW S k hSb hSe hw
    have hb := hw.bounds hI
    have fp := firstPass_round hI NEW hw
    have rl := relocate_ok hI NEW (junk round) env hw
    have hunf : ∀ fuel : Nat, S + 1 ≤ fuel →
        CompactCode I junk fuel round env NEW S =
          CompactCode I junk ((fuel - 1) + 1) round env NEW S := by
      intro fuel hf
      have : fuel - 1 + 1 = fuel := by omega
      rw [this]
    have hpm : positionMap S (firstPass I S S.toNat 0 ⟨0, env.code, NEW⟩) S
        = S - (firstPass I S S.toNat 0 ⟨0, env.code, NEW⟩).nops := by
      simp [positionMap]
    generalize hfdef : firstPass I S S.toNat 0 ⟨0, env.code, NEW⟩ = f at fp rl hpm
    have hfb := fp.walk.bounds hI
    dsimp only at hfb
    by_cases hn : f.nops = 0
    · refine ⟨({ env with code := f.code }, f.NEW, round + 1), ?_, ?_⟩
      · intro fuel hf
        rw [hunf fuel hf]
        simp only [CompactCode]
        rw [hfdef, if_pos hn]
      · refine ⟨⟨?_, ?_⟩, ?_, ?_, ?_⟩
        · have := fp.walk
          dsimp only at this ⊢
          rw [hn] at this
          rw [hSe]; exact this
        · intro q m hq hlt
          dsimp only at hq hlt ⊢
          rw [hSe] at hlt
          exact fp.no_resize q m hq hlt
        · dsimp only; omega
        · dsimp only; omega
        · dsimp only; push_cast; omega
    · generalize hr : relocate I (junk round) S (positionMap S f) f.code env = r at rl
      by_cases h2 : r.2 = 0
      · refine ⟨(r.1, positionMap S f, round + 1), ?_, ?_⟩
        · intro fuel hf
          rw [hunf fuel hf]
          simp only [CompactCode]
          rw [hfdef, if_neg hn, hr, if_neg (by simpa using h2)]
        · have hcs : r.1.codeSize = S - f.nops := by
            rw [← hr]; simp only [relocate]; exact hpm
          refine ⟨by rw [hcs]; exact rl.2 h2, ?_, ?_, ?_⟩
          · dsimp only; omega
          · dsimp only; omega
          · dsimp only; push_cast; omega
      · have hcs : r.1.codeSize = S - f.nops := by
          rw [← hr]; simp only [relocate]; exact hpm
        have hlt : (S - f.nops).toNat < b := by omega
        obtain ⟨res, hres, hok⟩ := ih (S - f.nops).toNat hlt (round + 1) r.1 (positionMap S f)
          (S - f.nops) r.2 (by omega) hcs rl.1
        refine ⟨res, ?_, ?_⟩
        · intro fuel hf
          rw [hunf fuel hf]
          simp only [CompactCode]
          rw [hfdef, if_neg hn, hr, if_pos (by simpa using h2), hpm]
          exact hres (fuel - 1) (by omega)
        · refine ⟨hok.clean, ?_, ?_, ?_⟩
          · have := hok.size_le; omega
          · have := hok.rounds_gt; omega
          · have := hok.rounds_le; push_cast at this ⊢; omega

theorem TclOptimizeBytecode_spec {I : InstrSet} (hI : I.WF) (junk : Nat → Int → Int)
    (NEW : Int → Int) (env : CompileEnv) (hdec : Decodes I env.code env.codeSize) :
    ∃ out, TclOptimizeBytecode I junk NEW env = some out ∧
      Clean I out.code out.codeSize ∧ out.codeSize ≤ env.codeSize := by
  obtain ⟨k, hw⟩ := hdec
  have hb := hw.bounds hI
  obtain ⟨res, hres, hok⟩ := CompactCode_spec hI junk env.codeSize.toNat 0 env NEW
    env.codeSize k (by omega) rfl hw
  refine ⟨res.1, ?_, hok.clean, hok.size_le⟩
  unfold TclOptimizeBytecode
  rw [hres (env.codeSize.toNat + 1) (by push_cast; omega)]
  rfl

/-- In a clean buffer no instruction is a no-op. -/
theorem Clean.no_nop {I : InstrSet} (hI : I.WF) {code : Int → Int} {S : Int}
    (h : Clean I code S) (pc k : Int) (hpc : Walk I code 0 pc k) (hlt : pc < S) :
    INST_AT_PC code pc ≠ I.INST_NOP := by
  have h1 := h.1.split hI hpc (by omega)
  have hb0 := hpc.bounds hI
  have hb1 := h1.bounds hI
  have h2 := h1.inv_lt hlt
  have hb2 := h2.bounds hI
  have hn := nopAt_nonneg I code pc
  intro e
  have : nopAt I code pc = 1 := by simp [nopAt, e]
  omega

/-- The first pass counts nothing on a clean buffer and leaves it as it is. -/
theorem Clean.firstPass_zero {I : InstrSet} (hI : I.WF) {code : Int → Int} {S : Int}
    (h : Clean I code S) (NEW : Int → Int) :
    (firstPass I S S.toNat 0 ⟨0, code, NEW⟩).nops = 0 ∧
      (firstPass I S S.toNat 0 ⟨0, code, NEW⟩).code = code := by
  have fp := firstPass_round hI NEW h.1
  have h0 : (firstPass I S S.toNat 0 ⟨0, code, NEW⟩).nops = 0 := by
    apply fp.clean
    intro q k hq hlt
    refine ⟨h.2 q k hq hlt, ?_⟩
    have := h.no_nop hI q k hq hlt
    simp [nopAt, this]
  exact ⟨h0, fp.unchanged h0⟩

/-- C2: when `TclOptimizeBytecode` returns (it does, on every decodable input),
decoding the buffer from offset 0 up to its new logical length meets no
`INST_NOP` at any instruction boundary. -/
theorem C2_no_nop_survives {I : InstrSet} (hI : I.WF) (junk : Nat → Int → Int)
    (NEW : Int → Int) (env : CompileEnv) (hdec : Decodes I env.code env.codeSize) :
    ∃ out, TclOptimizeBytecode I junk NEW env = some out ∧
      ∀ pc k, Walk I out.code 0 pc k → pc < out.codeSize →
        INST_AT_PC out.code pc ≠ I.INST_NOP := by
  obtain ⟨out, h1, h2, _⟩ := TclOptimizeBytecode_spec hI junk NEW env hdec
  exact ⟨out, h1, fun pc k hpc hlt => h2.no_nop hI pc k hpc hlt⟩

/-- C3: the logical length after `TclOptimizeBytecode` is at most the length
before; and in a round on a decodable buffer of length `S` the first pass counts
exactly the no-op instructions of the buffer it leaves, and the length after the
round is the sentinel entry of the position map, `S` minus that count. -/
theorem C3_size_non_increase {I : InstrSet} (hI : I.WF) (junk : Nat → Int → Int)
    (NEW : Int → Int) (env : CompileEnv) (hdec : Decodes I env.code env.codeSize) :
    (∃ out, TclOptimizeBytecode I junk NEW env = some out ∧ out.codeSize ≤ env.codeSize) ∧
    (∀ (j : Int → Int) (NEW0 : Int → Int) (e : CompileEnv) (S : Int), Decodes I e.code S →
      Walk I (firstPass I S S.toNat 0 ⟨0, e.code, NEW0⟩).code 0 S
        (firstPass I S S.toNat 0 ⟨0, e.code, NEW0⟩).nops ∧
      (relocate I j S (positionMap S (firstPass I S S.toNat 0 ⟨0, e.code, NEW0⟩))
        (firstPass I S S.toNat 0 ⟨0, e.code, NEW0⟩).code e).1.codeSize
        = positionMap S (firstPass I S S.toNat 0 ⟨0, e.code, NEW0⟩) S ∧
      positionMap S (firstPass I S S.toNat 0 ⟨0, e.code, NEW0⟩) S
        = S - (firstPass I S S.toNat 0 ⟨0, e.code, NEW0⟩).nops) := by
  obtain ⟨out, h1, _, h3⟩ := TclOptimizeBytecode_spec hI junk NEW env hdec
  refine ⟨⟨out, h1, h3⟩, ?_⟩
  intro j NEW0 e S hd
  obtain ⟨k, hw⟩ := hd
  have fp := firstPass_round hI NEW0 hw
  refine ⟨by simpa using fp.walk, rfl, by simp [positionMap]⟩

/-- C4: running `TclOptimizeBytecode` on its own output counts zero no-ops in
the first pass and returns the environment (buffer, length, exception ranges,
auxiliary data, command map) unchanged. -/
theorem C4_idempotence {I : InstrSet} (hI : I.WF) (junk junk' : Nat → Int → Int)
    (NEW NEW' : Int → Int) (env : CompileEnv) (hdec : Decodes I env.code env.codeSize) :
    ∃ out, TclOptimizeBytecode I junk NEW env = some out ∧
      (firstPass I out.codeSize out.codeSize.toNat 0 ⟨0, out.code, NEW'⟩).nops = 0 ∧
      TclOptimizeBytecode I junk' NEW' out = some out := by
  obtain ⟨out, h1, h2, _⟩ := TclOptimizeBytecode_spec hI junk NEW env hdec
  obtain ⟨h0, hc⟩ := h2.firstPass_zero hI NEW'
  refine ⟨out, h1, h0, ?_⟩
  unfold TclOptimizeBytecode
  simp only [CompactCode]
  rw [if_pos h0, hc]
  rfl

/-- C6: if the buffer decodes from offset 0 into complete instructions ending
exactly at its logical length, then so does the buffer after the first pass,
the buffer after a compaction round (up to the new length), and the buffer
that `TclOptimizeBytecode` returns. -/
theorem C6_decodability_preserved {I : InstrSet} (hI : I.WF) (junk : Nat → Int → Int)
    (NEW : Int → Int) (env : CompileEnv) (hdec : Decodes I env.code env.codeSize) :
    Decodes I (firstPass I env.codeSize env.codeSize.toNat 0 ⟨0, env.code, NEW⟩).code
      env.codeSize ∧
    (∀ j : Int → Int,
      Decodes I (relocate I j env.codeSize
          (positionMap env.codeSize
            (firstPass I env.codeSize env.codeSize.toNat 0 ⟨0, env.code, NEW⟩))
          (firstPass I env.codeSize env.codeSize.toNat 0 ⟨0, env.code, NEW⟩).code env).1.code
        (relocate I j env.codeSize
          (positionMap env.codeSize
            (firstPass I env.codeSize env.codeSize.toNat 0 ⟨0, env.code, NEW⟩))
          (firstPass I env.codeSize env.codeSize.toNat 0 ⟨0, env.code, NEW⟩).code
          env).1.codeSize) ∧
    ∃ out, TclOptimizeBytecode I junk NEW env = some out ∧ Decodes I out.code out.codeSize := by
  obtain ⟨out, h1, h2, _⟩ := TclOptimizeBytecode_spec hI junk NEW env hdec
  obtain ⟨k, hw⟩ := hdec
  have fp := firstPass_round hI NEW hw
  refine ⟨⟨_, fp.walk⟩, ?_, ⟨out, h1, ⟨_, h2.1⟩⟩⟩
  intro j
  have rl := relocate_ok hI NEW j env hw
  have e : (relocate I j env.codeSize
          (positionMap env.codeSize
            (firstPass I env.codeSize env.codeSize.toNat 0 ⟨0, env.code, NEW⟩))
          (firstPass I env.codeSize env.codeSize.toNat 0 ⟨0, env.code, NEW⟩).code
          env).1.codeSize = env.codeSize
            - (firstPass I env.codeSize env.codeSize.toNat 0 ⟨0, env.code, NEW⟩).nops := by
    simp [relocate, positionMap]
  unfold Decodes Boundary
  rw [e]
  exact ⟨_, rl.1⟩

/-- The position map does not decrease, and does not grow faster than the
offsets, between two boundaries of the buffer left by the first pass. -/
theorem positionMap_mono {I : InstrSet} (hI : I.WF) {code : Int → Int} {S k : Int}
    (NEW0 : Int → Int) (hw : Walk I code 0 S k) (a b ka kb : Int)
    (ha : Walk I (firstPass I S S.toNat 0 ⟨0, code, NEW0⟩).code 0 a ka)
    (hb : Walk I (firstPass I S S.toNat 0 ⟨0, code, NEW0⟩).code 0 b kb)
    (hab : a ≤ b) (hbS : b ≤ S) :
    positionMap S (firstPass I S S.toNat 0 ⟨0, code, NEW0⟩) a
        ≤ positionMap S (firstPass I S S.toNat 0 ⟨0, code, NEW0⟩) b ∧
      positionMap S (firstPass I S S.toNat 0 ⟨0, code, NEW0⟩) b
        - positionMap S (firstPass I S S.toNat 0 ⟨0, code, NEW0⟩) a ≤ b - a := by
  have h1 := positionMap_eq hI NEW0 hw a ka ha (by omega)
  have h2 := positionMap_eq hI NEW0 hw b kb hb hbS
  have h3 := (hb.split hI ha hab).bounds hI
  omega

/-- C10: after the first pass over a decodable buffer of length `S` that counted
at least one no-op, the position map (with its sentinel entry) satisfies:
`NEW[0] = 0`; at every instruction boundary `pc` of the narrowed buffer,
`NEW[pc]` is `pc` minus the number of `INST_NOP` instructions below `pc`; `NEW`
is monotone over instruction boundaries; the first pass counted exactly the
no-op instructions of the buffer and `NEW[S]` is `S` minus that count. -/
theorem C10_position_map_invariant {I : InstrSet} (hI : I.WF) (code NEW0 : Int → Int)
    (S : Int) (hdec : Decodes I code S)
    (_hn : (firstPass I S S.toNat 0 ⟨0, code, NEW0⟩).nops ≠ 0) :
    positionMap S (firstPass I S S.toNat 0 ⟨0, code, NEW0⟩) 0 = 0 ∧
    (∀ pc k, Walk I (firstPass I S S.toNat 0 ⟨0, code, NEW0⟩).code 0 pc k → pc ≤ S →
      positionMap S (firstPass I S S.toNat 0 ⟨0, code, NEW0⟩) pc = pc - k) ∧
    (∀ a b, Boundary I (firstPass I S S.toNat 0 ⟨0, code, NEW0⟩).code a →
      Boundary I (firstPass I S S.toNat 0 ⟨0, code, NEW0⟩).code b → a ≤ b → b ≤ S →
      positionMap S (firstPass I S S.toNat 0 ⟨0, code, NEW0⟩) a
        ≤ positionMap S (firstPass I S S.toNat 0 ⟨0, code, NEW0⟩) b) ∧
    Walk I (firstPass I S S.toNat 0 ⟨0, code, NEW0⟩).code 0 S
      (firstPass I S S.toNat 0 ⟨0, code, NEW0⟩).nops ∧
    positionMap S (firstPass I S S.toNat 0 ⟨0, code, NEW0⟩) S
      = S - (firstPass I S S.toNat 0 ⟨0, code, NEW0⟩).nops := by
  obtain ⟨k, hw⟩ := hdec
  have hb := hw.bounds hI
  have fp := firstPass_round hI NEW0 hw
  refine ⟨?_, positionMap_eq hI NEW0 hw, ?_, by simpa using fp.walk, by simp [positionMap]⟩
  · have := positionMap_eq hI NEW0 hw 0 0 (Walk.done _ _ _ rfl rfl) hb.1
    omega
  · rintro a b ⟨ka, ha⟩ ⟨kb, hb'⟩ hab hbS
    exact (positionMap_mono hI NEW0 hw a b ka kb ha hb' hab hbS).1

theorem relocate_exceptArray (I : InstrSet) (junk : Int → Int) (S : Int) (NEW code : Int → Int)
    (env : CompileEnv) :
    (relocate I junk S NEW code env).1.exceptArray = env.exceptArray.map (updateRange NEW) :=
  rfl

theorem relocate_cmdMap (I : InstrSet) (junk : Int → Int) (S : Int) (NEW code : Int → Int)
    (env : CompileEnv) :
    (relocate I junk S NEW code env).1.cmdMap = env.cmdMap.map (updateCmd NEW S) :=
  rfl

/-- C7: after one compaction round with position map `NEW`, the `i`-th exception
range, with old values `r`, has `codeOffset = NEW[r.codeOffset]` and
`codeOffset + numCodeBytes = NEW[r.codeOffset + r.numCodeBytes]`; a catch range
has `catchOffset = NEW[r.catchOffset]`; a loop range has
`breakOffset = NEW[r.breakOffset]`, and its `continueOffset` is
`NEW[r.continueOffset]` when that was `>= 0` and is unchanged when it was
negative. -/
theorem C7_exception_ranges_remapped (I : InstrSet) (junk : Int → Int) (S : Int)
    (NEW code : Int → Int) (env : CompileEnv) (i : Nat) (r : ExceptionRange)
    (hr : env.exceptArray[i]? = some r) :
    ∃ r', (relocate I junk S NEW code env).1.exceptArray[i]? = some r' ∧
      r'.type = r.type ∧
      r'.codeOffset = NEW r.codeOffset ∧
      r'.codeOffset + r'.numCodeBytes = NEW (r.codeOffset + r.numCodeBytes) ∧
      (r.type = .CATCH_EXCEPTION_RANGE → r'.catchOffset = NEW r.catchOffset) ∧
      (r.type = .LOOP_EXCEPTION_RANGE →
        r'.breakOffset = NEW r.breakOffset ∧
        (r.continueOffset ≥ 0 → r'.continueOffset = NEW r.continueOffset) ∧
        (r.continueOffset < 0 → r'.continueOffset = r.continueOffset)) := by
  refine ⟨updateRange NEW r, ?_, ?_⟩
  · rw [relocate_exceptArray, List.getElem?_map, hr]; rfl
  · unfold updateRange
    dsimp only
    by_cases ht : r.type = .CATCH_EXCEPTION_RANGE
    · rw [if_pos ht]
      dsimp only
      refine ⟨rfl, rfl, by omega, fun _ => rfl, fun h => by rw [ht] at h; cases h⟩
    · rw [if_neg ht]
      by_cases hc : r.continueOffset ≥ 0
      · rw [if_pos hc]
        dsimp only
        refine ⟨rfl, rfl, by omega, fun h => absurd h ht, fun _ => ⟨rfl, fun _ => rfl,
          fun h => by omega⟩⟩
      · rw [if_neg hc]
        dsimp only
        refine ⟨rfl, rfl, by omega, fun h => absurd h ht, fun _ => ⟨rfl, fun h => by omega,
          fun _ => rfl⟩⟩

/-- C9: after one compaction round on a decodable buffer of old length `S` with
position map `NEW`, the `i`-th command-map entry, with old values `m`, has
`codeOffset = NEW[m.codeOffset]` and
`codeOffset + numCodeBytes = NEW[min(m.codeOffset + m.numCodeBytes, S)]`; when
the old start and the clamped old end are instruction boundaries of the buffer,
in this order, the new end is at most `NEW[S]`, the new length of the buffer,
and the new `numCodeBytes` is not negative. -/
theorem C9_command_map_clamped {I : InstrSet} (hI : I.WF) (junk : Int → Int)
    (NEW0 : Int → Int) (env : CompileEnv) (S : Int) (hdec : Decodes I env.code S)
    (i : Nat) (m : CmdLocation) (hm : env.cmdMap[i]? = some m) :
    ∃ m', (relocate I junk S (positionMap S (firstPass I S S.toNat 0 ⟨0, env.code, NEW0⟩))
        (firstPass I S S.toNat 0 ⟨0, env.code, NEW0⟩).code env).1.cmdMap[i]? = some m' ∧
      m'.codeOffset = positionMap S (firstPass I S S.toNat 0 ⟨0, env.code, NEW0⟩) m.codeOffset ∧
      m'.codeOffset + m'.numCodeBytes
        = positionMap S (firstPass I S S.toNat 0 ⟨0, env.code, NEW0⟩)
            (min (m.codeOffset + m.numCodeBytes) S) ∧
      (Boundary I env.code m.codeOffset → 0 ≤ m.numCodeBytes → m.codeOffset ≤ S →
        Boundary I env.code (min (m.codeOffset + m.numCodeBytes) S) →
        m'.codeOffset + m'.numCodeBytes
          ≤ positionMap S (firstPass I S S.toNat 0 ⟨0, env.code, NEW0⟩) S ∧
        positionMap S (firstPass I S S.toNat 0 ⟨0, env.code, NEW0⟩) S
          = (relocate I junk S (positionMap S (firstPass I S S.toNat 0 ⟨0, env.code, NEW0⟩))
              (firstPass I S S.toNat 0 ⟨0, env.code, NEW0⟩).code env).1.codeSize ∧
        0 ≤ m'.numCodeBytes) := by
  obtain ⟨k, hw⟩ := hdec
  have fp := firstPass_round hI NEW0 hw
  refine ⟨updateCmd (positionMap S (firstPass I S S.toNat 0 ⟨0, env.code, NEW0⟩)) S m, ?_, rfl,
    ?_, ?_⟩
  · rw [relocate_cmdMap, List.getElem?_map, hm]; rfl
  · unfold updateCmd
    dsimp only
    have e : (if m.codeOffset + m.numCodeBytes > S then S else m.codeOffset + m.numCodeBytes)
        = min (m.codeOffset + m.numCodeBytes) S := by
      rw [min_def]; split <;> split <;> omega
    rw [e]; omega
  · rintro ⟨ks, hs⟩ hn hsS ⟨ke, he⟩
    obtain ⟨ks', hs'⟩ := fp.keeps _ _ hs hsS
    obtain ⟨ke', he'⟩ := fp.keeps _ _ he (min_le_right _ _)
    have hS := fp.walk
    have h1 := positionMap_mono hI NEW0 hw _ _ _ _ hs' he' (le_min (by omega) hsS)
      (min_le_right _ _)
    have h2 := positionMap_mono hI NEW0 hw _ _ _ _ he' hS (min_le_right _ _) (le_refl _)
    have e : (if m.codeOffset + m.numCodeBytes > S then S else m.codeOffset + m.numCodeBytes)
        = min (m.codeOffset + m.numCodeBytes) S := by
      rw [min_def]; split <;> split <;> omega
    unfold updateCmd
    dsimp only
    rw [e]
    refine ⟨by omega, rfl, by omega⟩

theorem map_eq_some_pair {k : Option JumpKind} {v d : Int} {kind : JumpKind}
    (h : k.map (fun x => (x, v)) = some (kind, d)) : k = some kind ∧ v = d := by
  cases k with
  | none => cases h
  | some x =>
    simp only [Option.map_some', Option.some.injEq, Prod.mk.injEq] at h
    exact ⟨by rw [h.1], h.2⟩

theorem relocateInst_wide {I : InstrSet} (NEW : Int → Int) (junk pc : Int) (s : Pass2)
    (hnj : ¬ isNarrowJump I (s.code pc))
    (hw : isWideJump I (s.code pc) ∨ s.code pc = I.INST_START_CMD) :
    relocateInst I NEW junk pc s = relocWide I NEW pc s := by
  unfold relocateInst
  dsimp only [INST_AT_PC]
  rw [if_neg hnj, if_pos hw]

theorem relocWide_code_start {I : InstrSet} (NEW : Int → Int) (pc : Int) (s : Pass2)
    (hst : s.code pc = I.INST_START_CMD) :
    (relocWide I NEW pc s).code = SET_INT4_AT_PC
      (toInt32 (NEW (pc + GET_INT4_AT_PC s.code (pc + 1)) - NEW pc)) (pc + 1) s.code := by
  unfold relocWide
  dsimp only [INST_AT_PC]
  rw [if_neg (not_not.mpr hst)]

theorem relocWide_code_keep {I : InstrSet} (NEW : Int → Int) (pc : Int) (s : Pass2)
    (hst : s.code pc ≠ I.INST_START_CMD)
    (h5 : toInt32 (NEW (pc + GET_INT4_AT_PC s.code (pc + 1)) - NEW pc) ≠ 5)
    (hr : ¬ (toInt32 (NEW (pc + GET_INT4_AT_PC s.code (pc + 1)) - NEW pc) < 127 ∧
      toInt32 (NEW (pc + GET_INT4_AT_PC s.code (pc + 1)) - NEW pc) > -128)) :
    (relocWide I NEW pc s).code = SET_INT4_AT_PC
      (toInt32 (NEW (pc + GET_INT4_AT_PC s.code (pc + 1)) - NEW pc)) (pc + 1) s.code := by
  unfold relocWide
  dsimp only [INST_AT_PC]
  rw [if_pos hst, if_neg h5, if_neg hr]

theorem relocWide_code_shrink {I : InstrSet} (NEW : Int → Int) (pc : Int) (s : Pass2)
    (hst : s.code pc ≠ I.INST_START_CMD)
    (h5 : toInt32 (NEW (pc + GET_INT4_AT_PC s.code (pc + 1)) - NEW pc) ≠ 5)
    (hr : toInt32 (NEW (pc + GET_INT4_AT_PC s.code (pc + 1)) - NEW pc) < 127 ∧
      toInt32 (NEW (pc + GET_INT4_AT_PC s.code (pc + 1)) - NEW pc) > -128) :
    (relocWide I NEW pc s).code =
      shrinkInst I (toInt32 (NEW (pc + GET_INT4_AT_PC s.code (pc + 1)) - NEW pc)) pc
        (SET_INT4_AT_PC (toInt32 (NEW (pc + GET_INT4_AT_PC s.code (pc + 1)) - NEW pc))
          (pc + 1) s.code) := by
  unfold relocWide
  dsimp only [INST_AT_PC]
  rw [if_pos hst, if_neg h5, if_pos hr]

/-- C1: in a compaction round that runs the second pass with position map `NEW`
(the first pass counted a no-op) on a decodable buffer of bytes, every jump
(narrow or wide, conditional or not) and every command-start marker that the
round finds at an instruction boundary `pc` with displacement `d`, whose target
`pc + d` is an instruction boundary of the buffer, and that the second pass
does not elide, sits after the round at `NEW[pc]`, is of the same kind and
carries the displacement `NEW[pc + d] - NEW[pc]`. -/
theorem C1_jump_relocation {I : InstrSet} (hI : I.WF) (junk NEW0 : Int → Int)
    (env : CompileEnv) (S : Int) (hdec : Decodes I env.code S) (hS : S < 2147483648)
    (hbytes : ∀ x, 0 ≤ env.code x ∧ env.code x < 256)
    (_hn : (firstPass I S S.toNat 0 ⟨0, env.code, NEW0⟩).nops ≠ 0)
    (pc d : Int) (kind : JumpKind) (hpc : Boundary I env.code pc) (hlt : pc < S)
    (hj : decodeJump I env.code pc = some (kind, d))
    (ht : Boundary I env.code (pc + d)) (htS : pc + d ≤ S)
    (hne : ¬ elides I (positionMap S (firstPass I S S.toNat 0 ⟨0, env.code, NEW0⟩)) junk
      (firstPass I S S.toNat 0 ⟨0, env.code, NEW0⟩).code pc) :
    decodeJump I
        (relocate I junk S (positionMap S (firstPass I S S.toNat 0 ⟨0, env.code, NEW0⟩))
          (firstPass I S S.toNat 0 ⟨0, env.code, NEW0⟩).code env).1.code
        (positionMap S (firstPass I S S.toNat 0 ⟨0, env.code, NEW0⟩) pc)
      = some (kind, positionMap S (firstPass I S S.toNat 0 ⟨0, env.code, NEW0⟩) (pc + d)
          - positionMap S (firstPass I S S.toNat 0 ⟨0, env.code, NEW0⟩) pc) := by
  obtain ⟨k, hw⟩ := hdec
  obtain ⟨kp, hp⟩ := hpc
  obtain ⟨kt, htw⟩ := ht
  have fp := firstPass_round hI NEW0 hw
  have sp := secondPass_round hI NEW0 junk env.auxData hw
  have hpm := positionMap_eq hI NEW0 hw
  have hmono := positionMap_mono hI NEW0 hw
  have hj' := fp.jumps pc kp hp hlt
  rw [hj] at hj'
  obtain ⟨kp', hp'⟩ := fp.keeps pc kp hp (le_of_lt hlt)
  obtain ⟨kt', ht'⟩ := fp.keeps _ kt htw htS
  have hby := fp.bytes hbytes
  have hct := sp.contents pc kp' hp' hlt
  show decodeJump I (secondPass I S (positionMap S (firstPass I S S.toNat 0
    ⟨0, env.code, NEW0⟩)) junk S.toNat 0 ⟨0, (firstPass I S S.toNat 0
    ⟨0, env.code, NEW0⟩).code, env.auxData⟩).code _ = _
  generalize secondPass I S (positionMap S (firstPass I S S.toNat 0
    ⟨0, env.code, NEW0⟩)) junk S.toNat 0 ⟨0, (firstPass I S S.toNat 0
    ⟨0, env.code, NEW0⟩).code, env.auxData⟩ = r at sp hct ⊢
  generalize firstPass I S S.toNat 0 ⟨0, env.code, NEW0⟩ = f at *
  generalize hNEW : positionMap S f = NEW at *
  dsimp only at hp' ht' hby hct hj'
  have e1 := hpm pc kp' hp' (le_of_lt hlt)
  have e2 := hpm _ kt' ht' htS
  have b1 := hp'.bounds hI
  have b2 := ht'.bounds hI
  have hdiff : -2147483648 ≤ NEW (pc + d) - NEW pc ∧ NEW (pc + d) - NEW pc < 2147483648 := by
    omega
  have hcontr : (0 ≤ d → 0 ≤ NEW (pc + d) - NEW pc ∧ NEW (pc + d) - NEW pc ≤ d) ∧
      (d ≤ 0 → d ≤ NEW (pc + d) - NEW pc ∧ NEW (pc + d) - NEW pc ≤ 0) := by
    constructor
    · intro hd
      have := hmono pc (pc + d) kp' kt' hp' ht' (by omega) htS
      omega
    · intro hd
      have := hmono (pc + d) pc kt' kp' ht' hp' (by omega) (le_of_lt hlt)
      omega
  by_cases hnj : isNarrowJump I (f.code pc)
  · obtain ⟨hl2, hnop, _⟩ := narrow_facts hI hnj
    rw [decodeJump_narrow hnj] at hj'
    obtain ⟨hk, hd⟩ := map_eq_some_pair hj'
    have hjunk : junk pc ≠ 2 := fun e => hne (Or.inl ⟨hnj, e⟩)
    have hR : (relocateInst I NEW (junk pc) pc ⟨0, f.code, env.auxData⟩).code
        = SET_INT1_AT_PC (NEW (pc + d) - NEW pc) (pc + 1) f.code := by
      simp only [relocateInst, INST_AT_PC, if_pos hnj, relocNarrow, if_neg hjunk, hd]
    have hct' := hct hnop
    rw [hR] at hct'
    have hR0 : SET_INT1_AT_PC (NEW (pc + d) - NEW pc) (pc + 1) f.code pc = f.code pc := by
      simp [SET_INT1_AT_PC, store_apply]
    rw [decodeJump_shift hI (c := SET_INT1_AT_PC (NEW (pc + d) - NEW pc) (pc + 1) f.code)
      (p := pc) (fun i h0 h1 => hct' i h0 (by rw [hR0] at h1; exact h1)),
      decodeJump_narrow (by rw [hR0]; exact hnj), hR0, hk]
    have hrange := hby (pc + 1)
    have hdr : -128 ≤ d ∧ d ≤ 127 := by
      rw [← hd]; unfold GET_INT1_AT_PC; split <;> omega
    rw [get_set_int1 _ _ _ (by omega) (by omega)]
    rfl
  · have hwide : isWideJump I (f.code pc) ∨ f.code pc = I.INST_START_CMD := by
      by_contra hc
      rw [decodeJump_none hnj hc] at hj'
      cases hj'
    rw [decodeJump_wide hnj hwide] at hj'
    obtain ⟨hk, hd⟩ := map_eq_some_pair hj'
    have hL : 5 ≤ I.numBytes (f.code pc) := by
      rcases hwide with h | h
      · rw [(wide_facts hI (Or.inr h)).1]
      · rw [h]; exact hI.len_start_cmd
    have hnop : f.code pc ≠ I.INST_NOP := by
      intro e; rw [e, hI.len_nop] at hL; omega
    have hct' := hct hnop
    have hoff : toInt32 (NEW (pc + d) - NEW pc) = NEW (pc + d) - NEW pc :=
      toInt32_id _ hdiff.1 hdiff.2
    have hset0 : SET_INT4_AT_PC (NEW (pc + d) - NEW pc) (pc + 1) f.code pc = f.code pc :=
      set_int4_outside _ _ _ _ (Or.inl (by omega))
    have hkeep : (relocateInst I NEW (junk pc) pc ⟨0, f.code, env.auxData⟩).code
        = SET_INT4_AT_PC (NEW (pc + d) - NEW pc) (pc + 1) f.code →
        decodeJump I r.code (NEW pc) = some (kind, NEW (pc + d) - NEW pc) := by
      intro hR
      rw [hR] at hct'
      rw [decodeJump_shift hI (c := SET_INT4_AT_PC (NEW (pc + d) - NEW pc) (pc + 1) f.code)
        (p := pc) (fun i h0 h1 => hct' i h0 (by rw [hset0] at h1; exact h1)),
        decodeJump_wide (by rw [hset0]; exact hnj) (by rw [hset0]; exact hwide), hset0, hk,
        get_set_int4 _ _ _ hdiff.1 hdiff.2]
      rfl
    by_cases hst : f.code pc = I.INST_START_CMD
    · apply hkeep
      rw [relocateInst_wide NEW (junk pc) pc ⟨0, f.code, env.auxData⟩ hnj hwide, relocWide_code_start NEW pc ⟨0, f.code, env.auxData⟩ hst]
      dsimp only
      rw [hd, hoff]
    · have hwj : isWideJump I (f.code pc) := hwide.resolve_right hst
      have h5 : toInt32 (NEW (pc + d) - NEW pc) ≠ 5 := by
        intro e
        apply hne
        refine Or.inr ⟨hwj, ?_⟩
        rw [hd]; exact e
      have h5' : toInt32 (NEW (pc + GET_INT4_AT_PC f.code (pc + 1)) - NEW pc) ≠ 5 := by
        rw [hd]; exact h5
      rw [hoff] at h5
      by_cases hr : NEW (pc + d) - NEW pc < 127 ∧ NEW (pc + d) - NEW pc > -128
      · obtain ⟨p1, p2, _⟩ := wideJump_pred hI hwj
        obtain ⟨_, hl2, hmod, _, _, _⟩ := wide_facts hI (Or.inr hwj)
        have hR : (relocateInst I NEW (junk pc) pc ⟨0, f.code, env.auxData⟩).code
            = shrinkInst I (NEW (pc + d) - NEW pc) pc
                (SET_INT4_AT_PC (NEW (pc + d) - NEW pc) (pc + 1) f.code) := by
          rw [relocateInst_wide NEW (junk pc) pc ⟨0, f.code, env.auxData⟩ hnj hwide,
            relocWide_code_shrink NEW pc ⟨0, f.code, env.auxData⟩ hst h5' (by dsimp only; rw [hd, hoff]; exact hr)]
          dsimp only
          rw [hd, hoff]
        rw [hR] at hct'
        have hR0 : shrinkInst I (NEW (pc + d) - NEW pc) pc
            (SET_INT4_AT_PC (NEW (pc + d) - NEW pc) (pc + 1) f.code) pc = f.code pc - 1 := by
          rw [shrinkInst_apply, hset0]
          repeat' split
          all_goals omega
        have hR1 : shrinkInst I (NEW (pc + d) - NEW pc) pc
            (SET_INT4_AT_PC (NEW (pc + d) - NEW pc) (pc + 1) f.code) (pc + 1)
            = (NEW (pc + d) - NEW pc) % 256 := by
          rw [shrinkInst_apply]
          repeat' split
          all_goals omega
        rw [decodeJump_shift hI (c := shrinkInst I (NEW (pc + d) - NEW pc) pc
            (SET_INT4_AT_PC (NEW (pc + d) - NEW pc) (pc + 1) f.code))
          (p := pc) (fun i h0 h1 => hct' i h0 (by rw [hR0, hl2] at h1; omega)),
          decodeJump_narrow (by rw [hR0]; exact p1), hR0, p2, hk]
        have : GET_INT1_AT_PC (shrinkInst I (NEW (pc + d) - NEW pc) pc
            (SET_INT4_AT_PC (NEW (pc + d) - NEW pc) (pc + 1) f.code)) (pc + 1)
            = NEW (pc + d) - NEW pc := by
          simp only [GET_INT1_AT_PC, hR1]
          split <;> omega
        rw [this]
        rfl
      · apply hkeep
        rw [relocateInst_wide NEW (junk pc) pc ⟨0, f.code, env.auxData⟩ hnj hwide,
          relocWide_code_keep NEW pc ⟨0, f.code, env.auxData⟩ hst h5' (by dsimp only; rw [hd, hoff]; exact hr)]
        dsimp only
        rw [hd, hoff]

theorem relocateInst_jumptable {I : InstrSet} (hI : I.WF) (NEW : Int → Int) (junk pc : Int)
    (s : Pass2) (h : s.code pc = I.INST_JUMP_TABLE) :
    relocateInst I NEW junk pc s = relocJumptable NEW pc s := by
  obtain ⟨h1, h2, h3, h4⟩ := hI.jump_table
  unfold relocateInst
  dsimp only [INST_AT_PC]
  rw [h, if_neg h1, if_neg (fun e => e.elim h2 h3), if_neg h4, if_pos rfl]

/-- The jump table referred to by exactly one `INST_JUMP_TABLE` of the buffer
that the second pass reads has, after the round, every value replaced by
`NEW[pc + d] - NEW[pc]`. -/
theorem jumptable_relocated {I : InstrSet} (hI : I.WF) (junk NEW0 : Int → Int)
    (code : Int → Int) (aux : Int → AuxData) (S : Int) (hdec : Decodes I code S)
    (pc : Int) (hpc : Boundary I (firstPass I S S.toNat 0 ⟨0, code, NEW0⟩).code pc)
    (hlt : pc < S)
    (hjt : INST_AT_PC (firstPass I S S.toNat 0 ⟨0, code, NEW0⟩).code pc = I.INST_JUMP_TABLE)
    (tbl : List (String × Int))
    (haux : aux (toInt32 (GET_UINT4_AT_PC (firstPass I S S.toNat 0 ⟨0, code, NEW0⟩).code
      (pc + 1))) = .jumptableInfo tbl)
    (honly : ∀ q, Boundary I (firstPass I S S.toNat 0 ⟨0, code, NEW0⟩).code q → q < S →
      q ≠ pc → auxRef I (firstPass I S S.toNat 0 ⟨0, code, NEW0⟩).code q ≠
        some (toInt32 (GET_UINT4_AT_PC (firstPass I S S.toNat 0 ⟨0, code, NEW0⟩).code
          (pc + 1)))) :
    (secondPass I S (positionMap S (firstPass I S S.toNat 0 ⟨0, code, NEW0⟩)) junk S.toNat 0
        ⟨0, (firstPass I S S.toNat 0 ⟨0, code, NEW0⟩).code, aux⟩).aux
      (toInt32 (GET_UINT4_AT_PC (firstPass I S S.toNat 0 ⟨0, code, NEW0⟩).code (pc + 1)))
    = .jumptableInfo (tbl.map (fun e =>
        (e.1, positionMap S (firstPass I S S.toNat 0 ⟨0, code, NEW0⟩) (pc + e.2)
          - positionMap S (firstPass I S S.toNat 0 ⟨0, code, NEW0⟩) pc))) := by
  obtain ⟨k, hw⟩ := hdec
  obtain ⟨kp, hp⟩ := hpc
  have sp := secondPass_round hI NEW0 junk aux hw
  generalize firstPass I S S.toNat 0 ⟨0, code, NEW0⟩ = f at *
  generalize positionMap S f = NEW at *
  have hnop : f.code pc ≠ I.INST_NOP := by
    intro e
    have h5 := hI.len_jump_table
    rw [← hjt, INST_AT_PC, e, hI.len_nop] at h5
    omega
  have hr : auxRef I f.code pc = some (toInt32 (GET_UINT4_AT_PC f.code (pc + 1))) := by
    simp only [auxRef, hjt, or_true, if_true]
  rw [sp.aux_at _ pc kp hp hlt hnop hr (fun q m hq hl hne => honly q ⟨m, hq⟩ hl hne),
    relocateInst_jumptable hI NEW (junk pc) pc ⟨0, f.code, aux⟩ hjt]
  unfold relocJumptable
  dsimp only
  rw [haux]
  dsimp only
  rw [store_same]

/-- C8: after one compaction round with position map `NEW`, for a jump-table
instruction at offset `pc` whose descriptor is referred to by that instruction
only, the descriptor holds, for every old entry `(key, d)` and in the same
order, the entry `(key, NEW[pc + d] - NEW[pc])`: the keys and the number of
entries are unchanged, and had the entries been enumerated in another order
`tbl'` the resulting table would hold the same entries. -/
theorem C8_jump_table_entries {I : InstrSet} (hI : I.WF) (junk NEW0 : Int → Int)
    (env : CompileEnv) (S : Int) (hdec : Decodes I env.code S)
    (pc : Int) (hpc : Boundary I (firstPass I S S.toNat 0 ⟨0, env.code, NEW0⟩).code pc)
    (hlt : pc < S)
    (hjt : INST_AT_PC (firstPass I S S.toNat 0 ⟨0, env.code, NEW0⟩).code pc
      = I.INST_JUMP_TABLE)
    (tbl : List (String × Int))
    (haux : env.auxData (toInt32 (GET_UINT4_AT_PC
      (firstPass I S S.toNat 0 ⟨0, env.code, NEW0⟩).code (pc + 1))) = .jumptableInfo tbl)
    (honly : ∀ q, Boundary I (firstPass I S S.toNat 0 ⟨0, env.code, NEW0⟩).code q → q < S →
      q ≠ pc → auxRef I (firstPass I S S.toNat 0 ⟨0, env.code, NEW0⟩).code q ≠
        some (toInt32 (GET_UINT4_AT_PC (firstPass I S S.toNat 0 ⟨0, env.code, NEW0⟩).code
          (pc + 1)))) :
    ∃ tbl2, (relocate I junk S (positionMap S (firstPass I S S.toNat 0 ⟨0, env.code, NEW0⟩))
        (firstPass I S S.toNat 0 ⟨0, env.code, NEW0⟩).code env).1.auxData
        (toInt32 (GET_UINT4_AT_PC (firstPass I S S.toNat 0 ⟨0, env.code, NEW0⟩).code (pc + 1)))
        = .jumptableInfo tbl2 ∧
      tbl2 = tbl.map (fun e =>
        (e.1, positionMap S (firstPass I S S.toNat 0 ⟨0, env.code, NEW0⟩) (pc + e.2)
          - positionMap S (firstPass I S S.toNat 0 ⟨0, env.code, NEW0⟩) pc)) ∧
      tbl2.map Prod.fst = tbl.map Prod.fst ∧ tbl2.length = tbl.length ∧
      (∀ key d, (key, d) ∈ tbl →
        (key, positionMap S (firstPass I S S.toNat 0 ⟨0, env.code, NEW0⟩) (pc + d)
          - positionMap S (firstPass I S S.toNat 0 ⟨0, env.code, NEW0⟩) pc) ∈ tbl2) ∧
      (∀ tbl', tbl'.Perm tbl →
        ∃ tbl2', (relocate I junk S
            (positionMap S (firstPass I S S.toNat 0 ⟨0, env.code, NEW0⟩))
            (firstPass I S S.toNat 0 ⟨0, env.code, NEW0⟩).code
            (setAux env (toInt32 (GET_UINT4_AT_PC
              (firstPass I S S.toNat 0 ⟨0, env.code, NEW0⟩).code (pc + 1)))
              (.jumptableInfo tbl'))).1.auxData
            (toInt32 (GET_UINT4_AT_PC (firstPass I S S.toNat 0 ⟨0, env.code, NEW0⟩).code
              (pc + 1))) = .jumptableInfo tbl2' ∧ tbl2'.Perm tbl2) := by
  have main := jumptable_relocated hI junk NEW0 env.code env.auxData S hdec pc hpc hlt hjt tbl
    haux honly
  refine ⟨_, main, rfl, ?_, by simp, ?_, ?_⟩
  · simp [List.map_map, Function.comp_def]
  · intro key d hmem
    exact List.mem_map.mpr ⟨(key, d), hmem, rfl⟩
  · intro tbl' hperm
    have main' := jumptable_relocated hI junk NEW0 env.code
      (store env.auxData (toInt32 (GET_UINT4_AT_PC
        (firstPass I S S.toNat 0 ⟨0, env.code, NEW0⟩).code (pc + 1))) (.jumptableInfo tbl'))
      S hdec pc hpc hlt hjt tbl' (store_same _ _ _) honly
    exact ⟨_, main', hperm.map _⟩

/-- The move loop ends by its own condition: any fuel of at least
`nextpc - (pc + i)` gives the same buffer. -/
theorem moveUp_fuel (dst pc nextpc : Int) :
    ∀ (f1 f2 : Nat) (i : Int) (code : Int → Int), nextpc - (pc + i) ≤ f1 →
      nextpc - (pc + i) ≤ f2 →
      moveUp dst pc nextpc f1 i code = moveUp dst pc nextpc f2 i code := by
  intro f1
  induction f1 with
  | zero =>
    intro f2 i code h1 _
    cases f2 with
    | zero => rfl
    | succ f2 =>
      simp only [moveUp]
      rw [if_neg (by push_cast at h1; omega)]
  | succ f1 ih =>
    intro f2 i code h1 h2
    cases f2 with
    | zero =>
      simp only [moveUp]
      rw [if_neg (by push_cast at h2; omega)]
    | succ f2 =>
      simp only [moveUp]
      by_cases hlt : pc + i < nextpc
      · rw [if_pos hlt, if_pos hlt]
        exact ih f2 _ _ (by push_cast at h1; omega) (by push_cast at h2; omega)
      · rw [if_neg hlt, if_neg hlt]

theorem next_pc_gt_len {I : InstrSet} (hlen : ∀ op, 1 ≤ I.numBytes op) (code : Int → Int)
    (a : Int) : a + 1 ≤ NEXT_PC I code a := by
  have := hlen (INST_AT_PC code a)
  unfold NEXT_PC InstLength; omega

theorem firstPassStep_bounds {I : InstrSet} (hlen : ∀ op, 1 ≤ I.numBytes op) (pc : Int)
    (s : Pass1) :
    pc < (firstPassStep I pc s).1 ∧ s.nops ≤ (firstPassStep I pc s).2.nops ∧
      (firstPassStep I pc s).2.nops ≤ s.nops + 1 := by
  have hgt := next_pc_gt_len hlen s.code pc
  unfold firstPassStep
  dsimp only
  split <;> dsimp only <;> split <;> omega

/-- The first loop counts at most one no-op per byte it walks over, whatever
the buffer holds. -/
theorem firstPass_nops_bounds {I : InstrSet} (hlen : ∀ op, 1 ≤ I.numBytes op) (S : Int) :
    ∀ (fuel : Nat) (pc : Int) (s : Pass1),
      s.nops ≤ (firstPass I S fuel pc s).nops ∧
      ((firstPass I S fuel pc s).nops = s.nops ∨
        (firstPass I S fuel pc s).nops - s.nops ≤ S - pc) := by
  intro fuel
  induction fuel with
  | zero => intro pc s; simp [firstPass]
  | succ fuel ih =>
    intro pc s
    simp only [firstPass]
    by_cases hpc : pc < S
    · rw [if_pos hpc]
      have st := firstPassStep_bounds hlen pc s
      have r := ih (firstPassStep I pc s).1 (firstPassStep I pc s).2
      omega
    · rw [if_neg hpc]; simp

/-- The first loop ends by its own condition: any fuel of at least
`codeSize - pc` gives the same final state. -/
theorem firstPass_fuel {I : InstrSet} (hlen : ∀ op, 1 ≤ I.numBytes op) (S : Int) :
    ∀ (f1 f2 : Nat) (pc : Int) (s : Pass1), S - pc ≤ f1 → S - pc ≤ f2 →
      firstPass I S f1 pc s = firstPass I S f2 pc s := by
  intro f1
  induction f1 with
  | zero =>
    intro f2 pc s h1 _
    cases f2 with
    | zero => rfl
    | succ f2 =>
      simp only [firstPass]
      rw [if_neg (by push_cast at h1; omega)]
  | succ f1 ih =>
    intro f2 pc s h1 h2
    cases f2 with
    | zero =>
      simp only [firstPass]
      rw [if_neg (by push_cast at h2; omega)]
    | succ f2 =>
      simp only [firstPass]
      by_cases hpc : pc < S
      · rw [if_pos hpc, if_pos hpc]
        have := (firstPassStep_bounds hlen pc s).1
        exact ih f2 _ _ (by push_cast at h1; omega) (by push_cast at h2; omega)
      · rw [if_neg hpc, if_neg hpc]

/-- The second loop ends by its own condition: any fuel of at least
`codeSize - pc` gives the same final state. -/
theorem secondPass_fuel {I : InstrSet} (hlen : ∀ op, 1 ≤ I.numBytes op) (S : Int)
    (NEW junk : Int → Int) :
    ∀ (f1 f2 : Nat) (pc : Int) (s : Pass2), S - pc ≤ f1 → S - pc ≤ f2 →
      secondPass I S NEW junk f1 pc s = secondPass I S NEW junk f2 pc s := by
  intro f1
  induction f1 with
  | zero =>
    intro f2 pc s h1 _
    cases f2 with
    | zero => rfl
    | succ f2 =>
      simp only [secondPass]
      rw [if_neg (by push_cast at h1; omega)]
  | succ f1 ih =>
    intro f2 pc s h1 h2
    cases f2 with
    | zero =>
      simp only [secondPass]
      rw [if_neg (by push_cast at h2; omega)]
    | succ f2 =>
      simp only [secondPass]
      have hgt := next_pc_gt_len hlen s.code pc
      by_cases hpc : pc < S
      · rw [if_pos hpc, if_pos hpc]
        split
        · exact ih f2 _ _ (by push_cast at h1; omega) (by push_cast at h2; omega)
        · exact ih f2 _ _ (by push_cast at h1; omega) (by push_cast at h2; omega)
      · rw [if_neg hpc, if_neg hpc]

/-- `CompactCode` returns whatever the buffer holds, as soon as every
instruction length is at least 1: each restart continues with a smaller,
non-negative `codeSize`. -/
theorem CompactCode_terminates {I : InstrSet} (hlen : ∀ op, 1 ≤ I.numBytes op)
    (junk : Nat → Int → Int) :
    ∀ (b round : Nat) (env : CompileEnv) (NEW : Int → Int) (S : Int), 0 ≤ S → S ≤ b →
      ∃ res, (∀ fuel : Nat, S + 1 ≤ fuel →
          CompactCode I junk fuel round env NEW S = some res) ∧
        round < res.2.2 ∧ (res.2.2 : Int) ≤ round + S + 1 := by
  intro b
  induction b using Nat.strong_induction_on with
  | _ b ih =>
    intro round env NEW S h0 hSb
    have hunf : ∀ fuel : Nat, S + 1 ≤ fuel →
        CompactCode I junk fuel round env NEW S =
          CompactCode I junk ((fuel - 1) + 1) round env NEW S := by
      intro fuel hf
      have : fuel - 1 + 1 = fuel := by omega
      rw [this]
    have hnb := firstPass_nops_bounds hlen S S.toNat 0 ⟨0, env.code, NEW⟩
    have hpm : positionMap S (firstPass I S S.toNat 0 ⟨0, env.code, NEW⟩) S
        = S - (firstPass I S S.toNat 0 ⟨0, env.code, NEW⟩).nops := by
      simp [positionMap]
    generalize hfdef : firstPass I S S.toNat 0 ⟨0, env.code, NEW⟩ = f at hnb hpm
    dsimp only at hnb
    by_cases hn : f.nops = 0
    · refine ⟨({ env with code := f.code }, f.NEW, round + 1), ?_, ?_, ?_⟩
      · intro fuel hf
        rw [hunf fuel hf]
        simp only [CompactCode]
        rw [hfdef, if_pos hn]
      · dsimp only; omega
      · dsimp only; push_cast; omega
    · generalize hr : relocate I (junk round) S (positionMap S f) f.code env = r
      by_cases h2 : r.2 = 0
      · refine ⟨(r.1, positionMap S f, round + 1), ?_, ?_, ?_⟩
        · intro fuel hf
          rw [hunf fuel hf]
          simp only [CompactCode]
          rw [hfdef, if_neg hn, hr, if_neg (by simpa using h2)]
        · dsimp only; omega
        · dsimp only; push_cast; omega
      · have hlt : (S - f.nops).toNat < b := by omega
        obtain ⟨res, hres, hgt, hle⟩ := ih (S - f.nops).toNat hlt (round + 1) r.1
          (positionMap S f) (S - f.nops) (by omega) (by omega)
        refine ⟨res, ?_, by omega, by push_cast at hle ⊢; omega⟩
        intro fuel hf
        rw [hunf fuel hf]
        simp only [CompactCode]
        rw [hfdef, if_neg hn, hr, if_pos (by simpa using h2), hpm]
        exact hres (fuel - 1) (by omega)

/-- C5: as soon as every opcode's encoded length is at least 1, `CompactCode`
terminates on every buffer: the loops of the two passes and the move loop end
by their own conditions (more fuel changes nothing), with any fuel above the
code length `CompactCode` returns the same result, and the label `restart` is
reached at most code length plus one times; a round that runs the second pass
(the first pass counted at least one no-op) continues with a strictly smaller
`codeSize`. -/
theorem C5_termination_bound {I : InstrSet} (hlen : ∀ op, 1 ≤ I.numBytes op)
    (junk : Nat → Int → Int) (NEW : Int → Int) (env : CompileEnv) (h0 : 0 ≤ env.codeSize) :
    (∃ res, (∀ fuel : Nat, env.codeSize + 1 ≤ fuel →
        CompactCode I junk fuel 0 env NEW env.codeSize = some res) ∧
      1 ≤ res.2.2 ∧ (res.2.2 : Int) ≤ env.codeSize + 1) ∧
    (∀ (NEW0 : Int → Int) (code : Int → Int) (S : Int), 0 ≤ S →
      (firstPass I S S.toNat 0 ⟨0, code, NEW0⟩).nops ≠ 0 →
      0 ≤ positionMap S (firstPass I S S.toNat 0 ⟨0, code, NEW0⟩) S ∧
      positionMap S (firstPass I S S.toNat 0 ⟨0, code, NEW0⟩) S < S) ∧
    (∀ (S : Int) (NEW0 j : Int → Int) (fuel : Nat) (s1 : Pass1) (s2 : Pass2), S ≤ fuel →
      firstPass I S fuel 0 s1 = firstPass I S S.toNat 0 s1 ∧
      secondPass I S NEW0 j fuel 0 s2 = secondPass I S NEW0 j S.toNat 0 s2) ∧
    (∀ (dst pc nextpc : Int) (fuel : Nat) (code : Int → Int), nextpc - pc ≤ fuel →
      moveUp dst pc nextpc fuel 0 code = moveUp dst pc nextpc (nextpc - pc).toNat 0 code) := by
  refine ⟨?_, ?_, ?_, ?_⟩
  · obtain ⟨res, hres, hgt, hle⟩ := CompactCode_terminates hlen junk env.codeSize.toNat 0 env NEW
      env.codeSize h0 (by omega)
    exact ⟨res, hres, by omega, by push_cast at hle; omega⟩
  · intro NEW0 code S hS hn
    have hnb := firstPass_nops_bounds hlen S S.toNat 0 ⟨0, code, NEW0⟩
    have : positionMap S (firstPass I S S.toNat 0 ⟨0, code, NEW0⟩) S
        = S - (firstPass I S S.toNat 0 ⟨0, code, NEW0⟩).nops := by simp [positionMap]
    dsimp only at hnb
    omega
  · intro S NEW0 j fuel s1 s2 hf
    exact ⟨firstPass_fuel hlen S fuel S.toNat 0 s1 (by omega) (by omega),
      secondPass_fuel hlen S NEW0 j fuel S.toNat 0 s2 (by omega) (by omega)⟩
  · intro dst pc nextpc fuel code hf
    exact moveUp_fuel dst pc nextpc fuel (nextpc - pc).toNat 0 code (by omega) (by omega)

theorem sampleInstrSet_wf : sampleInstrSet.WF where
  len_pos := by
    intro op
    simp only [sampleInstrSet]
    repeat' split
    all_goals omega
  len_nop := by decide
  len_pop := by decide
  pop_ne_nop := by decide
  nop_byte := by decide
  len_wide := by
    intro op h
    simp only [isWideOperand, isWideJump, sampleInstrSet] at h
    rcases h with (h | h | h | h | h) | (h | h | h) <;> subst h <;> decide
  len_narrow := by
    intro op h
    simp only [isWideOperand, isWideJump, sampleInstrSet] at h
    rcases h with (h | h | h | h | h) | (h | h | h) <;> subst h <;> decide
  byte_wide := by
    intro op h
    simp only [isWideOperand, isWideJump, sampleInstrSet] at h
    omega
  jump1 := by decide
  jump_true1 := by decide
  jump_false1 := by decide
  wide_disjoint := by
    intro op h1 h2
    simp only [isWideOperand, isWideJump, sampleInstrSet] at h1 h2
    omega
  distinct_jump := by decide
  len_start_cmd := by decide
  start_cmd := by decide
  len_foreach_start := by decide
  len_jump_table := by decide
  foreach_start := by decide
  jump_table := by decide

theorem mem_boundaries {I : InstrSet} (hI : I.WF) (code : Int → Int) (S : Int) :
    ∀ (n : Nat) (a q k : Int), Walk I code a q k → q < S → S - a ≤ n →
      q ∈ boundaries I code S n a := by
  intro n
  induction n with
  | zero =>
    intro a q k hq hlt hn
    have := hq.bounds hI
    push_cast at hn; omega
  | succ n ih =>
    intro a q k hq hlt hn
    have hb := hq.bounds hI
    simp only [boundaries]
    rw [if_pos (by omega)]
    by_cases hqa : q = a
    · rw [hqa]; exact List.mem_cons_self _ _
    · have hgt := next_pc_gt hI code a
      exact List.mem_cons_of_mem _
        (ih _ q _ (hq.inv_lt (by omega)) hlt (by push_cast at hn; omega))

theorem codeOf_bytes (l : List Int) (h : ∀ b ∈ l, 0 ≤ b ∧ b < 256) (x : Int) :
    0 ≤ codeOf l x ∧ codeOf l x < 256 := by
  unfold codeOf
  split
  · omega
  · rw [List.getD_eq_getElem?_getD]
    cases hx : l[x.toNat]? with
    | none => simp
    | some b =>
      have := h b (List.getElem?_mem hx)
      simpa using this

theorem C1_witness :
    decodeJump sampleInstrSet (sampleEnv jumpOverNop).code 0 = some (.jump, 4) ∧
    positionMap 5 jumpOverNopPass1 (0 + 4) - positionMap 5 jumpOverNopPass1 0 = 3 ∧
    decodeJump sampleInstrSet
      (relocate sampleInstrSet (fun _ => 0) 5 (positionMap 5 jumpOverNopPass1)
        jumpOverNopPass1.code (sampleEnv jumpOverNop)).1.code
      (positionMap 5 jumpOverNopPass1 0)
      = some (.jump, positionMap 5 jumpOverNopPass1 (0 + 4) - positionMap 5 jumpOverNopPass1 0) :=
  ⟨by decide, by decide,
    C1_jump_relocation sampleInstrSet_wf (fun _ => 0) (fun _ => 0) (sampleEnv jumpOverNop) 5
      ⟨1, Walk_of_walkB _ _ 5 _ _ _ (by decide)⟩ (by decide)
      (codeOf_bytes _ (by decide)) (by decide) 0 4 .jump
      ⟨0, Walk_of_walkB _ _ 5 _ _ _ (by decide)⟩ (by decide) (by decide)
      ⟨1, Walk_of_walkB _ _ 5 _ _ _ (by decide)⟩ (by decide)
      (by unfold elides; decide)⟩

theorem nopsAndPush_decodes :
    Decodes sampleInstrSet (sampleEnv nopsAndPush).code (sampleEnv nopsAndPush).codeSize :=
  ⟨2, Walk_of_walkB _ _ 9 _ _ _ (by decide)⟩

theorem C2_witness :
    (TclOptimizeBytecode sampleInstrSet (fun _ _ => 0) (fun _ => 0)
        (sampleEnv nopsAndPush)).map (fun e => (bytes e.code 4, e.codeSize))
      = some ([3, 1, 7, 3], 4) ∧
    ∃ out, TclOptimizeBytecode sampleInstrSet (fun _ _ => 0) (fun _ => 0)
        (sampleEnv nopsAndPush) = some out ∧
      ∀ pc k, Walk sampleInstrSet out.code 0 pc k → pc < out.codeSize →
        INST_AT_PC out.code pc ≠ sampleInstrSet.INST_NOP :=
  ⟨by decide,
    C2_no_nop_survives sampleInstrSet_wf (fun _ _ => 0) (fun _ => 0) (sampleEnv nopsAndPush)
      nopsAndPush_decodes⟩

theorem C3_witness :
    (∃ out, TclOptimizeBytecode sampleInstrSet (fun _ _ => 0) (fun _ => 0)
        (sampleEnv nopsAndPush) = some out ∧ out.codeSize ≤ 9) ∧
    (relocate sampleInstrSet (fun _ => 0) 9 (positionMap 9 nopsAndPushPass1)
        nopsAndPushPass1.code (sampleEnv nopsAndPush)).1.codeSize = 9 - 5 :=
  ⟨(C3_size_non_increase sampleInstrSet_wf (fun _ _ => 0) (fun _ => 0) (sampleEnv nopsAndPush)
      nopsAndPush_decodes).1,
   ((C3_size_non_increase sampleInstrSet_wf (fun _ _ => 0) (fun _ => 0) (sampleEnv nopsAndPush)
      nopsAndPush_decodes).2 (fun _ => 0) (fun _ => 0) (sampleEnv nopsAndPush) 9
      nopsAndPush_decodes).2.1.trans (by decide)⟩

theorem C4_witness :
    ∃ out, TclOptimizeBytecode sampleInstrSet (fun _ _ => 0) (fun _ => 0)
        (sampleEnv nopsAndPush) = some out ∧
      (firstPass sampleInstrSet out.codeSize out.codeSize.toNat 0
        ⟨0, out.code, fun _ => 7⟩).nops = 0 ∧
      TclOptimizeBytecode sampleInstrSet (fun _ _ => 2) (fun _ => 7) out = some out :=
  C4_idempotence sampleInstrSet_wf (fun _ _ => 0) (fun _ _ => 2) (fun _ => 0) (fun _ => 7)
    (sampleEnv nopsAndPush) nopsAndPush_decodes

theorem C5_witness :
    (∃ res, (∀ fuel : Nat, (9 : Int) + 1 ≤ fuel →
        CompactCode sampleInstrSet (fun _ _ => 0) fuel 0 (sampleEnv nopsAndPush) (fun _ => 0) 9
          = some res) ∧ 1 ≤ res.2.2 ∧ (res.2.2 : Int) ≤ 9 + 1) ∧
    nopsAndPushPass1.nops ≠ 0 ∧
    0 ≤ positionMap 9 nopsAndPushPass1 9 ∧ positionMap 9 nopsAndPushPass1 9 < 9 :=
  ⟨(C5_termination_bound sampleInstrSet_wf.len_pos (fun _ _ => 0) (fun _ => 0)
      (sampleEnv nopsAndPush) (by decide)).1, by decide,
   (C5_termination_bound sampleInstrSet_wf.len_pos (fun _ _ => 0) (fun _ => 0)
      (sampleEnv nopsAndPush) (by decide)).2.1 (fun _ => 0) (sampleEnv nopsAndPush).code 9
      (by decide) (by decide)⟩

theorem C6_witness :
    Decodes sampleInstrSet nopsAndPushPass1.code 9 ∧
    Decodes sampleInstrSet
      (relocate sampleInstrSet (fun _ => 0) 9 (positionMap 9 nopsAndPushPass1)
        nopsAndPushPass1.code (sampleEnv nopsAndPush)).1.code
      (relocate sampleInstrSet (fun _ => 0) 9 (positionMap 9 nopsAndPushPass1)
        nopsAndPushPass1.code (sampleEnv nopsAndPush)).1.codeSize ∧
    ∃ out, TclOptimizeBytecode sampleInstrSet (fun _ _ => 0) (fun _ => 0)
        (sampleEnv nopsAndPush) = some out ∧ Decodes sampleInstrSet out.code out.codeSize :=
  ⟨(C6_decodability_preserved sampleInstrSet_wf (fun _ _ => 0) (fun _ => 0)
      (sampleEnv nopsAndPush) nopsAndPush_decodes).1,
   (C6_decodability_preserved sampleInstrSet_wf (fun _ _ => 0) (fun _ => 0)
      (sampleEnv nopsAndPush) nopsAndPush_decodes).2.1 (fun _ => 0),
   (C6_decodability_preserved sampleInstrSet_wf (fun _ _ => 0) (fun _ => 0)
      (sampleEnv nopsAndPush) nopsAndPush_decodes).2.2⟩

theorem C7_witness :
    ∃ r', (relocate sampleInstrSet (fun _ => 0) 9 (positionMap 9 nopsAndPushPass1)
        nopsAndPushPass1.code
        { sampleEnv nopsAndPush with exceptArray := [sampleRange] }).1.exceptArray[0]?
        = some r' ∧
      r'.type = sampleRange.type ∧
      r'.codeOffset = positionMap 9 nopsAndPushPass1 sampleRange.codeOffset ∧
      r'.codeOffset + r'.numCodeBytes = positionMap 9 nopsAndPushPass1
        (sampleRange.codeOffset + sampleRange.numCodeBytes) ∧
      (sampleRange.type = .CATCH_EXCEPTION_RANGE →
        r'.catchOffset = positionMap 9 nopsAndPushPass1 sampleRange.catchOffset) ∧
      (sampleRange.type = .LOOP_EXCEPTION_RANGE →
        r'.breakOffset = positionMap 9 nopsAndPushPass1 sampleRange.breakOffset ∧
        (sampleRange.continueOffset ≥ 0 →
          r'.continueOffset = positionMap 9 nopsAndPushPass1 sampleRange.continueOffset) ∧
        (sampleRange.continueOffset < 0 → r'.continueOffset = sampleRange.continueOffset)) :=
  C7_exception_ranges_remapped sampleInstrSet (fun _ => 0) 9 (positionMap 9 nopsAndPushPass1)
    nopsAndPushPass1.code { sampleEnv nopsAndPush with exceptArray := [sampleRange] } 0
    sampleRange rfl

theorem C8_witness :
    ∃ tbl2, (relocate sampleInstrSet (fun _ => 0) 7 (positionMap 7 nopAndJumpTablePass1)
        nopAndJumpTablePass1.code jumpTableEnv).1.auxData 0 = .jumptableInfo tbl2 ∧
      tbl2 = [("a", 5), ("b", 6)] := by
  obtain ⟨tbl2, h1, h2, _⟩ := C8_jump_table_entries sampleInstrSet_wf (fun _ => 0) (fun _ => 0)
    jumpTableEnv 7 ⟨1, Walk_of_walkB _ _ 7 _ _ _ (by decide)⟩ 1
    ⟨1, Walk_of_walkB _ _ 7 _ _ _ (by decide)⟩ (by decide) (by decide)
    [("a", 5), ("b", 6)] (by decide)
    (by
      intro q hq hlt hne
      obtain ⟨k, hk⟩ := hq
      have hmem := mem_boundaries sampleInstrSet_wf _ 7 7 0 q k hk hlt (by decide)
      have hall : ∀ q' ∈ boundaries sampleInstrSet nopAndJumpTablePass1.code 7 7 0, q' ≠ 1 →
          auxRef sampleInstrSet nopAndJumpTablePass1.code q' ≠ some 0 := by decide
      have := hall q hmem hne
      exact this)
  refine ⟨tbl2, h1, ?_⟩
  rw [h2]
  decide

theorem C9_witness :
    ∃ m', (relocate sampleInstrSet (fun _ => 0) 9 (positionMap 9 nopsAndPushPass1)
        nopsAndPushPass1.code
        { sampleEnv nopsAndPush with cmdMap := [sampleCmd] }).1.cmdMap[0]? = some m' ∧
      m'.codeOffset = positionMap 9 nopsAndPushPass1 1 ∧
      m'.codeOffset + m'.numCodeBytes = positionMap 9 nopsAndPushPass1 (min (1 + 100) 9) ∧
      m'.codeOffset + m'.numCodeBytes ≤ positionMap 9 nopsAndPushPass1 9 ∧
      0 ≤ m'.numCodeBytes := by
  obtain ⟨m', h1, h2, h3, h4⟩ := C9_command_map_clamped sampleInstrSet_wf (fun _ => 0)
    (fun _ => 0) { sampleEnv nopsAndPush with cmdMap := [sampleCmd] } 9 nopsAndPush_decodes 0
    sampleCmd rfl
  obtain ⟨h5, _, h6⟩ := h4 ⟨1, Walk_of_walkB _ _ 9 _ _ _ (by decide)⟩ (by decide) (by decide)
    ⟨2, Walk_of_walkB _ _ 9 _ _ _ (by decide)⟩
  exact ⟨m', h1, h2, h3, h5, h6⟩

theorem C10_witness :
    positionMap 9 nopsAndPushPass1 0 = 0 ∧
    (∀ pc k, Walk sampleInstrSet nopsAndPushPass1.code 0 pc k → pc ≤ 9 →
      positionMap 9 nopsAndPushPass1 pc = pc - k) ∧
    nopsAndPushPass1.nops = 5 ∧
    positionMap 9 nopsAndPushPass1 9 = 9 - nopsAndPushPass1.nops := by
  obtain ⟨h1, h2, _, _, h5⟩ := C10_position_map_invariant sampleInstrSet_wf
    (sampleEnv nopsAndPush).code (fun _ => 0) 9 nopsAndPush_decodes (by decide)
  exact ⟨h1, h2, by decide, h5⟩

/-- The bytes the first loop's body leaves depend only on the instruction's own
bytes. -/
theorem firstPassStep_code_congr {I : InstrSet} {q : Int} {s t : Pass1}
    (h : ∀ x, q ≤ x → t.code x = s.code x) :
    ∀ x, q ≤ x → (firstPassStep I q t).2.code x = (firstPassStep I q s).2.code x := by
  intro x hx
  have hr : resizeArg I t.code q = resizeArg I s.code q :=
    resizeArg_congr (fun y h1 _ => h y h1)
  cases hs : resizeArg I s.code q with
  | none =>
    rw [hs] at hr
    simp only [firstPassStep, hr, hs]
    exact h x hx
  | some arg =>
    rw [hs] at hr
    simp only [firstPassStep, hr, hs]
    rw [shrinkInst_apply, shrinkInst_apply, h x hx, h q (le_refl q)]

theorem firstPassStep_code_none {I : InstrSet} {q : Int} {s : Pass1}
    (h : resizeArg I s.code q = none) : (firstPassStep I q s).2.code = s.code := by
  simp only [firstPassStep, h]

theorem firstPassStep_code_some {I : InstrSet} {q arg : Int} {s : Pass1}
    (h : resizeArg I s.code q = some arg) :
    (firstPassStep I q s).2.code = shrinkInst I arg q s.code ∧
      (firstPassStep I q s).1 = q + 2 := by
  simp only [firstPassStep, h, and_self]

theorem resizeArg_nop {I : InstrSet} {code : Int → Int} {q : Int}
    (h : code q = I.INST_NOP) : resizeArg I code q = none := by
  simp [resizeArg, INST_AT_PC, h]

/-- The bytes of every instruction of the input, after the whole first loop, are
the bytes its own iteration left. -/
theorem firstPass_contents {I : InstrSet} (hI : I.WF) (S : Int) :
    ∀ (fuel : Nat) (pc k : Int) (s : Pass1), Walk I s.code pc S k → S - pc ≤ fuel →
      ∀ q m, Walk I s.code pc q m → q < S → ∀ x, q ≤ x → x < NEXT_PC I s.code q →
        (firstPass I S fuel pc s).code x = (firstPassStep I q s).2.code x := by
  intro fuel
  induction fuel with
  | zero =>
    intro pc k s hw hf q m hq hlt
    have := hq.bounds hI
    omega
  | succ fuel ih =>
    intro pc k s hw hf q m hq hlt x hx1 hx2
    have hqb := hq.bounds hI
    have hpc : pc < S := by omega
    have st := firstPassStep_ok hI hpc hw
    obtain ⟨k1, hk1⟩ := st.decodes
    have hfuel : S - (firstPassStep I pc s).1 ≤ fuel := by
      have := st.next_gt; push_cast at hf; omega
    have rOK := firstPass_ok hI S fuel _ k1 _ hk1 hfuel
    have ih1 := ih _ k1 _ hk1 hfuel
    simp only [firstPass]
    rw [if_pos hpc]
    by_cases hqp : q = pc
    · subst hqp
      by_cases hxn : x < (firstPassStep I q s).1
      · exact rOK.code_below x hxn
      · cases hr : resizeArg I s.code q with
        | none =>
          have := (st.plain hr).2
          omega
        | some arg =>
          obtain ⟨hc, hn⟩ := firstPassStep_code_some hr
          have hwide := wide_facts hI (resizeArg_some hr)
          have hnext : NEXT_PC I s.code q = q + 5 := by
            simp only [NEXT_PC, InstLength, INST_AT_PC, hwide.1]
          have hnop : ∀ y, q + 2 ≤ y → y < q + 5 →
              (firstPassStep I q s).2.code y = I.INST_NOP := by
            intro y h1 h2
            rw [hc, shrinkInst_apply]
            repeat' split
            all_goals first | rfl | omega
          have hwx : ∃ j, Walk I (firstPassStep I q s).2.code (firstPassStep I q s).1 x j := by
            rw [hn]
            have hx : x = q + 2 ∨ x = q + 2 + 1 ∨ x = q + 2 + 1 + 1 := by omega
            rcases hx with hx | hx | hx
            · exact ⟨0, Walk.done _ _ _ hx.symm rfl⟩
            · exact ⟨_, walk_nop hI (hnop _ (by omega) (by omega))
                (Walk.done _ _ _ hx.symm rfl)⟩
            · exact ⟨_, walk_nop hI (hnop _ (by omega) (by omega))
                (walk_nop hI (hnop _ (by omega) (by omega)) (Walk.done _ _ _ hx.symm rfl))⟩
          obtain ⟨j, hj⟩ := hwx
          have hle := ((hw.inv_lt hpc).bounds hI).1
          have hxnop := hnop x (by omega) (by omega)
          have hnx : NEXT_PC I (firstPassStep I q s).2.code x = x + 1 := by
            simp only [NEXT_PC, InstLength, INST_AT_PC, hxnop, hI.len_nop]
          rw [ih1 x j hj (by omega) x (le_refl x) (by omega),
            firstPassStep_code_none (resizeArg_nop hxnop)]
    · have hgt : pc < q := by omega
      obtain ⟨k2, hk2⟩ := st.keeps q m hq hgt
      have hsame := st.tail_same q m hq hgt
      have hnx : NEXT_PC I (firstPassStep I pc s).2.code q = NEXT_PC I s.code q := by
        simp only [NEXT_PC, InstLength, INST_AT_PC, hsame q (le_refl q)]
      rw [ih1 q k2 hk2 hlt x hx1 (by omega)]
      exact firstPassStep_code_congr hsame x hx1

/-- A wide instruction that the first pass shrinks at the boundary `pc`: what the
buffer and the position map hold after the whole first loop. -/
theorem firstPass_shrunk {I : InstrSet} (hI : I.WF) {code : Int → Int} {S k pc m arg : Int}
    (NEW0 : Int → Int) (hw : Walk I code 0 S k) (hpc : Walk I code 0 pc m) (hlt : pc < S)
    (hr : resizeArg I code pc = some arg) :
    (firstPass I S S.toNat 0 ⟨0, code, NEW0⟩).code pc = code pc - 1 ∧
    (firstPass I S S.toNat 0 ⟨0, code, NEW0⟩).code (pc + 1) = arg % 256 ∧
    (firstPass I S S.toNat 0 ⟨0, code, NEW0⟩).code (pc + 2) = I.INST_NOP ∧
    (firstPass I S S.toNat 0 ⟨0, code, NEW0⟩).code (pc + 3) = I.INST_NOP ∧
    (firstPass I S S.toNat 0 ⟨0, code, NEW0⟩).code (pc + 4) = I.INST_NOP ∧
    Walk I (firstPass I S S.toNat 0 ⟨0, code, NEW0⟩).code pc (pc + 5) 3 ∧
    positionMap S (firstPass I S S.toNat 0 ⟨0, code, NEW0⟩) (pc + 5) =
      positionMap S (firstPass I S S.toNat 0 ⟨0, code, NEW0⟩) pc + 2 := by
  have hb := hw.bounds hI
  have hwide := wide_facts hI (resizeArg_some hr)
  have hnext : NEXT_PC I code pc = pc + 5 := by
    simp only [NEXT_PC, InstLength, INST_AT_PC, hwide.1]
  have hend := ((hw.split hI hpc (by omega)).inv_lt hlt).bounds hI
  rw [hnext] at hend
  have hc := firstPass_contents hI S S.toNat 0 k ⟨0, code, NEW0⟩ hw (by omega) pc m hpc hlt
  have hc1 : ∀ x, pc ≤ x → x < pc + 5 →
      (firstPass I S S.toNat 0 ⟨0, code, NEW0⟩).code x = shrinkInst I arg pc code x := by
    intro x h1 h2
    rw [hc x h1 (by dsimp only; omega), (firstPassStep_code_some (s := ⟨0, code, NEW0⟩) hr).1]
  have fp := firstPass_round hI NEW0 hw
  obtain ⟨m1, hm1⟩ := fp.keeps pc m hpc (by omega)
  generalize firstPass I S S.toNat 0 ⟨0, code, NEW0⟩ = r at hc1 fp hm1 ⊢
  have e0 : r.code pc = code pc - 1 := by
    rw [hc1 pc (by omega) (by omega), shrinkInst_apply]
    repeat' split
    all_goals omega
  have e1 : r.code (pc + 1) = arg % 256 := by
    rw [hc1 _ (by omega) (by omega), shrinkInst_apply]
    repeat' split
    all_goals first | rfl | omega
  have e2 : ∀ x, pc + 2 ≤ x → x < pc + 5 → r.code x = I.INST_NOP := by
    intro x h1 h2
    rw [hc1 _ (by omega) (by omega), shrinkInst_apply]
    repeat' split
    all_goals first | rfl | omega
  have hwalk : Walk I r.code pc (pc + 5) 3 := by
    refine walk_op 2 (by rw [e0]; exact hwide.2.2.2.2.1) (by rw [e0]; exact hwide.2.1) ?_
    refine walk_nop hI (k := 2) (e2 _ (by omega) (by omega)) ?_
    refine walk_nop hI (k := 1) (e2 _ (by omega) (by omega)) ?_
    refine walk_nop hI (k := 0) (e2 _ (by omega) (by omega)) ?_
    exact Walk.done _ _ _ (by omega) rfl
  refine ⟨e0, e1, e2 _ (by omega) (by omega), e2 _ (by omega) (by omega),
    e2 _ (by omega) (by omega), hwalk, ?_⟩
  have h5 := hm1.trans hwalk
  have p1 : positionMap S r pc = pc - m1 := by
    unfold positionMap
    rw [store_ne _ _ (by omega), fp.new_eq pc m1 hm1 hlt]; dsimp only; omega
  have p2 : positionMap S r (pc + 5) = pc + 5 - (m1 + 3) := by
    unfold positionMap
    by_cases he : pc + 5 = S
    · have h5' : Walk I r.code 0 S (m1 + 3) := he ▸ h5
      have hu := Walk.unique hI h5' fp.walk
      dsimp only at hu
      rw [he, store_same]
      omega
    · rw [store_ne _ _ he, fp.new_eq _ _ h5 (by omega)]; dsimp only; omega
  omega

/-- An instruction that the first pass does not shrink at the boundary `pc` keeps
all its bytes through the whole first loop. -/
theorem firstPass_kept {I : InstrSet} (hI : I.WF) {code : Int → Int} {S k pc m : Int}
    (NEW0 : Int → Int) (hw : Walk I code 0 S k) (hpc : Walk I code 0 pc m) (hlt : pc < S)
    (hr : resizeArg I code pc = none) :
    ∀ x, pc ≤ x → x < NEXT_PC I code pc →
      (firstPass I S S.toNat 0 ⟨0, code, NEW0⟩).code x = code x := by
  intro x h1 h2
  have hb := hw.bounds hI
  rw [firstPass_contents hI S S.toNat 0 k ⟨0, code, NEW0⟩ hw (by omega) pc m hpc hlt x h1 h2,
    firstPassStep_code_none (s := ⟨0, code, NEW0⟩) hr]

theorem resizeArg_wideOperand {I : InstrSet} (hI : I.WF) {code : Int → Int} {pc : Int}
    (h : isWideOperand I (code pc)) :
    resizeArg I code pc =
      if toInt32 (GET_UINT4_AT_PC code (pc + 1)) < 256
      then some (toInt32 (GET_UINT4_AT_PC code (pc + 1))) else none := by
  have h1 := (wide_facts hI (Or.inl h)).2.2.2.1
  simp [resizeArg, INST_AT_PC, h1, h]

/-- C11: in the first pass a wide push (`INST_PUSH4`) at an instruction boundary
whose 4-byte operand is 255 is narrowed: the opcode becomes `INST_PUSH4 - 1`, the
byte at `pc+1` holds 255 and the bytes `pc+2 .. pc+4` become `INST_NOP`; a wide
push whose operand is 256 is not narrowed, its 5 bytes are left unchanged. -/
theorem C11_narrow_shrink_threshold {I : InstrSet} (hI : I.WF) (code NEW0 : Int → Int)
    (S pc : Int) (hdec : Decodes I code S) (hpc : Boundary I code pc) (hlt : pc < S)
    (hop : INST_AT_PC code pc = I.INST_PUSH4) :
    (GET_UINT4_AT_PC code (pc + 1) = 255 →
      (firstPass I S S.toNat 0 ⟨0, code, NEW0⟩).code pc = I.INST_PUSH4 - 1 ∧
      (firstPass I S S.toNat 0 ⟨0, code, NEW0⟩).code (pc + 1) = 255 ∧
      (firstPass I S S.toNat 0 ⟨0, code, NEW0⟩).code (pc + 2) = I.INST_NOP ∧
      (firstPass I S S.toNat 0 ⟨0, code, NEW0⟩).code (pc + 3) = I.INST_NOP ∧
      (firstPass I S S.toNat 0 ⟨0, code, NEW0⟩).code (pc + 4) = I.INST_NOP) ∧
    (GET_UINT4_AT_PC code (pc + 1) = 256 →
      ∀ x, pc ≤ x → x < pc + 5 →
        (firstPass I S S.toNat 0 ⟨0, code, NEW0⟩).code x = code x) := by
  obtain ⟨k, hw⟩ := hdec
  obtain ⟨m, hm⟩ := hpc
  have hwo : isWideOperand I (code pc) := Or.inl hop
  have hra := resizeArg_wideOperand hI hwo
  constructor
  · intro hv
    rw [hv] at hra
    have hr : resizeArg I code pc = some 255 := by rw [hra]; decide
    obtain ⟨e0, e1, e2, e3, e4, _, _⟩ := firstPass_shrunk hI NEW0 hw hm hlt hr
    refine ⟨?_, ?_, e2, e3, e4⟩
    · rw [e0]; unfold INST_AT_PC at hop; rw [hop]
    · rw [e1]; decide
  · intro hv x h1 h2
    rw [hv] at hra
    have hr : resizeArg I code pc = none := by rw [hra]; decide
    refine firstPass_kept hI NEW0 hw hm hlt hr x h1 ?_
    simp only [NEXT_PC, InstLength, INST_AT_PC, (wide_facts hI (Or.inl hwo)).1]
    exact h2

theorem C11_witness :
    ((firstPass sampleInstrSet 6 6 0 ⟨0, codeOf push255, fun _ => 0⟩).code 0 = 2 - 1 ∧
      (firstPass sampleInstrSet 6 6 0 ⟨0, codeOf push255, fun _ => 0⟩).code 1 = 255 ∧
      (firstPass sampleInstrSet 6 6 0 ⟨0, codeOf push255, fun _ => 0⟩).code 2 = 132 ∧
      (firstPass sampleInstrSet 6 6 0 ⟨0, codeOf push255, fun _ => 0⟩).code 3 = 132 ∧
      (firstPass sampleInstrSet 6 6 0 ⟨0, codeOf push255, fun _ => 0⟩).code 4 = 132) ∧
    (firstPass sampleInstrSet 6 6 0 ⟨0, codeOf push256, fun _ => 0⟩).code 3 = 1 :=
  ⟨(C11_narrow_shrink_threshold sampleInstrSet_wf (codeOf push255) (fun _ => 0) 6 0
      ⟨0, Walk_of_walkB _ _ 6 _ _ _ (by decide)⟩ ⟨0, Walk.done _ _ _ rfl rfl⟩ (by decide)
      (by decide)).1 (by decide),
    (C11_narrow_shrink_threshold sampleInstrSet_wf (codeOf push256) (fun _ => 0) 6 0
      ⟨0, Walk_of_walkB _ _ 6 _ _ _ (by decide)⟩ ⟨0, Walk.done _ _ _ rfl rfl⟩ (by decide)
      (by decide)).2 (by decide) 3 (by decide) (by decide)⟩

/-- C15: for a wide jump or wide conditional jump at an instruction boundary `pc`
with signed 4-byte displacement `d`, the first pass narrows it exactly when
`-128 < d < 127`.  When it narrows, the opcode at `pc` is decremented by exactly
1, the byte at `pc+1` holds `d` as a signed byte (reading it back yields `d`),
the bytes `pc+2, pc+3, pc+4` become `INST_NOP`, and exactly these three bytes are
counted as no-ops between `pc` and `pc+5` (the position map advances by 2 over
the five bytes); when it does not narrow, the five bytes are unchanged. -/
theorem C15_first_pass_jump_narrowing {I : InstrSet} (hI : I.WF) (code NEW0 : Int → Int)
    (S pc d : Int) (hdec : Decodes I code S) (hpc : Boundary I code pc) (hlt : pc < S)
    (hj : isWideJump I (INST_AT_PC code pc)) (hd : GET_INT4_AT_PC code (pc + 1) = d) :
    (isNarrowJump I (INST_AT_PC (firstPass I S S.toNat 0 ⟨0, code, NEW0⟩).code pc) ↔
      -128 < d ∧ d < 127) ∧
    (-128 < d ∧ d < 127 →
      (firstPass I S S.toNat 0 ⟨0, code, NEW0⟩).code pc = code pc - 1 ∧
      GET_INT1_AT_PC (firstPass I S S.toNat 0 ⟨0, code, NEW0⟩).code (pc + 1) = d ∧
      (firstPass I S S.toNat 0 ⟨0, code, NEW0⟩).code (pc + 2) = I.INST_NOP ∧
      (firstPass I S S.toNat 0 ⟨0, code, NEW0⟩).code (pc + 3) = I.INST_NOP ∧
      (firstPass I S S.toNat 0 ⟨0, code, NEW0⟩).code (pc + 4) = I.INST_NOP ∧
      Walk I (firstPass I S S.toNat 0 ⟨0, code, NEW0⟩).code pc (pc + 5) 3 ∧
      positionMap S (firstPass I S S.toNat 0 ⟨0, code, NEW0⟩) (pc + 5) =
        positionMap S (firstPass I S S.toNat 0 ⟨0, code, NEW0⟩) pc + 2) ∧
    (¬ (-128 < d ∧ d < 127) →
      ∀ x, pc ≤ x → x < pc + 5 →
        (firstPass I S S.toNat 0 ⟨0, code, NEW0⟩).code x = code x) := by
  obtain ⟨k, hw⟩ := hdec
  obtain ⟨m, hm⟩ := hpc
  unfold INST_AT_PC at hj ⊢
  have hra := resizeArg_wideJump hI hj
  rw [hd] at hra
  have hin : -128 < d ∧ d < 127 →
      (firstPass I S S.toNat 0 ⟨0, code, NEW0⟩).code pc = code pc - 1 ∧
      GET_INT1_AT_PC (firstPass I S S.toNat 0 ⟨0, code, NEW0⟩).code (pc + 1) = d ∧
      (firstPass I S S.toNat 0 ⟨0, code, NEW0⟩).code (pc + 2) = I.INST_NOP ∧
      (firstPass I S S.toNat 0 ⟨0, code, NEW0⟩).code (pc + 3) = I.INST_NOP ∧
      (firstPass I S S.toNat 0 ⟨0, code, NEW0⟩).code (pc + 4) = I.INST_NOP ∧
      Walk I (firstPass I S S.toNat 0 ⟨0, code, NEW0⟩).code pc (pc + 5) 3 ∧
      positionMap S (firstPass I S S.toNat 0 ⟨0, code, NEW0⟩) (pc + 5) =
        positionMap S (firstPass I S S.toNat 0 ⟨0, code, NEW0⟩) pc + 2 := by
    intro hr
    have hr1 : resizeArg I code pc = some d := by rw [hra, if_pos ⟨hr.2, hr.1⟩]
    obtain ⟨e0, e1, e2, e3, e4, e5, e6⟩ := firstPass_shrunk hI NEW0 hw hm hlt hr1
    refine ⟨e0, ?_, e2, e3, e4, e5, e6⟩
    unfold GET_INT1_AT_PC
    rw [e1]
    split <;> omega
  have hout : ¬ (-128 < d ∧ d < 127) → ∀ x, pc ≤ x → x < pc + 5 →
      (firstPass I S S.toNat 0 ⟨0, code, NEW0⟩).code x = code x := by
    intro hr x h1 h2
    have hr1 : resizeArg I code pc = none := by
      rw [hra, if_neg (fun h => hr ⟨h.2, h.1⟩)]
    refine firstPass_kept hI NEW0 hw hm hlt hr1 x h1 ?_
    simp only [NEXT_PC, InstLength, INST_AT_PC, (wide_facts hI (Or.inr hj)).1]
    exact h2
  refine ⟨⟨?_, ?_⟩, hin, hout⟩
  · intro hn
    by_contra hr
    rw [hout hr pc (le_refl pc) (by omega)] at hn
    exact (narrow_facts hI hn).2.2 (Or.inr hj)
  · intro hr
    rw [(hin hr).1]
    rcases hj with h | h | h
    · rw [h]; exact Or.inl hI.jump1.symm
    · rw [h]; exact Or.inr (Or.inl hI.jump_true1.symm)
    · rw [h]; exact Or.inr (Or.inr hI.jump_false1.symm)

theorem C15_witness :
    (firstPass sampleInstrSet 6 6 0 ⟨0, codeOf wideJump5, fun _ => 0⟩).code 0 = 34 ∧
    GET_INT1_AT_PC (firstPass sampleInstrSet 6 6 0 ⟨0, codeOf wideJump5, fun _ => 0⟩).code 1 = 5 ∧
    (firstPass sampleInstrSet 6 6 0 ⟨0, codeOf wideJump5, fun _ => 0⟩).code 2 = 132 ∧
    positionMap 6 (firstPass sampleInstrSet 6 6 0 ⟨0, codeOf wideJump5, fun _ => 0⟩) 5 =
      positionMap 6 (firstPass sampleInstrSet 6 6 0 ⟨0, codeOf wideJump5, fun _ => 0⟩) 0 + 2 ∧
    (firstPass sampleInstrSet 6 6 0 ⟨0, codeOf wideJump200, fun _ => 0⟩).code 4 = 200 := by
  have h1 := (C15_first_pass_jump_narrowing sampleInstrSet_wf (codeOf wideJump5) (fun _ => 0)
    6 0 5 ⟨0, Walk_of_walkB _ _ 6 _ _ _ (by decide)⟩ ⟨0, Walk.done _ _ _ rfl rfl⟩ (by decide)
    (by decide) (by decide)).2.1 (by decide)
  have h2 := (C15_first_pass_jump_narrowing sampleInstrSet_wf (codeOf wideJump200)
    (fun _ => 0) 6 0 200 ⟨0, Walk_of_walkB _ _ 6 _ _ _ (by decide)⟩
    ⟨0, Walk.done _ _ _ rfl rfl⟩ (by decide) (by decide) (by decide)).2.2 (by decide)
    4 (by decide) (by decide)
  obtain ⟨a0, a1, a2, _, _, _, a6⟩ := h1
  exact ⟨a0, a1, a2, a6, h2⟩

theorem wide_not_narrow {I : InstrSet} (hI : I.WF) {op : Int} (h : isWideJump I op) :
    ¬ isNarrowJump I op :=
  fun hn => (narrow_facts hI hn).2.2 (Or.inr h)

/-- What the second `switch` does to a wide jump at `q` whose new displacement is
`o`: narrowed when `-128 < o < 127` and `o ≠ 5`, left wide with the new
displacement when `o` is outside that range. -/
theorem relocateInst_wideJump {I : InstrSet} (hI : I.WF) (NEW : Int → Int) (junk q o : Int)
    (s : Pass2) (hj : isWideJump I (s.code q))
    (ho : toInt32 (NEW (q + GET_INT4_AT_PC s.code (q + 1)) - NEW q) = o) :
    (-128 < o ∧ o < 127 ∧ o ≠ 5 →
      (relocateInst I NEW junk q s).code q = s.code q - 1 ∧
      GET_INT1_AT_PC (relocateInst I NEW junk q s).code (q + 1) = o ∧
      (relocateInst I NEW junk q s).code (q + 2) = I.INST_NOP ∧
      (relocateInst I NEW junk q s).code (q + 3) = I.INST_NOP ∧
      (relocateInst I NEW junk q s).code (q + 4) = I.INST_NOP) ∧
    (¬ (-128 < o ∧ o < 127) →
      (relocateInst I NEW junk q s).code q = s.code q ∧
      GET_INT4_AT_PC (relocateInst I NEW junk q s).code (q + 1) = o) := by
  have hst : s.code q ≠ I.INST_START_CMD := fun e => hI.start_cmd.2.1 (e ▸ hj)
  have hwf := wide_facts hI (Or.inr hj)
  have hrange := toInt32_range (NEW (q + GET_INT4_AT_PC s.code (q + 1)) - NEW q)
  rw [relocateInst_wide NEW junk q s (wide_not_narrow hI hj) (Or.inl hj)]
  constructor
  · intro h
    rw [relocWide_code_shrink NEW q s hst (by rw [ho]; exact h.2.2)
      (by rw [ho]; exact ⟨h.2.1, h.1⟩), ho]
    refine ⟨?_, ?_, ?_, ?_, ?_⟩
    · rw [shrinkInst_apply]
      repeat' split
      all_goals first | omega | skip
      rw [set_int4_outside _ _ _ _ (Or.inl (by omega))]
      omega
    · unfold GET_INT1_AT_PC
      rw [shrinkInst_apply]
      repeat' split
      all_goals omega
    all_goals
      rw [shrinkInst_apply]
      repeat' split
      all_goals first | rfl | omega
  · intro h
    rw [relocWide_code_keep NEW q s hst (by rw [ho]; omega) (by rw [ho]; omega), ho]
    refine ⟨set_int4_outside _ _ _ _ (Or.inl (by omega)), ?_⟩
    rw [ho] at hrange
    exact get_set_int4 o (q + 1) s.code hrange.1 hrange.2

set_option maxRecDepth 100000 in
/-- C12, counterexample: two well-formed buffers holding a wide jump with displacement 127 and one
with displacement -128: the first pass leaves the wide opcode in place, and
`TclOptimizeBytecode` returns the buffer with the wide jump and its 4-byte
displacement unchanged. -/
theorem C12_counterexample :
    (GET_INT4_AT_PC (codeOf wideJump127) 1 = 127 ∧
      (firstPass sampleInstrSet 128 128 0 ⟨0, codeOf wideJump127, fun _ => 0⟩).code 0 = 35 ∧
      (TclOptimizeBytecode sampleInstrSet (fun _ _ => 0) (fun _ => 0)
          (sampleEnv wideJump127)).map
        (fun e => (INST_AT_PC e.code 0, GET_INT4_AT_PC e.code 1, e.codeSize))
        = some (35, 127, 128)) ∧
    (GET_INT4_AT_PC (codeOf wideJumpBack128) 129 = -128 ∧
      (firstPass sampleInstrSet 133 133 0 ⟨0, codeOf wideJumpBack128, fun _ => 0⟩).code 128
        = 35 ∧
      (TclOptimizeBytecode sampleInstrSet (fun _ _ => 0) (fun _ => 0)
          (sampleEnv wideJumpBack128)).map
        (fun e => (INST_AT_PC e.code 128, GET_INT4_AT_PC e.code 129, e.codeSize))
        = some (35, -128, 133)) := by
  refine ⟨⟨?_, ?_, ?_⟩, ⟨?_, ?_, ?_⟩⟩ <;> decide

/-- C12 (amended): a wide jump (`INST_JUMP4`, `INST_JUMP_TRUE4`, `INST_JUMP_FALSE4`)
with displacement 126 or -127 is narrowed to its 1-byte form; with displacement
127, 128, -128 or -129 it is not narrowed.  This holds of the first pass (the
displacement read from the buffer, lines 110-115) and of the second `switch`
(the relocated displacement, lines 200-207). -/
theorem C12_jump_shrink_threshold {I : InstrSet} (hI : I.WF) (code NEW0 : Int → Int)
    (S pc d : Int) (hdec : Decodes I code S) (hpc : Boundary I code pc) (hlt : pc < S)
    (hj : isWideJump I (INST_AT_PC code pc)) (hd : GET_INT4_AT_PC code (pc + 1) = d) :
    ((d = 126 ∨ d = -127) →
      (firstPass I S S.toNat 0 ⟨0, code, NEW0⟩).code pc = code pc - 1 ∧
      GET_INT1_AT_PC (firstPass I S S.toNat 0 ⟨0, code, NEW0⟩).code (pc + 1) = d ∧
      (firstPass I S S.toNat 0 ⟨0, code, NEW0⟩).code (pc + 2) = I.INST_NOP ∧
      (firstPass I S S.toNat 0 ⟨0, code, NEW0⟩).code (pc + 3) = I.INST_NOP ∧
      (firstPass I S S.toNat 0 ⟨0, code, NEW0⟩).code (pc + 4) = I.INST_NOP) ∧
    ((d = 127 ∨ d = 128 ∨ d = -128 ∨ d = -129) →
      ∀ x, pc ≤ x → x < pc + 5 →
        (firstPass I S S.toNat 0 ⟨0, code, NEW0⟩).code x = code x) ∧
    (∀ (NEW : Int → Int) (junk : Int) (s : Pass2), s.code = code →
      toInt32 (NEW (pc + d) - NEW pc) = 126 ∨ toInt32 (NEW (pc + d) - NEW pc) = -127 →
      (relocateInst I NEW junk pc s).code pc = code pc - 1 ∧
      GET_INT1_AT_PC (relocateInst I NEW junk pc s).code (pc + 1) =
        toInt32 (NEW (pc + d) - NEW pc)) ∧
    (∀ (NEW : Int → Int) (junk : Int) (s : Pass2), s.code = code →
      toInt32 (NEW (pc + d) - NEW pc) = 127 ∨ toInt32 (NEW (pc + d) - NEW pc) = 128 ∨
        toInt32 (NEW (pc + d) - NEW pc) = -128 ∨ toInt32 (NEW (pc + d) - NEW pc) = -129 →
      (relocateInst I NEW junk pc s).code pc = code pc ∧
      GET_INT4_AT_PC (relocateInst I NEW junk pc s).code (pc + 1) =
        toInt32 (NEW (pc + d) - NEW pc)) := by
  obtain ⟨k, hw⟩ := hdec
  obtain ⟨m, hm⟩ := hpc
  unfold INST_AT_PC at hj
  have hra := resizeArg_wideJump hI hj
  rw [hd] at hra
  refine ⟨?_, ?_, ?_, ?_⟩
  · intro hr
    have hr1 : resizeArg I code pc = some d := by rw [hra, if_pos (by omega)]
    obtain ⟨e0, e1, e2, e3, e4, _, _⟩ := firstPass_shrunk hI NEW0 hw hm hlt hr1
    refine ⟨e0, ?_, e2, e3, e4⟩
    unfold GET_INT1_AT_PC
    rw [e1]
    split <;> omega
  · intro hr x h1 h2
    have hr1 : resizeArg I code pc = none := by rw [hra, if_neg (by omega)]
    refine firstPass_kept hI NEW0 hw hm hlt hr1 x h1 ?_
    simp only [NEXT_PC, InstLength, INST_AT_PC, (wide_facts hI (Or.inr hj)).1]
    exact h2
  · intro NEW junk s hs ho
    have h := (relocateInst_wideJump hI NEW junk pc _ s (by rw [hs]; exact hj)
      (by rw [hs, hd])).1 (by omega)
    rw [hs] at h
    exact ⟨h.1, h.2.1⟩
  · intro NEW junk s hs ho
    have h := (relocateInst_wideJump hI NEW junk pc _ s (by rw [hs]; exact hj)
      (by rw [hs, hd])).2 (by omega)
    rw [hs] at h
    exact h

theorem C12_witness :
    (firstPass sampleInstrSet 6 6 0 ⟨0, codeOf wideJump126, fun _ => 0⟩).code 0 = 35 - 1 ∧
    GET_INT1_AT_PC (firstPass sampleInstrSet 6 6 0 ⟨0, codeOf wideJump126, fun _ => 0⟩).code 1
      = 126 ∧
    (firstPass sampleInstrSet 6 6 0 ⟨0, codeOf wideJump126, fun _ => 0⟩).code 2 = 132 :=
  have h := (C12_jump_shrink_threshold sampleInstrSet_wf (codeOf wideJump126) (fun _ => 0) 6 0
    126 ⟨0, Walk_of_walkB _ _ 6 _ _ _ (by decide)⟩ ⟨0, Walk.done _ _ _ rfl rfl⟩ (by decide)
    (by decide) (by decide)).1 (Or.inl rfl)
  ⟨h.1, h.2.1, h.2.2.1⟩

/-- The new position of every boundary of the buffer the second loop reads is a
boundary of the buffer it leaves. -/
theorem secondPass_boundary {I : InstrSet} (hI : I.WF) {NEW junk : Int → Int} {S : Int}
    {s r : Pass2} (hsp : SecondPassOK I NEW junk S 0 s r) (hmap : MapOK I NEW s.code S 0) :
    ∀ a q m, Walk I s.code a q m → ∀ ma, Walk I s.code 0 a ma → q ≤ S →
      ∃ j, Walk I r.code (NEW a) (NEW q) j := by
  intro a q m h
  induction h with
  | done a b k hab hk =>
    intro ma _ _
    subst hab
    exact ⟨0, Walk.done _ _ _ rfl rfl⟩
  | next a b k k' h1 hk ih =>
    intro ma ha hq
    have ha' := ha.trans (Walk.one (I := I) s.code a)
    obtain ⟨j, hj⟩ := ih _ ha' hq
    have hb := h1.bounds hI
    have hgt := next_pc_gt hI s.code a
    have hab := ha.bounds hI
    have e1 := hmap.2 a ma ha (by omega)
    have e2 := hmap.2 _ _ ha' (by omega)
    by_cases hn : s.code a = I.INST_NOP
    · have hnx : NEXT_PC I s.code a = a + 1 := by
        simp only [NEXT_PC, InstLength, INST_AT_PC, hn, hI.len_nop]
      have hna : nopAt I s.code a = 1 := by simp [nopAt, INST_AT_PC, hn]
      have e : NEW (NEXT_PC I s.code a) = NEW a := by omega
      rw [e] at hj
      exact ⟨j, hj⟩
    · have hna : nopAt I s.code a = 0 := by simp [nopAt, INST_AT_PC, hn]
      have hnx : NEXT_PC I s.code a = a + I.numBytes (s.code a) := by
        simp only [NEXT_PC, InstLength, INST_AT_PC]
      have rl := relocateInst_ok hI NEW (junk a) a s hn
      have hsh := Walk.shift hI (e := r.code) (NEW a - a) rl.walk (by
        intro x h1 h2
        have := hsp.contents a ma ha (by omega) hn (x - a) (by omega) (by omega)
        have e3 : NEW a + (x - a) = x + (NEW a - a) := by omega
        have e4 : a + (x - a) = x := by omega
        rw [e3, e4] at this
        exact this)
      have e5 : a + (NEW a - a) = NEW a := by omega
      have e6 : a + I.numBytes (s.code a) + (NEW a - a) = NEW (NEXT_PC I s.code a) := by omega
      rw [e5, e6] at hsh
      exact ⟨_, hsh.trans hj⟩

/-- When the first pass counts no no-op, `TclOptimizeBytecode` returns its
argument as it was. -/
theorem TclOptimizeBytecode_early {I : InstrSet} (hI : I.WF) (junk : Nat → Int → Int)
    (NEW0 : Int → Int) (env : CompileEnv) (hdec : Decodes I env.code env.codeSize)
    (h0 : (firstPass I env.codeSize env.codeSize.toNat 0 ⟨0, env.code, NEW0⟩).nops = 0) :
    TclOptimizeBytecode I junk NEW0 env = some env := by
  obtain ⟨k, hw⟩ := hdec
  have fp := firstPass_round hI NEW0 hw
  have hc := fp.unchanged h0
  unfold TclOptimizeBytecode
  simp only [CompactCode]
  rw [if_pos h0]
  simp only [Option.map_some', Option.some.injEq]
  rw [hc]

/-- The branch of lines 164-173 of the second `switch`: the narrow jump at `q` is
replaced by two no-ops when unconditional, by `INST_POP` and a no-op otherwise. -/
theorem relocateInst_narrow_elide {I : InstrSet} (NEW : Int → Int) (q : Int) (s : Pass2)
    (hj : isNarrowJump I (s.code q)) :
    (s.code q = I.INST_JUMP1 →
      (relocateInst I NEW 2 q s).code q = I.INST_NOP ∧
      (relocateInst I NEW 2 q s).code (q + 1) = I.INST_NOP) ∧
    (s.code q ≠ I.INST_JUMP1 →
      (relocateInst I NEW 2 q s).code q = I.INST_POP ∧
      (relocateInst I NEW 2 q s).code (q + 1) = I.INST_NOP) := by
  unfold relocateInst
  dsimp only [INST_AT_PC]
  rw [if_pos hj]
  unfold relocNarrow
  dsimp only [INST_AT_PC]
  constructor
  · intro h
    rw [if_pos rfl, if_pos h]
    simp [store_apply]
  · intro h
    rw [if_pos rfl, if_neg h]
    simp [store_apply]

/-- C13, counterexample: the buffer `[INST_JUMP1 +2, INST_POP]` and its conditional
variant are returned as they are, even when the unassigned `offset` of line 164
would hold 2: the first pass counts no no-op and `CompactCode` returns before the
second pass. -/
theorem C13_counterexample :
    (TclOptimizeBytecode sampleInstrSet (fun _ _ => 2) (fun _ => 0) (sampleEnv jumpNext)).map
      (fun e => (bytes e.code 3, e.codeSize)) = some ([34, 2, 3], 3) ∧
    (TclOptimizeBytecode sampleInstrSet (fun _ _ => 2) (fun _ => 0)
        (sampleEnv jumpTrueNext)).map
      (fun e => (bytes e.code 3, e.codeSize)) = some ([36, 2, 3], 3) := by
  constructor <;> decide

/-- C13 (amended): for a decodable buffer of the form `[INST_JUMP1 +2, INST_X, ...]`,
or with a conditional narrow jump with displacement 2 in front, on which the
first pass counts no no-op, `TclOptimizeBytecode` returns the environment as it
was, whatever the unassigned `offset` holds: the narrow jump is still at offset
0 with displacement 2 and the length is unchanged. -/
theorem C13_jump_to_next_elision {I : InstrSet} (hI : I.WF) (junk : Nat → Int → Int)
    (NEW0 : Int → Int) (env : CompileEnv) (hdec : Decodes I env.code env.codeSize)
    (hj : isNarrowJump I (INST_AT_PC env.code 0))
    (hd : GET_INT1_AT_PC env.code (0 + 1) = 2)
    (h0 : (firstPass I env.codeSize env.codeSize.toNat 0 ⟨0, env.code, NEW0⟩).nops = 0) :
    ∃ out, TclOptimizeBytecode I junk NEW0 env = some out ∧ out = env ∧
      isNarrowJump I (INST_AT_PC out.code 0) ∧ GET_INT1_AT_PC out.code (0 + 1) = 2 ∧
      out.codeSize = env.codeSize :=
  ⟨env, TclOptimizeBytecode_early hI junk NEW0 env hdec h0, rfl, hj, hd, rfl⟩

theorem C13_witness :
    ∃ out, TclOptimizeBytecode sampleInstrSet (fun _ _ => 0) (fun _ => 0)
        (sampleEnv jumpTrueNext) = some out ∧ out = sampleEnv jumpTrueNext ∧
      isNarrowJump sampleInstrSet (INST_AT_PC out.code 0) ∧
      GET_INT1_AT_PC out.code (0 + 1) = 2 ∧ out.codeSize = (sampleEnv jumpTrueNext).codeSize :=
  C13_jump_to_next_elision sampleInstrSet_wf (fun _ _ => 0) (fun _ => 0)
    (sampleEnv jumpTrueNext) ⟨0, Walk_of_walkB _ _ 3 _ _ _ (by decide)⟩ (by decide)
    (by decide) (by decide)

/-- C14, the code at the failing input `[INST_JUMP4 +5, INST_POP]`: the first pass
narrows the jump to `INST_JUMP1 +5` followed by three no-ops, the second pass
takes the narrow case, where line 164 tests the unassigned `offset` (here 0),
and relocates the displacement to 2; the result is `[INST_JUMP1 +2, INST_POP]`,
the jump is still there.  Only when `offset` happens to hold 2 is the jump
removed. -/
theorem C14_code_at_failing_input :
    bytes (firstPass sampleInstrSet 6 6 0 ⟨0, codeOf wideJump5, fun _ => 0⟩).code 6
      = [34, 5, 132, 132, 132, 3] ∧
    (TclOptimizeBytecode sampleInstrSet (fun _ _ => 0) (fun _ => 0) (sampleEnv wideJump5)).map
      (fun e => (bytes e.code e.codeSize.toNat, e.codeSize)) = some ([34, 2, 3], 3) ∧
    (TclOptimizeBytecode sampleInstrSet (fun _ _ => 2) (fun _ => 0) (sampleEnv wideJump5)).map
      (fun e => (bytes e.code e.codeSize.toNat, e.codeSize)) = some ([3], 1) := by
  refine ⟨?_, ?_, ?_⟩ <;> decide

/-- C16, the code at the failing input `[INST_PUSH4 0xFFFFFFFF, INST_POP]`: the
operand `2^32 - 1` is read into the `int arg`, compares below 256 and the
instruction is narrowed; the byte at `pc+1` then reads back as 255, not as the
operand. -/
theorem C16_code_at_failing_input :
    GET_UINT4_AT_PC (codeOf pushHuge) 1 = 4294967295 ∧
    resizeArg sampleInstrSet (codeOf pushHuge) 0 = some (-1) ∧
    bytes (firstPass sampleInstrSet 6 6 0 ⟨0, codeOf pushHuge, fun _ => 0⟩).code 6
      = [1, 255, 132, 132, 132, 3] ∧
    (TclOptimizeBytecode sampleInstrSet (fun _ _ => 0) (fun _ => 0) (sampleEnv pushHuge)).map
      (fun e => (bytes e.code e.codeSize.toNat, e.codeSize)) = some ([1, 255, 3], 3) := by
  refine ⟨?_, ?_, ?_, ?_⟩ <;> decide

/-- What the first pass does to a wide push, load or store at the boundary `pc`
whose four operand bytes encode the unsigned value `v`: it is narrowed exactly
when `v < 256` or `2^31 ≤ v`; when `v < 256` the byte at `pc+1` reads back as
`v`, when `2^31 ≤ v` it holds `v % 256`. -/
theorem firstPass_operand_narrowing {I : InstrSet} (hI : I.WF) (code NEW0 : Int → Int)
    (S pc v : Int) (hdec : Decodes I code S) (hpc : Boundary I code pc) (hlt : pc < S)
    (hop : isWideOperand I (INST_AT_PC code pc)) (hv : GET_UINT4_AT_PC code (pc + 1) = v)
    (hv0 : 0 ≤ v) (hv1 : v < 4294967296) :
    (v < 256 ∨ 2147483648 ≤ v →
      (firstPass I S S.toNat 0 ⟨0, code, NEW0⟩).code pc = code pc - 1 ∧
      (firstPass I S S.toNat 0 ⟨0, code, NEW0⟩).code (pc + 1) = v % 256 ∧
      (firstPass I S S.toNat 0 ⟨0, code, NEW0⟩).code (pc + 2) = I.INST_NOP ∧
      (firstPass I S S.toNat 0 ⟨0, code, NEW0⟩).code (pc + 3) = I.INST_NOP ∧
      (firstPass I S S.toNat 0 ⟨0, code, NEW0⟩).code (pc + 4) = I.INST_NOP) ∧
    (256 ≤ v ∧ v < 2147483648 →
      ∀ x, pc ≤ x → x < pc + 5 →
        (firstPass I S S.toNat 0 ⟨0, code, NEW0⟩).code x = code x) := by
  obtain ⟨k, hw⟩ := hdec
  obtain ⟨m, hm⟩ := hpc
  unfold INST_AT_PC at hop
  have hra := resizeArg_wideOperand hI hop
  rw [hv] at hra
  constructor
  · intro h
    have hlt256 : toInt32 v < 256 := by unfold toInt32; split <;> omega
    rw [if_pos hlt256] at hra
    obtain ⟨e0, e1, e2, e3, e4, _, _⟩ := firstPass_shrunk hI NEW0 hw hm hlt hra
    refine ⟨e0, ?_, e2, e3, e4⟩
    rw [e1]
    unfold toInt32; split <;> omega
  · intro h x h1 h2
    have hge : ¬ toInt32 v < 256 := by unfold toInt32; split <;> omega
    rw [if_neg hge] at hra
    refine firstPass_kept hI NEW0 hw hm hlt hra x h1 ?_
    simp only [NEXT_PC, InstLength, INST_AT_PC, (wide_facts hI (Or.inl hop)).1]
    exact h2

/-- C18, the code at the failing input `[INST_PUSH4 0xFFFFFFFF, INST_POP]`: no
instruction of the buffer is a no-op, its only wide push has the operand
`2^32 - 1`, which is not below 256, and it has no wide jump; yet the first pass
counts three no-ops (the operand is compared as the negative `int arg`), the
second pass runs, and the buffer and its length change. -/
theorem C18_code_at_failing_input :
    (∀ q ∈ boundaries sampleInstrSet (codeOf pushHuge) 6 6 0,
      INST_AT_PC (codeOf pushHuge) q ≠ sampleInstrSet.INST_NOP ∧
      (isWideOperand sampleInstrSet (INST_AT_PC (codeOf pushHuge) q) →
        ¬ GET_UINT4_AT_PC (codeOf pushHuge) (q + 1) < 256) ∧
      ¬ isWideJump sampleInstrSet (INST_AT_PC (codeOf pushHuge) q)) ∧
    (firstPass sampleInstrSet 6 6 0 ⟨0, codeOf pushHuge, fun _ => 0⟩).nops = 3 ∧
    (TclOptimizeBytecode sampleInstrSet (fun _ _ => 0) (fun _ => 0) (sampleEnv pushHuge)).map
      (fun e => (bytes e.code 3, e.codeSize)) = some ([1, 255, 3], 3) := by
  refine ⟨?_, ?_, ?_⟩ <;> decide

/-- The early return: on a decodable buffer in which no instruction is a no-op,
every wide push, load or store has an operand `v` with `256 ≤ v < 2^31` and no
wide jump has a displacement strictly between -128 and 127, the first pass
counts no no-op and `CompactCode` returns at once: the environment (buffer,
length, exception ranges, auxiliary data, command map) is returned as it was. -/
theorem early_return_unchanged {I : InstrSet} (hI : I.WF) (junk : Nat → Int → Int)
    (NEW0 : Int → Int) (env : CompileEnv) (hdec : Decodes I env.code env.codeSize)
    (hnop : ∀ q, Boundary I env.code q → q < env.codeSize →
      INST_AT_PC env.code q ≠ I.INST_NOP)
    (hopnd : ∀ q, Boundary I env.code q → q < env.codeSize →
      isWideOperand I (INST_AT_PC env.code q) →
      256 ≤ GET_UINT4_AT_PC env.code (q + 1) ∧ GET_UINT4_AT_PC env.code (q + 1) < 2147483648)
    (hjmp : ∀ q, Boundary I env.code q → q < env.codeSize →
      isWideJump I (INST_AT_PC env.code q) →
      ¬ (-128 < GET_INT4_AT_PC env.code (q + 1) ∧ GET_INT4_AT_PC env.code (q + 1) < 127)) :
    (firstPass I env.codeSize env.codeSize.toNat 0 ⟨0, env.code, NEW0⟩).nops = 0 ∧
    CompactCode I junk (env.codeSize.toNat + 1) 0 env NEW0 env.codeSize =
      some (env, (firstPass I env.codeSize env.codeSize.toNat 0 ⟨0, env.code, NEW0⟩).NEW, 1) ∧
    TclOptimizeBytecode I junk NEW0 env = some env := by
  have hdec' := hdec
  obtain ⟨k, hw⟩ := hdec
  have fp := firstPass_round hI NEW0 hw
  have h0 : (firstPass I env.codeSize env.codeSize.toNat 0 ⟨0, env.code, NEW0⟩).nops = 0 := by
    apply fp.clean
    intro q m hq hlt
    dsimp only at hq ⊢
    have h1 := hnop q ⟨m, hq⟩ hlt
    unfold INST_AT_PC at h1
    refine ⟨?_, by simp [nopAt, INST_AT_PC, h1]⟩
    by_cases hwo : isWideOperand I (env.code q)
    · have h2 := hopnd q ⟨m, hq⟩ hlt hwo
      rw [resizeArg_wideOperand hI hwo, if_neg]
      rw [toInt32_id _ (by omega) h2.2]
      omega
    · by_cases hwj : isWideJump I (env.code q)
      · have h3 := hjmp q ⟨m, hq⟩ hlt hwj
        rw [resizeArg_wideJump hI hwj, if_neg]
        intro h
        exact h3 ⟨h.2, h.1⟩
      · exact resizeArg_not_wide (by rw [not_or]; exact ⟨hwo, hwj⟩)
  refine ⟨h0, ?_, TclOptimizeBytecode_early hI junk NEW0 env hdec' h0⟩
  simp only [CompactCode]
  rw [if_pos h0, fp.unchanged h0]

theorem relocateInst_foreach {I : InstrSet} (hI : I.WF) (NEW : Int → Int) (junk pc : Int)
    (s : Pass2) (h : s.code pc = I.INST_FOREACH_START) :
    relocateInst I NEW junk pc s = relocForeach NEW pc s := by
  obtain ⟨h1, h2, h3⟩ := hI.foreach_start
  unfold relocateInst
  dsimp only [INST_AT_PC]
  rw [h, if_neg h1, if_neg (fun e => e.elim h2 h3), if_pos rfl]

/-- The foreach descriptor referred to by exactly one `INST_FOREACH_START` of the
buffer that the second pass reads holds, after the round, the continuation
offset `NEW[pc] + 5 - NEW[pc + 5 - L]`. -/
theorem foreach_relocated {I : InstrSet} (hI : I.WF) (junk NEW0 : Int → Int)
    (code : Int → Int) (aux : Int → AuxData) (S : Int) (hdec : Decodes I code S)
    (pc : Int) (hpc : Boundary I (firstPass I S S.toNat 0 ⟨0, code, NEW0⟩).code pc)
    (hlt : pc < S)
    (hfe : INST_AT_PC (firstPass I S S.toNat 0 ⟨0, code, NEW0⟩).code pc
      = I.INST_FOREACH_START)
    (L : Int)
    (haux : aux (toInt32 (GET_UINT4_AT_PC (firstPass I S S.toNat 0 ⟨0, code, NEW0⟩).code
      (pc + 1))) = .foreachInfo L)
    (honly : ∀ q, Boundary I (firstPass I S S.toNat 0 ⟨0, code, NEW0⟩).code q → q < S →
      q ≠ pc → auxRef I (firstPass I S S.toNat 0 ⟨0, code, NEW0⟩).code q ≠
        some (toInt32 (GET_UINT4_AT_PC (firstPass I S S.toNat 0 ⟨0, code, NEW0⟩).code
          (pc + 1)))) :
    (secondPass I S (positionMap S (firstPass I S S.toNat 0 ⟨0, code, NEW0⟩)) junk S.toNat 0
        ⟨0, (firstPass I S S.toNat 0 ⟨0, code, NEW0⟩).code, aux⟩).aux
      (toInt32 (GET_UINT4_AT_PC (firstPass I S S.toNat 0 ⟨0, code, NEW0⟩).code (pc + 1)))
    = .foreachInfo (positionMap S (firstPass I S S.toNat 0 ⟨0, code, NEW0⟩) pc + 5
        - positionMap S (firstPass I S S.toNat 0 ⟨0, code, NEW0⟩) (pc + 5 - L)) := by
  obtain ⟨k, hw⟩ := hdec
  obtain ⟨kp, hp⟩ := hpc
  have sp := secondPass_round hI NEW0 junk aux hw
  generalize firstPass I S S.toNat 0 ⟨0, code, NEW0⟩ = f at *
  generalize positionMap S f = NEW at *
  have hnop : f.code pc ≠ I.INST_NOP := by
    intro e
    have h5 := hI.len_foreach_start
    rw [← hfe, INST_AT_PC, e, hI.len_nop] at h5
    omega
  have hr : auxRef I f.code pc = some (toInt32 (GET_UINT4_AT_PC f.code (pc + 1))) := by
    simp only [auxRef, hfe, true_or, if_true]
  rw [sp.aux_at _ pc kp hp hlt hnop hr (fun q m hq hl hne => honly q ⟨m, hq⟩ hl hne),
    relocateInst_foreach hI NEW (junk pc) pc ⟨0, f.code, aux⟩ hfe]
  unfold relocForeach
  dsimp only
  rw [haux]
  dsimp only
  rw [store_same]

/-- C17, counterexample: two `INST_FOREACH_START` instructions, at offsets 0 and
6, refer to the same descriptor, whose continuation offset -1 gives the old
targets 6 and 12, both instruction boundaries.  After the round the descriptor
holds 0, but `NEW[6] + 5 - NEW[12] = -1`: the second instruction recomputed the
offset from the value that the first one had already replaced. -/
theorem C17_counterexample :
    (relocate sampleInstrSet (fun _ => 0) 13
        (positionMap 13 (firstPass sampleInstrSet 13 13 0 ⟨0, codeOf sharedForeach, fun _ => 0⟩))
        (firstPass sampleInstrSet 13 13 0 ⟨0, codeOf sharedForeach, fun _ => 0⟩).code
        sharedForeachEnv).1.auxData 0 = .foreachInfo 0 ∧
    positionMap 13 (firstPass sampleInstrSet 13 13 0 ⟨0, codeOf sharedForeach, fun _ => 0⟩) 6
      + 5 - positionMap 13
        (firstPass sampleInstrSet 13 13 0 ⟨0, codeOf sharedForeach, fun _ => 0⟩) (6 + 5 - -1)
      = -1 ∧
    (TclOptimizeBytecode sampleInstrSet (fun _ _ => 0) (fun _ => 0) sharedForeachEnv).map
      (fun e => e.auxData 0) = some (.foreachInfo 0) := by
  refine ⟨?_, ?_, ?_⟩ <;> decide

/-- C17 (amended): after one compaction round with position map `NEW`, for a
loop-start instruction (`INST_FOREACH_START`) at old offset `pc` whose foreach
descriptor is referred to by that instruction only and had the continuation
offset `L` (old target `t = pc + 5 - L`), the descriptor's new continuation
offset is `NEW[pc] + 5 - NEW[t]`; hence the new address of the instruction plus
5 minus the new continuation offset is `NEW[t]`. -/
theorem C17_foreach_continuation {I : InstrSet} (hI : I.WF) (junk NEW0 : Int → Int)
    (env : CompileEnv) (S : Int) (hdec : Decodes I env.code S)
    (pc : Int) (hpc : Boundary I (firstPass I S S.toNat 0 ⟨0, env.code, NEW0⟩).code pc)
    (hlt : pc < S)
    (hfe : INST_AT_PC (firstPass I S S.toNat 0 ⟨0, env.code, NEW0⟩).code pc
      = I.INST_FOREACH_START)
    (L : Int)
    (haux : env.auxData (toInt32 (GET_UINT4_AT_PC
      (firstPass I S S.toNat 0 ⟨0, env.code, NEW0⟩).code (pc + 1))) = .foreachInfo L)
    (honly : ∀ q, Boundary I (firstPass I S S.toNat 0 ⟨0, env.code, NEW0⟩).code q → q < S →
      q ≠ pc → auxRef I (firstPass I S S.toNat 0 ⟨0, env.code, NEW0⟩).code q ≠
        some (toInt32 (GET_UINT4_AT_PC (firstPass I S S.toNat 0 ⟨0, env.code, NEW0⟩).code
          (pc + 1)))) :
    ∃ L2, (relocate I junk S (positionMap S (firstPass I S S.toNat 0 ⟨0, env.code, NEW0⟩))
        (firstPass I S S.toNat 0 ⟨0, env.code, NEW0⟩).code env).1.auxData
        (toInt32 (GET_UINT4_AT_PC (firstPass I S S.toNat 0 ⟨0, env.code, NEW0⟩).code (pc + 1)))
        = .foreachInfo L2 ∧
      L2 = positionMap S (firstPass I S S.toNat 0 ⟨0, env.code, NEW0⟩) pc + 5
        - positionMap S (firstPass I S S.toNat 0 ⟨0, env.code, NEW0⟩) (pc + 5 - L) ∧
      positionMap S (firstPass I S S.toNat 0 ⟨0, env.code, NEW0⟩) pc + 5 - L2
        = positionMap S (firstPass I S S.toNat 0 ⟨0, env.code, NEW0⟩) (pc + 5 - L) := by
  have main := foreach_relocated hI junk NEW0 env.code env.auxData S hdec pc hpc hlt hfe L
    haux honly
  exact ⟨_, main, rfl, by omega⟩

theorem C17_witness :
    ∃ L2, (relocate sampleInstrSet (fun _ => 0) 9
        (positionMap 9 (firstPass sampleInstrSet 9 9 0 ⟨0, codeOf nopAndForeach, fun _ => 0⟩))
        (firstPass sampleInstrSet 9 9 0 ⟨0, codeOf nopAndForeach, fun _ => 0⟩).code
        foreachEnv).1.auxData 0 = .foreachInfo L2 ∧ L2 = -1 := by
  obtain ⟨L2, h1, h2, _⟩ := C17_foreach_continuation sampleInstrSet_wf (fun _ => 0) (fun _ => 0)
    foreachEnv 9 ⟨2, Walk_of_walkB _ _ 9 _ _ _ (by decide)⟩ 1
    ⟨1, Walk_of_walkB _ _ 9 _ _ _ (by decide)⟩ (by decide) (by decide)
    (-2) (by decide)
    (by
      intro q hq hlt hne
      obtain ⟨k, hk⟩ := hq
      have hmem := mem_boundaries sampleInstrSet_wf _ 9 9 0 q k hk hlt (by decide)
      have hall : ∀ q' ∈ boundaries sampleInstrSet
          (firstPass sampleInstrSet 9 (9 : Int).toNat 0
            ⟨0, foreachEnv.code, fun _ => 0⟩).code 9 9 0, q' ≠ 1 →
          auxRef sampleInstrSet (firstPass sampleInstrSet 9 (9 : Int).toNat 0
            ⟨0, foreachEnv.code, fun _ => 0⟩).code q' ≠ some 0 := by decide
      have := hall q hmem hne
      exact this)
  refine ⟨L2, h1, ?_⟩
  rw [h2]
  decide

/-- The case of lines 174-176 of the second `switch`: a narrow jump that is not
elided gets the byte `NEW[target] - NEW[pc]` stored at `pc+1`. -/
theorem relocateInst_narrow_store {I : InstrSet} (NEW : Int → Int) (junk q : Int) (s : Pass2)
    (hj : isNarrowJump I (s.code q)) (hjunk : junk ≠ 2) :
    (relocateInst I NEW junk q s).code =
      SET_INT1_AT_PC (NEW (q + GET_INT1_AT_PC s.code (q + 1)) - NEW q) (q + 1) s.code := by
  unfold relocateInst
  dsimp only [INST_AT_PC]
  rw [if_pos hj]
  unfold relocNarrow
  dsimp only
  rw [if_neg hjunk]

/-- C19: relocation never lengthens a displacement.  For every pair of
instruction boundaries `a ≤ b` of the buffer after the first pass,
`0 ≤ NEW[b] - NEW[a] ≤ b - a`; hence for every narrow jump at `pc` with old
displacement `d` in `[-128, 127]` whose target is a boundary, the relocated
displacement `NEW[pc + d] - NEW[pc]` has the sign of `d` (or is 0) and an
absolute value of at most `|d|`, so the 1-byte store of the second pass does not
truncate it: the byte reads back as the relocated displacement. -/
theorem C19_displacement_never_lengthens {I : InstrSet} (hI : I.WF) (code NEW0 : Int → Int)
    (S : Int) (hdec : Decodes I code S) :
    (∀ a b, Boundary I (firstPass I S S.toNat 0 ⟨0, code, NEW0⟩).code a →
      Boundary I (firstPass I S S.toNat 0 ⟨0, code, NEW0⟩).code b → a ≤ b → b ≤ S →
      0 ≤ positionMap S (firstPass I S S.toNat 0 ⟨0, code, NEW0⟩) b
          - positionMap S (firstPass I S S.toNat 0 ⟨0, code, NEW0⟩) a ∧
        positionMap S (firstPass I S S.toNat 0 ⟨0, code, NEW0⟩) b
          - positionMap S (firstPass I S S.toNat 0 ⟨0, code, NEW0⟩) a ≤ b - a) ∧
    (∀ pc d, Boundary I (firstPass I S S.toNat 0 ⟨0, code, NEW0⟩).code pc → pc < S →
      isNarrowJump I (INST_AT_PC (firstPass I S S.toNat 0 ⟨0, code, NEW0⟩).code pc) →
      GET_INT1_AT_PC (firstPass I S S.toNat 0 ⟨0, code, NEW0⟩).code (pc + 1) = d →
      -128 ≤ d → d ≤ 127 →
      Boundary I (firstPass I S S.toNat 0 ⟨0, code, NEW0⟩).code (pc + d) → pc + d ≤ S →
      (0 ≤ d → 0 ≤ positionMap S (firstPass I S S.toNat 0 ⟨0, code, NEW0⟩) (pc + d)
          - positionMap S (firstPass I S S.toNat 0 ⟨0, code, NEW0⟩) pc) ∧
      (d ≤ 0 → positionMap S (firstPass I S S.toNat 0 ⟨0, code, NEW0⟩) (pc + d)
          - positionMap S (firstPass I S S.toNat 0 ⟨0, code, NEW0⟩) pc ≤ 0) ∧
      |positionMap S (firstPass I S S.toNat 0 ⟨0, code, NEW0⟩) (pc + d)
          - positionMap S (firstPass I S S.toNat 0 ⟨0, code, NEW0⟩) pc| ≤ |d| ∧
      ∀ (junk : Int) (aux : Int → AuxData), junk ≠ 2 →
        GET_INT1_AT_PC (relocateInst I (positionMap S (firstPass I S S.toNat 0 ⟨0, code, NEW0⟩))
            junk pc ⟨0, (firstPass I S S.toNat 0 ⟨0, code, NEW0⟩).code, aux⟩).code (pc + 1)
          = positionMap S (firstPass I S S.toNat 0 ⟨0, code, NEW0⟩) (pc + d)
            - positionMap S (firstPass I S S.toNat 0 ⟨0, code, NEW0⟩) pc) := by
  obtain ⟨k, hw⟩ := hdec
  have hmono := positionMap_mono hI NEW0 hw
  constructor
  · intro a b ha hb hab hbS
    obtain ⟨ka, ha⟩ := ha
    obtain ⟨kb, hb⟩ := hb
    have := hmono a b ka kb ha hb hab hbS
    omega
  · intro pc d hpc hlt hj hd h1 h2 ht htS
    obtain ⟨kp, hp⟩ := hpc
    obtain ⟨kt, ht⟩ := ht
    have hcontr : (0 ≤ d → 0 ≤ positionMap S (firstPass I S S.toNat 0 ⟨0, code, NEW0⟩) (pc + d)
          - positionMap S (firstPass I S S.toNat 0 ⟨0, code, NEW0⟩) pc ∧
        positionMap S (firstPass I S S.toNat 0 ⟨0, code, NEW0⟩) (pc + d)
          - positionMap S (firstPass I S S.toNat 0 ⟨0, code, NEW0⟩) pc ≤ d) ∧
      (d ≤ 0 → d ≤ positionMap S (firstPass I S S.toNat 0 ⟨0, code, NEW0⟩) (pc + d)
          - positionMap S (firstPass I S S.toNat 0 ⟨0, code, NEW0⟩) pc ∧
        positionMap S (firstPass I S S.toNat 0 ⟨0, code, NEW0⟩) (pc + d)
          - positionMap S (firstPass I S S.toNat 0 ⟨0, code, NEW0⟩) pc ≤ 0) := by
      constructor
      · intro h
        have := hmono pc (pc + d) kp kt hp ht (by omega) htS
        omega
      · intro h
        have := hmono (pc + d) pc kt kp ht hp (by omega) (le_of_lt hlt)
        omega
    generalize ho : positionMap S (firstPass I S S.toNat 0 ⟨0, code, NEW0⟩) (pc + d)
      - positionMap S (firstPass I S S.toNat 0 ⟨0, code, NEW0⟩) pc = o at hcontr ⊢
    refine ⟨fun h => (hcontr.1 h).1, fun h => (hcontr.2 h).2, ?_, ?_⟩
    · rw [abs_le]
      rcases le_total 0 d with h | h
      · rw [abs_of_nonneg h]; have := hcontr.1 h; omega
      · rw [abs_of_nonpos h]; have := hcontr.2 h; omega
    · intro junk aux hjunk
      unfold INST_AT_PC at hj
      rw [relocateInst_narrow_store _ junk pc ⟨0, _, aux⟩ hj hjunk]
      dsimp only
      rw [hd, ho]
      have hr : -128 ≤ o ∧ o ≤ 127 := by
        rcases le_total 0 d with h | h
        · have := hcontr.1 h; omega
        · have := hcontr.2 h; omega
      exact get_set_int1 o (pc + 1) _ hr.1 hr.2

theorem C19_witness :
    GET_INT1_AT_PC jumpOverNopPass1.code (0 + 1) = 4 ∧
    |positionMap 5 jumpOverNopPass1 (0 + 4) - positionMap 5 jumpOverNopPass1 0| ≤ |(4 : Int)| ∧
    GET_INT1_AT_PC (relocateInst sampleInstrSet (positionMap 5 jumpOverNopPass1) 0 0
      ⟨0, jumpOverNopPass1.code, fun _ => .other⟩).code (0 + 1)
      = positionMap 5 jumpOverNopPass1 (0 + 4) - positionMap 5 jumpOverNopPass1 0 :=
  have h := (C19_displacement_never_lengthens sampleInstrSet_wf (sampleEnv jumpOverNop).code
    (fun _ => 0) 5 ⟨1, Walk_of_walkB _ _ 5 _ _ _ (by decide)⟩).2 0 4
    ⟨0, Walk.done _ _ _ rfl rfl⟩ (by decide) (by decide) (by decide) (by decide) (by decide)
    ⟨1, Walk_of_walkB _ _ 5 _ _ _ (by decide)⟩ (by decide)
  ⟨by decide, h.2.2.1, h.2.2.2 0 (fun _ => .other) (by decide)⟩

theorem segment_append (code : Int → Int) (a : Int) (n m : Nat) :
    segment code a (n + m) = segment code a n ++ segment code (a + n) m := by
  unfold segment
  rw [List.range_add, List.map_append, List.map_map]
  congr 1
  apply List.map_congr_left
  intro i _
  simp only [Function.comp_apply]
  congr 1
  push_cast
  omega

theorem segment_congr (c e : Int → Int) (a b : Int) (n : Nat)
    (h : ∀ i : Int, 0 ≤ i → i < n → c (a + i) = e (b + i)) : segment c a n = segment e b n := by
  unfold segment
  apply List.map_congr_left
  intro i hi
  rw [List.mem_range] at hi
  exact h i (by omega) (by omega)

/-- The second `switch` changes the bytes of jumps and command-start markers
only. -/
theorem relocateInst_code_other {I : InstrSet} (NEW : Int → Int) (junk pc : Int) (s : Pass2)
    (h : ¬ (isNarrowJump I (s.code pc) ∨ isWideJump I (s.code pc) ∨
      s.code pc = I.INST_START_CMD)) :
    (relocateInst I NEW junk pc s).code = s.code := by
  rw [not_or] at h
  unfold relocateInst
  dsimp only [INST_AT_PC]
  rw [if_neg h.1, if_neg h.2]
  split
  · exact (relocForeach_code NEW pc s).1
  · split
    · exact (relocJumptable_code NEW pc s).1
    · rfl

/-- The bytes that the second loop leaves at the new position of a surviving
instruction are the emitted bytes of that instruction. -/
theorem emittedInst_eq {I : InstrSet} (NEW : Int → Int) (junk pc : Int) (s : Pass2) :
    emittedInst I NEW junk s.code pc =
      segment (relocateInst I NEW junk pc s).code pc (I.numBytes (s.code pc)).toNat := by
  unfold emittedInst
  dsimp only [INST_AT_PC, InstLength]
  apply segment_congr
  intro i h0 _
  have hc := relocateInst_code_congr I NEW junk pc s ⟨0, s.code, fun _ => .other⟩
    (fun _ _ => rfl) (pc + i) (by omega)
  by_cases h : isNarrowJump I (s.code pc) ∨ isWideJump I (s.code pc) ∨
      s.code pc = I.INST_START_CMD
  · rw [if_pos h]; exact hc
  · rw [if_neg h, relocateInst_code_other NEW junk pc s h]

/-- From every boundary on, the output of the second loop is the out-of-place
compaction of the buffer it read. -/
theorem secondPass_outOfPlace {I : InstrSet} (hI : I.WF) {NEW junk : Int → Int} {S : Int}
    {s r : Pass2} (hsp : SecondPassOK I NEW junk S 0 s r) (hmap : MapOK I NEW s.code S 0) :
    ∀ (fuel : Nat) (a ma k : Int), Walk I s.code 0 a ma → Walk I s.code a S k →
      S - a ≤ fuel →
      segment r.code (NEW a) (NEW S - NEW a).toNat =
        outOfPlaceCompaction I NEW junk s.code S fuel a := by
  intro fuel
  induction fuel with
  | zero =>
    intro a ma k _ hk hf
    have := hk.bounds hI
    have e : a = S := by push_cast at hf; omega
    subst e
    simp [outOfPlaceCompaction, segment]
  | succ fuel ih =>
    intro a ma k ha hk hf
    have hb := hk.bounds hI
    simp only [outOfPlaceCompaction]
    by_cases hlt : a < S
    · rw [if_pos hlt]
      have hk1 := hk.inv_lt hlt
      have ha1 := ha.trans (Walk.one (I := I) s.code a)
      have hgt := next_pc_gt hI s.code a
      have hb1 := hk1.bounds hI
      have ih1 := ih _ _ _ ha1 hk1 (by push_cast at hf; omega)
      have e1 := hmap.2 a ma ha (by omega)
      have e2 := hmap.2 _ _ ha1 hb1.1
      have e3 := hmap.2 S _ (ha.trans hk) (le_refl S)
      by_cases hn : s.code a = I.INST_NOP
      · have hna : nopAt I s.code a = 1 := by simp [nopAt, INST_AT_PC, hn]
        have hnx : NEXT_PC I s.code a = a + 1 := by
          simp only [NEXT_PC, InstLength, INST_AT_PC, hn, hI.len_nop]
        have e : NEW (NEXT_PC I s.code a) = NEW a := by omega
        rw [e] at ih1
        rw [if_pos (by rw [INST_AT_PC]; exact hn), List.nil_append, ih1]
      · have hna : nopAt I s.code a = 0 := by simp [nopAt, INST_AT_PC, hn]
        have hnx : NEXT_PC I s.code a = a + I.numBytes (s.code a) := by
          simp only [NEXT_PC, InstLength, INST_AT_PC]
        have hL := hI.len_pos (s.code a)
        have e : NEW (NEXT_PC I s.code a) = NEW a + I.numBytes (s.code a) := by omega
        have hsplit : (NEW S - NEW a).toNat =
            (I.numBytes (s.code a)).toNat + (NEW S - NEW (NEXT_PC I s.code a)).toNat := by
          omega
        rw [if_neg (by rw [INST_AT_PC]; exact hn), hsplit, segment_append, ← ih1,
          emittedInst_eq NEW (junk a) a s]
        congr 1
        · apply segment_congr
          intro i h0 h1
          exact hsp.contents a ma ha hlt hn i h0 (by omega)
        · congr 1
          rw [e]
          omega
    · have e : a = S := by omega
      subst e
      rw [if_neg hlt]
      simp [segment]

/-- C20: the in-place move of the second pass equals an out-of-place
compaction.  In a compaction round on a decodable buffer, every write index
`NEW[pc] + i` of the move loop is at most the read index `pc + i`; the buffer
that the round leaves holds, in its first `NEW[codeSize]` bytes, the
concatenation in their original order of the instructions of the
post-first-pass buffer that are not no-ops, a jump or command-start marker with
the bytes the second `switch` gives it and every other instruction verbatim,
which is the result `outOfPlaceCompaction` of copying the surviving instructions
of the unmodified post-first-pass buffer into a fresh buffer. -/
theorem C20_in_place_equals_out_of_place {I : InstrSet} (hI : I.WF) (junk NEW0 : Int → Int)
    (env : CompileEnv) (S : Int) (hdec : Decodes I env.code S) :
    (∀ pc, Boundary I (firstPass I S S.toNat 0 ⟨0, env.code, NEW0⟩).code pc → pc < S →
      ∀ i, positionMap S (firstPass I S S.toNat 0 ⟨0, env.code, NEW0⟩) pc + i ≤ pc + i) ∧
    (relocate I junk S (positionMap S (firstPass I S S.toNat 0 ⟨0, env.code, NEW0⟩))
      (firstPass I S S.toNat 0 ⟨0, env.code, NEW0⟩).code env).1.codeSize
      = positionMap S (firstPass I S S.toNat 0 ⟨0, env.code, NEW0⟩) S ∧
    segment (relocate I junk S (positionMap S (firstPass I S S.toNat 0 ⟨0, env.code, NEW0⟩))
        (firstPass I S S.toNat 0 ⟨0, env.code, NEW0⟩).code env).1.code 0
        (positionMap S (firstPass I S S.toNat 0 ⟨0, env.code, NEW0⟩) S).toNat
      = outOfPlaceCompaction I (positionMap S (firstPass I S S.toNat 0 ⟨0, env.code, NEW0⟩))
          junk (firstPass I S S.toNat 0 ⟨0, env.code, NEW0⟩).code S S.toNat 0 ∧
    (∀ pc, Boundary I (firstPass I S S.toNat 0 ⟨0, env.code, NEW0⟩).code pc → pc < S →
      INST_AT_PC (firstPass I S S.toNat 0 ⟨0, env.code, NEW0⟩).code pc ≠ I.INST_NOP →
      ¬ (isNarrowJump I (INST_AT_PC (firstPass I S S.toNat 0 ⟨0, env.code, NEW0⟩).code pc) ∨
        isWideJump I (INST_AT_PC (firstPass I S S.toNat 0 ⟨0, env.code, NEW0⟩).code pc) ∨
        INST_AT_PC (firstPass I S S.toNat 0 ⟨0, env.code, NEW0⟩).code pc = I.INST_START_CMD) →
      ∀ i, 0 ≤ i →
        i < InstLength I (INST_AT_PC (firstPass I S S.toNat 0 ⟨0, env.code, NEW0⟩).code pc) →
        (relocate I junk S (positionMap S (firstPass I S S.toNat 0 ⟨0, env.code, NEW0⟩))
          (firstPass I S S.toNat 0 ⟨0, env.code, NEW0⟩).code env).1.code
          (positionMap S (firstPass I S S.toNat 0 ⟨0, env.code, NEW0⟩) pc + i)
        = (firstPass I S S.toNat 0 ⟨0, env.code, NEW0⟩).code (pc + i)) := by
  obtain ⟨k, hw⟩ := hdec
  have hb := hw.bounds hI
  have fp := firstPass_round hI NEW0 hw
  have sp := secondPass_round hI NEW0 junk env.auxData hw
  have hm := positionMap_ok hI NEW0 hw
  have h0 := positionMap_eq hI NEW0 hw 0 0 (Walk.done _ _ _ rfl rfl) hb.1
  have hmain := secondPass_outOfPlace hI sp hm S.toNat 0 0 _ (Walk.done _ _ _ rfl rfl) fp.walk
    (by omega)
  refine ⟨?_, rfl, ?_, ?_⟩
  · intro pc hpc hlt i
    obtain ⟨m, hp⟩ := hpc
    have := hm.2 pc m hp (le_of_lt hlt)
    have := hp.bounds hI
    omega
  · rw [h0] at hmain
    simp only [sub_zero] at hmain
    exact hmain
  · intro pc hpc hlt hn hnj i hi0 hi1
    obtain ⟨m, hp⟩ := hpc
    unfold INST_AT_PC at hn hnj hi1
    have hc := sp.contents pc m hp hlt hn i hi0 hi1
    rw [relocateInst_code_other _ _ _ _ hnj] at hc
    exact hc

theorem C20_witness :
    segment (relocate sampleInstrSet (fun _ => 0) 9 (positionMap 9 nopsAndPushPass1)
        nopsAndPushPass1.code (sampleEnv nopsAndPush)).1.code 0
        (positionMap 9 nopsAndPushPass1 9).toNat
      = outOfPlaceCompaction sampleInstrSet (positionMap 9 nopsAndPushPass1) (fun _ => 0)
          nopsAndPushPass1.code 9 9 0 ∧
    outOfPlaceCompaction sampleInstrSet (positionMap 9 nopsAndPushPass1) (fun _ => 0)
      nopsAndPushPass1.code 9 9 0 = [3, 1, 7, 3] :=
  ⟨(C20_in_place_equals_out_of_place sampleInstrSet_wf (fun _ => 0) (fun _ => 0)
      (sampleEnv nopsAndPush) 9 nopsAndPush_decodes).2.2.1, by decide⟩

end TclOptimize
